import Mathlib

/-!
Shallow embedding of the pyfixmsg library (FIX message container, wire
codec and specification model) and theorems settling the frozen claims
about it.

Modelling conventions:
* Byte strings are `List Nat` of byte values.  Python text decoding with
  UTF-8/ascii is modelled as the identity on byte content (every claim
  concerns ASCII content only), so a decoded text value and the byte
  string it came from are represented by the same `Bytes` value.
* Python dicts keep insertion order; a fragment is an association list in
  insertion order with unique keys, maintained by `dinsert`, and
  `dict(pairs)` (last value wins per key) is `dictOf`.
* Python exceptions (TypeError, KeyError, ValueError, IndexError,
  AssertionError) are `PyErr`; fallible operations return `Except PyErr`.
* `int(...)` parsing of tags accepts optional surrounding ASCII whitespace
  and an optional sign before the digits (Python's underscore digit
  grouping is not modelled; no claim concerns it).
-/

namespace Pyfixmsg

abbrev Bytes := List Nat

inductive PyErr where
  | typeError
  | valueError
  | keyError
  | indexError
  | assertionError
deriving DecidableEq, Repr

/-- Keys of a fragment: `int` tags, or raw byte/str keys kept verbatim for
non-numeric input (pyfixmsg/util.py `int_or_str`). -/
inductive PyKey where
  | knum (n : Int)
  | kraw (s : Bytes)
deriving DecidableEq, Repr

/-- Values stored in a fragment: scalar byte/str values, ints (which appear
as the synthetic group counts emitted by `Codec._unmap`), or a
`RepeatingGroup` (pyfixmsg/__init__.py) carrying its `number_tag`,
`first_tag` and member fragments. -/
inductive PyVal where
  | vStr (s : Bytes)
  | vInt (n : Int)
  | vGrp (numberTag : Option PyKey) (firstTag : Option PyKey)
         (members : List (List (PyKey × PyVal)))

/-- A fragment: a Python dict from tags to values, as an association list
in insertion order with unique keys. -/
abbrev Frag := List (PyKey × PyVal)

/-- Dict lookup (`msg.get(tag)` / `msg[tag]`). -/
def dget : Frag → PyKey → Option PyVal
  | [], _ => none
  | (k, v) :: rest, key => if k = key then some v else dget rest key

/-- Dict store (`msg[tag] = value`): replaces the value in place when the
key is present, appends otherwise (Python dicts keep the original
insertion position on overwrite). -/
def dinsert : Frag → PyKey → PyVal → Frag
  | [], key, val => [(key, val)]
  | (k, v) :: rest, key, val =>
      if k = key then (k, val) :: rest else (k, v) :: dinsert rest key val

/-- Dict delete (`del msg[tag]`): removes the first (only) occurrence. -/
def ddel : Frag → PyKey → Frag
  | [], _ => []
  | (k, v) :: rest, key => if k = key then rest else (k, v) :: ddel rest key

/-- Membership test (`tag in msg`). -/
def dmem (d : Frag) (key : PyKey) : Bool := (dget d key).isSome

/-- Building a dict from a pair sequence (`dict(pairs)`): later values win,
at the position of the first occurrence of the key. -/
def dictOf (l : List (PyKey × PyVal)) : Frag :=
  l.foldl (fun d kv => dinsert d kv.1 kv.2) []

/-- STRSUM: sum of the byte values of a byte string
(pyfixmsg/__init__.py). -/
def STRSUM (s : Bytes) : Nat := s.sum

/-- Decimal ASCII digits of a natural number (`str(n).encode`). -/
def encNat (n : Nat) : Bytes := (Nat.toDigits 10 n).map Char.toNat

/-- Decimal ASCII rendering of an int, with a leading minus sign byte for
negative values (`str(n).encode`). -/
def encInt (n : Int) : Bytes :=
  if n < 0 then 45 :: encNat n.natAbs else encNat n.natAbs

/-- Rendering of a dict key as bytes: byte keys are kept, int keys are
rendered in decimal (`str(tag).encode('ascii')`). -/
def encKeyBytes : PyKey → Bytes
  | .knum n => encInt n
  | .kraw s => s

/-- Rendering of a scalar value as bytes (byte values kept, text encoded,
ints rendered in decimal).  Not used for repeating groups. -/
def encScalarBytes : PyVal → Bytes
  | .vStr s => s
  | .vInt n => encInt n
  | .vGrp _ _ _ => []

/-- Rendering of `str(group.number_tag).encode('ascii')` for the
count-tag/value pair a group contributes in `len_and_chsum`: `None`
renders as the four letters of "None", byte keys as Python3 bytes repr
`b'...'` (claims only exercise plain printable content). -/
def entryTagBytes : Option PyKey → Bytes
  | none => [78, 111, 110, 101]
  | some (.knum n) => encInt n
  | some (.kraw s) => [98, 39] ++ s ++ [39]

mutual
/-- Embedding of the main loop of `len_and_chsum`
(pyfixmsg/__init__.py, lines 119-168): accumulates `(count, chsum_count)`
over the fragment entries.  A pair whose rendered tag is b"8" adds the
tag, value, delimiter and separator bytes to the checksum only; when its
value is a `RepeatingGroup`, Python's `STRSUM` over the member fragments
raises `TypeError`.  Pairs whose rendered tag is b"9" or b"10" are
skipped entirely.  A group pair contributes its `entry_tag` (the
`number_tag` and the member count) plus the members, recursively. -/
def lenChsumLoop : Frag → Except PyErr (Nat × Nat)
  | [] => .ok (0, 0)
  | (k, v) :: rest =>
      if encKeyBytes k = [56] then
        match v with
        | .vGrp _ _ _ => .error .typeError
        | .vStr s =>
            match lenChsumLoop rest with
            | .ok (rc, rs) => .ok (rc, STRSUM (encKeyBytes k) + STRSUM s + 1 + 61 + rs)
            | .error e => .error e
        | .vInt n =>
            match lenChsumLoop rest with
            | .ok (rc, rs) => .ok (rc, STRSUM (encKeyBytes k) + STRSUM (encInt n) + 1 + 61 + rs)
            | .error e => .error e
      else if encKeyBytes k = [57] ∨ encKeyBytes k = [49, 48] then lenChsumLoop rest
      else
        match v with
        | .vGrp nt _ ms =>
            match lenChsumMembers ms, lenChsumLoop rest with
            | .ok (mc, msum), .ok (rc, rs) =>
                let gTag := entryTagBytes nt
                let gVal := encNat ms.length
                .ok (gTag.length + 1 + gVal.length + 1 + mc + rc,
                     STRSUM gTag + 1 + STRSUM gVal + 61 + msum + rs)
            | .error e, _ => .error e
            | .ok _, .error e => .error e
        | .vStr s =>
            match lenChsumLoop rest with
            | .ok (rc, rs) =>
                .ok ((encKeyBytes k).length + 1 + s.length + 1 + rc,
                     STRSUM (encKeyBytes k) + 1 + STRSUM s + 61 + rs)
            | .error e => .error e
        | .vInt n =>
            match lenChsumLoop rest with
            | .ok (rc, rs) =>
                .ok ((encKeyBytes k).length + 1 + (encInt n).length + 1 + rc,
                     STRSUM (encKeyBytes k) + 1 + STRSUM (encInt n) + 61 + rs)
            | .error e => .error e

/-- Sum of `len_and_chsum(member, True)` over the members of a repeating
group. -/
def lenChsumMembers : List Frag → Except PyErr (Nat × Nat)
  | [] => .ok (0, 0)
  | m :: ms =>
      match lenChsumLoop m, lenChsumMembers ms with
      | .ok (mc, msum), .ok (rc, rs) => .ok (mc + rc, msum + rs)
      | .error e, _ => .error e
      | .ok _, .error e => .error e
end

/-- Embedding of `len_and_chsum(msg, group)` (pyfixmsg/__init__.py,
lines 119-172): the loop above, plus - when `group` is false - the final
checksum contribution `119 + STRSUM(str(count))` for the SOH,"9","="
bytes and the body-length digits. -/
def len_and_chsum (msg : Frag) (group : Bool) : Except PyErr (Nat × Nat) :=
  match lenChsumLoop msg with
  | .ok (c, s) => .ok (c, if group then s else s + 119 + STRSUM (encNat c))
  | .error e => .error e

mutual
/-- Modelled from the claim wording of C3 (and spec section 4.4): the sum
of the encoded byte lengths of all tag=value pairs (tag bytes + delimiter
+ value bytes + separator), recursing into repeating groups and including
each group's count-tag/value pair, excluding exactly the pairs whose
rendered tag is in `excl`.  The claim takes `excl` = b"9", b"10"; the
amended claim adds b"8". -/
def claimBodyLenExcl (excl : List Bytes) : Frag → Nat
  | [] => 0
  | (k, v) :: rest =>
      if encKeyBytes k ∈ excl then claimBodyLenExcl excl rest
      else
        match v with
        | .vGrp nt _ ms =>
            (entryTagBytes nt).length + 1 + (encNat ms.length).length + 1
              + claimMembersLenExcl excl ms + claimBodyLenExcl excl rest
        | .vStr s => (encKeyBytes k).length + 1 + s.length + 1 + claimBodyLenExcl excl rest
        | .vInt n => (encKeyBytes k).length + 1 + (encInt n).length + 1 + claimBodyLenExcl excl rest

def claimMembersLenExcl (excl : List Bytes) : List Frag → Nat
  | [] => 0
  | m :: ms => claimBodyLenExcl excl m + claimMembersLenExcl excl ms
end


theorem lenChsum_count_aux :
    (∀ msg : Frag, ∀ p, lenChsumLoop msg = Except.ok p →
        p.1 = claimBodyLenExcl [[56], [57], [49, 48]] msg) ∧
    (∀ ms : List Frag, ∀ p, lenChsumMembers ms = Except.ok p →
        p.1 = claimMembersLenExcl [[56], [57], [49, 48]] ms) := by
  apply lenChsumLoop.mutual_induct <;> intros <;>
    (try casesm* _ ∨ _) <;>
    (try (rename PyVal => vv; cases vv)) <;>
    simp_all [lenChsumLoop, lenChsumMembers, claimBodyLenExcl, claimMembersLenExcl] <;>
    (try (rename_i hpq; subst hpq)) <;> (try rfl) <;>
    (try (rename_i ih h a; exact ih _ _ Prod.mk.eta.symm))

/-- C3 counterexample: on the fragment with the single pair 8=F, the code
returns body length 0 - the tag-8 pair contributes to the checksum only -
while the sum the claim describes (all pairs excluding exactly tags 9 and
10) is 4.  The claim is therefore false as stated: `len_and_chsum` also
excludes tag 8 from the length. -/
theorem C3_counterexample_tag8 :
    (len_and_chsum [(PyKey.knum 8, PyVal.vStr [70])] false).toOption.map Prod.fst = some 0 ∧
    claimBodyLenExcl [[57], [49, 48]] [(PyKey.knum 8, PyVal.vStr [70])] = 4 ∧
    (0 : Nat) ≠ 4 := by
  refine ⟨?_, ?_, by decide⟩ <;>
    simp +decide [len_and_chsum, lenChsumLoop, claimBodyLenExcl, encKeyBytes]

/-- C3 (amended): for every fragment, whenever `len_and_chsum` succeeds its
body-length component equals the sum of the encoded byte lengths of all
tag=value pairs (tag bytes + delimiter + value bytes + separator,
recursing into repeating groups and including each group's
count-tag/value pair), excluding exactly the pairs for tags 8, 9 and 10
(tag 8 is counted in the checksum but not in the length). -/
theorem C3_amended_body_length_excludes_8_9_10 (msg : Frag) (grp : Bool) (p : Nat × Nat)
    (h : len_and_chsum msg grp = Except.ok p) :
    p.1 = claimBodyLenExcl [[56], [57], [49, 48]] msg := by
  have hloop : ∃ q, lenChsumLoop msg = Except.ok q ∧ q.1 = p.1 := by
    unfold len_and_chsum at h
    cases hq : lenChsumLoop msg with
    | ok q => refine ⟨q, rfl, ?_⟩; rw [hq] at h; cases h; rfl
    | error e => rw [hq] at h; cases h
  obtain ⟨q, hq, hq1⟩ := hloop
  rw [← hq1]
  exact lenChsum_count_aux.1 msg q hq

/-- Witness for C3 (amended) at the concrete fragment 35=D. -/
theorem C3_amended_witness :
    len_and_chsum [(PyKey.knum 35, PyVal.vStr [68])] false = Except.ok (5, 406) ∧
    (5 : Nat) = claimBodyLenExcl [[56], [57], [49, 48]] [(PyKey.knum 35, PyVal.vStr [68])] := by
  have h : len_and_chsum [(PyKey.knum 35, PyVal.vStr [68])] false = Except.ok (5, 406) := by
    simp +decide [len_and_chsum, lenChsumLoop, encKeyBytes, STRSUM, encInt, encNat]
  exact ⟨h, C3_amended_body_length_excludes_8_9_10 _ false _ h⟩


/-- HEADER_TAGS (reference.py lines 23-25): fallback header tag order for
specs that do not define a header.  Note 1128 and 1129 appear twice. -/
def HEADER_TAGS : List Int :=
  [8, 9, 35, 1128, 1156, 1129, 49, 56, 115, 128,
   90, 91, 34, 50, 142, 57, 143, 116, 144, 129, 145,
   43, 97, 52, 122, 212, 213, 347, 369, 370, 1128, 1129]

/-- TRAILER_TAGS (reference.py line 26). -/
def TRAILER_TAGS : List Int := [93, 89, 10]

/-- Assoc-map store for the sorting-key dict (`sorting_key[tag] = rank`):
replaces in place or appends. -/
def skInsert : List (Int × Int) → Int → Int → List (Int × Int)
  | [], t, v => [(t, v)]
  | (a, b) :: rest, t, v =>
      if a = t then (a, v) :: rest else (a, b) :: skInsert rest t v

/-- Assoc-map lookup for the sorting-key dict. -/
def skLookup : List (Int × Int) → Int → Option Int
  | [], _ => none
  | (a, b) :: rest, t => if a = t then some b else skLookup rest t

/-- One element of a composition (reference.py `_extract_composition`):
a FixTag, a Component (with its resolved composition), or a Group (count
tag plus its composition).  Pairs carry the `required` flag. -/
inductive CompItem where
  | field (tag : Int)
  | comp (composition : List (CompItem × Bool))
  | group (countTag : Int) (composition : List (CompItem × Bool))

mutual
/-- Embedding of the body loop of `_extract_sorting_key` (reference.py
lines 357-364): with `start_index = index + 1` fixed as `s`, assigns each
item at enumerate position `i` the rank `i + s`; a Component recurses
passing `i + s` as the new `index`; a Group contributes only its count
tag at this level. -/
def skBodyLoop (s : Nat) : List (CompItem × Bool) → Nat → List (Int × Int) → List (Int × Int)
  | [], _, sk => sk
  | (CompItem.field t, _) :: rest, i, sk =>
      skBodyLoop s rest (i + 1) (skInsert sk t ((i + s : Nat) : Int))
  | (CompItem.comp c, _) :: rest, i, sk =>
      skBodyLoop s rest (i + 1) (skBody c sk (i + s))
  | (CompItem.group t _, _) :: rest, i, sk =>
      skBodyLoop s rest (i + 1) (skInsert sk t ((i + s : Nat) : Int))

/-- Embedding of `_extract_sorting_key(definition, spec, sorting_key, index)`
for a non-None sorting_key: the loop above with `start_index = index + 1`. -/
def skBody (definition : List (CompItem × Bool)) (sk : List (Int × Int)) (index : Nat) :
    List (Int × Int) :=
  skBodyLoop (index + 1) definition 0 sk
end

/-- Enumerate-and-assign fold used for the header and trailer loops of
`_extract_sorting_key`: assigns `sk[t] = f i` for each tag at enumerate
position `i`. -/
def skAssignFrom : List Int → Nat → (Nat → Int) → List (Int × Int) → List (Int × Int)
  | [], _, _, sk => sk
  | t :: rest, i, f, sk => skAssignFrom rest (i + 1) f (skInsert sk t (f i))

/-- Embedding of the top-level call of `_extract_sorting_key`
(reference.py lines 340-366), as invoked from `MessageType.sorting_key`,
`Group.sorting_key` and `Component.sorting_key` with `sorting_key=None`:
starts from a dict with 35 at rank 0 and 10 at rank `int(10e9)` (the
integer 10^10), assigns the reversed trailer tags ranks `10e9 - index`,
assigns the header tags ranks `0..H-1` in order (this overwrites the
initial rank of any tag, 35 included, that occurs in the header list),
then walks the composition; the Python loop variable `index` is left at
`H - 1` by the header loop, so body items start at rank `H`.  Empty
spec header/trailer lists fall back to HEADER_TAGS/TRAILER_TAGS (both
non-empty).  `effHeader` is the effective header list
`[item.tag for item in spec.header_tags] or HEADER_TAGS`. -/
def effHeader (specHeaderTags : List Int) : List Int :=
  if specHeaderTags = [] then HEADER_TAGS else specHeaderTags

/-- Effective trailer list: `[item.tag for item in spec.trailer_tags] or TRAILER_TAGS`. -/
def effTrailer (specTrailerTags : List Int) : List Int :=
  if specTrailerTags = [] then TRAILER_TAGS else specTrailerTags

/-- Base sorting-key dict before the composition walk: `{35: 0, 10: int(10e9)}`
updated by the trailer loop (reversed trailer, ranks `10e9 - index`) and
then the header loop (ranks `0..H-1`). -/
def skBase (specHeaderTags specTrailerTags : List Int) : List (Int × Int) :=
  skAssignFrom (effHeader specHeaderTags) 0 (fun i => (i : Int))
    (skAssignFrom (effTrailer specTrailerTags).reverse 0
      (fun i => 10000000000 - (i : Int)) [(35, 0), (10, 10000000000)])

def extract_sorting_key (definition : List (CompItem × Bool))
    (specHeaderTags specTrailerTags : List Int) : List (Int × Int) :=
  skBody definition (skBase specHeaderTags specTrailerTags)
    ((effHeader specHeaderTags).length - 1)

/-- Tags assigned a rank at the top level of a composition by the body
loop: field tags and group count tags, with components flattened
(group members are not assigned at this level). -/
def assignedTags : List (CompItem × Bool) → List Int
  | [] => []
  | (CompItem.field t, _) :: rest => t :: assignedTags rest
  | (CompItem.comp c, _) :: rest => assignedTags c ++ assignedTags rest
  | (CompItem.group t _, _) :: rest => t :: assignedTags rest

/-- Weight of a composition: an upper bound driver for the ranks the body
loop can assign (each item counts 1, components add their contents). -/
def flatSize : List (CompItem × Bool) → Nat
  | [] => 0
  | (CompItem.field _, _) :: rest => 1 + flatSize rest
  | (CompItem.comp c, _) :: rest => 1 + flatSize c + flatSize rest
  | (CompItem.group _ _, _) :: rest => 1 + flatSize rest

/-- Index of the last occurrence of `x` in the list, counting from `i`
(the value `enumerate`-style last-wins assignment leaves behind). -/
def lastIdxFrom : List Int → Int → Nat → Option Nat
  | [], _, _ => none
  | t :: rest, x, i =>
      match lastIdxFrom rest x (i + 1) with
      | some j => some j
      | none => if t = x then some i else none

/-- The tag assigned by a composition item at its own level: a field or a
group count tag; components assign none directly. -/
def itemTag : CompItem → Option Int
  | .field t => some t
  | .comp _ => none
  | .group t _ => some t


theorem skLookup_skInsert (sk : List (Int × Int)) (t v x : Int) :
    skLookup (skInsert sk t v) x = if t = x then some v else skLookup sk x := by
  induction sk with
  | nil => simp [skInsert, skLookup]
  | cons hd rest ih =>
      obtain ⟨a, b⟩ := hd
      simp only [skInsert]
      by_cases hat : a = t
      · subst hat
        by_cases hax : a = x <;> simp [skLookup, hax]
      · rw [if_neg hat]
        by_cases hax : a = x
        · subst hax
          rw [if_neg (fun h => hat h.symm)]
          simp [skLookup]
        · simp [skLookup, hax, ih]

theorem skLookup_skAssignFrom (l : List Int) (i : Nat) (f : Nat → Int)
    (sk : List (Int × Int)) (x : Int) :
    skLookup (skAssignFrom l i f sk) x =
      match lastIdxFrom l x i with
      | some j => some (f j)
      | none => skLookup sk x := by
  induction l generalizing i sk with
  | nil => simp [skAssignFrom, lastIdxFrom]
  | cons t rest ih =>
      simp only [skAssignFrom, lastIdxFrom, ih, skLookup_skInsert]
      cases lastIdxFrom rest x (i + 1) with
      | some j => simp
      | none => by_cases htx : t = x <;> simp [htx]

theorem lastIdxFrom_lt (l : List Int) (x : Int) (i : Nat) (j : Nat)
    (h : lastIdxFrom l x i = some j) : j < i + l.length := by
  induction l generalizing i with
  | nil => simp [lastIdxFrom] at h
  | cons t rest ih =>
      simp only [lastIdxFrom] at h
      cases hrec : lastIdxFrom rest x (i + 1) with
      | some j2 =>
          rw [hrec] at h
          cases h
          have := ih (i + 1) hrec
          simp only [List.length_cons]
          omega
      | none =>
          rw [hrec] at h
          by_cases htx : t = x
          · rw [if_pos htx] at h
            cases h
            simp only [List.length_cons]
            omega
          · rw [if_neg htx] at h
            cases h

theorem skBody_not_assigned_aux :
    (∀ s (d : List (CompItem × Bool)) i sk x, x ∉ assignedTags d →
        skLookup (skBodyLoop s d i sk) x = skLookup sk x) ∧
    (∀ (d : List (CompItem × Bool)) sk idx x, x ∉ assignedTags d →
        skLookup (skBody d sk idx) x = skLookup sk x) := by
  apply skBodyLoop.mutual_induct <;> intros <;>
    simp_all [skBodyLoop, skBody, assignedTags, skLookup_skInsert] <;>
    (try (intro he; subst he; simp_all))

theorem skBody_range_aux :
    (∀ s (d : List (CompItem × Bool)) i sk x v,
        skLookup (skBodyLoop s d i sk) x = some v →
        skLookup sk x = some v ∨ v < ((s + i + flatSize d : Nat) : Int)) ∧
    (∀ (d : List (CompItem × Bool)) sk idx x v,
        skLookup (skBody d sk idx) x = some v →
        skLookup sk x = some v ∨ v < ((idx + 1 + flatSize d : Nat) : Int)) := by
  apply skBodyLoop.mutual_induct
  case case1 =>
    intro s i sk x v h
    left
    simpa [skBodyLoop] using h
  case case2 =>
    intro s t req rest i sk ih x v h
    simp only [skBodyLoop] at h
    rcases ih x v h with h1 | h1
    · rw [skLookup_skInsert] at h1
      by_cases htx : t = x
      · rw [if_pos htx] at h1
        cases h1
        right
        simp only [flatSize]
        push_cast
        omega
      · rw [if_neg htx] at h1
        exact Or.inl h1
    · right
      simp only [flatSize]
      push_cast at h1 ⊢
      omega
  case case3 =>
    intro s c req rest i sk ihc ih x v h
    simp only [skBodyLoop] at h
    rcases ih x v h with h1 | h1
    · rcases ihc x v h1 with h2 | h2
      · exact Or.inl h2
      · right
        simp only [flatSize]
        push_cast at h2 ⊢
        omega
    · right
      simp only [flatSize]
      push_cast at h1 ⊢
      omega
  case case4 =>
    intro s t c req rest i sk ih x v h
    simp only [skBodyLoop] at h
    rcases ih x v h with h1 | h1
    · rw [skLookup_skInsert] at h1
      by_cases htx : t = x
      · rw [if_pos htx] at h1
        cases h1
        right
        simp only [flatSize]
        push_cast
        omega
      · rw [if_neg htx] at h1
        exact Or.inl h1
    · right
      simp only [flatSize]
      push_cast at h1 ⊢
      omega
  case case5 =>
    intro d sk idx ih x v h
    simp only [skBody] at h
    rcases ih x v h with h1 | h1
    · exact Or.inl h1
    · right
      push_cast at h1 ⊢
      omega

theorem skBodyLoop_assign (d : List (CompItem × Bool)) :
    ∀ s i sk n (it : CompItem) (req : Bool) (tail : List (CompItem × Bool)) t,
      d.drop n = (it, req) :: tail → itemTag it = some t → t ∉ assignedTags tail →
      skLookup (skBodyLoop s d i sk) t = some ((i + n + s : Nat) : Int) := by
  induction d with
  | nil =>
      intro s i sk n it req tail t hdrop hit hnot
      simp at hdrop
  | cons hd rest ih =>
      intro s i sk n it req tail t hdrop hit hnot
      cases n with
      | zero =>
          simp only [List.drop_zero] at hdrop
          cases hdrop
          cases it with
          | field tg =>
              simp only [itemTag, Option.some.injEq] at hit
              subst hit
              simp only [skBodyLoop]
              rw [skBody_not_assigned_aux.1 _ _ _ _ _ hnot, skLookup_skInsert]
              simp
          | comp c => simp [itemTag] at hit
          | group tg c =>
              simp only [itemTag, Option.some.injEq] at hit
              subst hit
              simp only [skBodyLoop]
              rw [skBody_not_assigned_aux.1 _ _ _ _ _ hnot, skLookup_skInsert]
              simp
      | succ m =>
          rw [List.drop_succ_cons] at hdrop
          obtain ⟨it0, r0⟩ := hd
          have hrank : i + (m + 1) + s = (i + 1) + m + s := by omega
          cases it0 <;>
            simp only [skBodyLoop] <;>
            rw [hrank] <;>
            exact ih s (i + 1) _ m it req tail t hdrop hit hnot

theorem effHeader_ne_nil (ht : List Int) : effHeader ht ≠ [] := by
  unfold effHeader
  by_cases h : ht = [] <;> simp [h, HEADER_TAGS]

theorem skLookup_skBase (ht tt : List Int) (x : Int) :
    skLookup (skBase ht tt) x =
      match lastIdxFrom (effHeader ht) x 0 with
      | some j => some (j : Int)
      | none =>
          match lastIdxFrom (effTrailer tt).reverse x 0 with
          | some j => some (10000000000 - (j : Int))
          | none => if x = 35 then some 0 else if x = 10 then some 10000000000 else none := by
  unfold skBase
  rw [skLookup_skAssignFrom, skLookup_skAssignFrom]
  cases lastIdxFrom (effHeader ht) x 0 with
  | some j => simp
  | none =>
      cases lastIdxFrom (effTrailer tt).reverse x 0 with
      | some j => simp
      | none =>
          simp only [skLookup]
          by_cases h35 : x = 35
          · simp [h35]
          · by_cases h10 : x = 10
            · subst h10
              simp
            · rw [if_neg (fun h => h35 h.symm), if_neg (fun h => h10 h.symm),
                  if_neg h35, if_neg h10]


/-- C2 counterexample: for a message type with an empty composition under a
spec with no explicit header/trailer lists (so the fallbacks apply), the
sorting key ranks tag 35 at 2 - its position in the header list - not at
0: the initial rank 0 of tag 35 is overwritten by the header loop. -/
theorem C2_counterexample_tag35_rank :
    skLookup (extract_sorting_key [] [] []) 35 = some 2 ∧ (2 : Int) ≠ 0 := by
  constructor
  · simp only [extract_sorting_key, skBody, skBodyLoop]
    decide
  · decide

/-- C2 (amended): in the computed sorting key, header tags get ranks 0..H-1
at their (last) header position - tag 35 included, whose initial rank 0
survives only when 35 is absent from the header list; trailer tags absent
from the header get the ranks `10e9 - reversed-position`; tag 10 keeps
the top rank `int(10e9)` when it is not a header tag and is the last
declared trailer tag (or no trailer tag), and that rank is maximal; and
top-level body fields and group count tags get declaration-order ranks
offset by the header length.  All statements assume the mentioned tag is
not (re)assigned by a later part of the composition walk. -/
theorem C2_amended_sorting_key (d : List (CompItem × Bool)) (ht tt : List Int) :
    (∀ t j, t ∉ assignedTags d → lastIdxFrom (effHeader ht) t 0 = some j →
        skLookup (extract_sorting_key d ht tt) t = some (j : Int)) ∧
    (∀ t j, t ∉ assignedTags d → lastIdxFrom (effHeader ht) t 0 = none →
        lastIdxFrom (effTrailer tt).reverse t 0 = some j →
        skLookup (extract_sorting_key d ht tt) t = some (10000000000 - (j : Int))) ∧
    (10 ∉ assignedTags d → lastIdxFrom (effHeader ht) 10 0 = none →
        (lastIdxFrom (effTrailer tt).reverse 10 0 = some 0 ∨
          lastIdxFrom (effTrailer tt).reverse 10 0 = none) →
        skLookup (extract_sorting_key d ht tt) 10 = some 10000000000) ∧
    (((effHeader ht).length : Int) + (flatSize d : Int) ≤ 10000000000 →
        ∀ x v, skLookup (extract_sorting_key d ht tt) x = some v → v ≤ 10000000000) ∧
    (∀ n it req tail t, d.drop n = (it, req) :: tail → itemTag it = some t →
        t ∉ assignedTags tail →
        skLookup (extract_sorting_key d ht tt) t =
          some ((n + (effHeader ht).length : Nat) : Int)) := by
  have hpos : 0 < (effHeader ht).length :=
    List.length_pos.mpr (effHeader_ne_nil ht)
  refine ⟨?_, ?_, ?_, ?_, ?_⟩
  · intro t j hna hidx
    unfold extract_sorting_key
    rw [skBody_not_assigned_aux.2 _ _ _ _ hna, skLookup_skBase, hidx]
  · intro t j hna hnone hidx
    unfold extract_sorting_key
    rw [skBody_not_assigned_aux.2 _ _ _ _ hna, skLookup_skBase, hnone, hidx]
  · intro hna hnone hdisj
    unfold extract_sorting_key
    rw [skBody_not_assigned_aux.2 _ _ _ _ hna, skLookup_skBase, hnone]
    rcases hdisj with h | h <;> rw [h] <;> simp
  · intro hbound x v h
    unfold extract_sorting_key at h
    rcases skBody_range_aux.2 _ _ _ _ _ h with h1 | h1
    · rw [skLookup_skBase] at h1
      cases hh : lastIdxFrom (effHeader ht) x 0 with
      | some j =>
          rw [hh] at h1
          cases h1
          have := lastIdxFrom_lt _ _ _ _ hh
          have : (j : Int) < ((effHeader ht).length : Int) := by exact_mod_cast by omega
          omega
      | none =>
          rw [hh] at h1
          cases ht2 : lastIdxFrom (effTrailer tt).reverse x 0 with
          | some j =>
              rw [ht2] at h1
              cases h1
              omega
          | none =>
              rw [ht2] at h1
              by_cases h35 : x = 35
              · rw [if_pos h35] at h1
                cases h1
                omega
              · rw [if_neg h35] at h1
                by_cases h10 : x = 10
                · rw [if_pos h10] at h1
                  cases h1
                  omega
                · rw [if_neg h10] at h1
                  cases h1
    · have : ((effHeader ht).length - 1 + 1 + flatSize d : Nat) =
          ((effHeader ht).length + flatSize d : Nat) := by omega
      rw [this] at h1
      push_cast at h1
      omega
  · intro n it req tail t hdrop hit hna
    unfold extract_sorting_key skBody
    have heq : ((0 : Nat) + n + ((effHeader ht).length - 1 + 1) : Nat) =
        ((n + (effHeader ht).length : Nat)) := by omega
    rw [← heq]
    exact skBodyLoop_assign d _ 0 _ n it req tail t hdrop hit hna


/-- Witness for C2 (amended): on the composition [field 54, group 268] under
the fallback header/trailer lists, header tag 49 ranks at its header
position 6, tag 10 keeps the maximal rank, and the body items rank 32 and
33 (offset by the 32-entry header). -/
theorem C2_amended_witness :
    skLookup (extract_sorting_key
        [(CompItem.field 54, true), (CompItem.group 268 [], false)] [] []) 49 = some 6 ∧
    skLookup (extract_sorting_key
        [(CompItem.field 54, true), (CompItem.group 268 [], false)] [] []) 10 =
      some 10000000000 ∧
    skLookup (extract_sorting_key
        [(CompItem.field 54, true), (CompItem.group 268 [], false)] [] []) 54 = some 32 ∧
    skLookup (extract_sorting_key
        [(CompItem.field 54, true), (CompItem.group 268 [], false)] [] []) 268 = some 33 := by
  have h := C2_amended_sorting_key
    [(CompItem.field 54, true), (CompItem.group 268 [], false)] [] []
  refine ⟨?_, ?_, ?_, ?_⟩
  · simpa using h.1 49 6 (by simp +decide [assignedTags]) (by decide)
  · simpa using h.2.2.1 (by simp +decide [assignedTags]) (by decide) (Or.inl (by decide))
  · simpa using h.2.2.2.2 0 (CompItem.field 54) true
      [(CompItem.group 268 [], false)] 54 rfl rfl (by simp +decide [assignedTags])
  · simpa using h.2.2.2.2 1 (CompItem.group 268 []) false [] 268 rfl rfl (by simp [assignedTags])


/-- Assoc-map lookup on byte-string keys (first match; built dicts have
unique keys). -/
def blookup : List (Bytes × Bytes) → Bytes → Option Bytes
  | [], _ => none
  | (k, v) :: rest, key => if k = key then some v else blookup rest key

/-- FixTag (reference.py lines 32-102): name, number, enum `_values` as
(value, name) pairs, and the two lazily built caches `_val_by_name` and
`_val_by_val` (the empty list models the unbuilt or cleared empty dict). -/
structure FixTag where
  name : Bytes
  tag : Int
  values : List (Bytes × Bytes)
  valByName : List (Bytes × Bytes)
  valByVal : List (Bytes × Bytes)

/-- Python truthiness of an optional string argument: `None` and the empty
string are falsy. -/
def truthyArg : Option Bytes → Bool
  | some (_ :: _) => true
  | _ => false

/-- Embedding of `FixTag.del_enum_value(name=None, value=None)`
(reference.py lines 66-90).  Follows the source exactly: `TypeError` when
both arguments are None; when both are truthy the consistency check reads
`self._val_by_name[name]` directly - raising `KeyError` whenever the
lazily built cache is empty or lacks the name - and raises `ValueError`
on a value mismatch; deletion by name (or else by value) checks
membership in `_values` and filters it, then clears both caches. -/
def del_enum_value (t : FixTag) (name value : Option Bytes) : Except PyErr FixTag :=
  if name = none ∧ value = none then .error .typeError
  else
    let consistency :=
      if truthyArg name ∧ truthyArg value then
        match name with
        | some n =>
            match blookup t.valByName n with
            | none => some PyErr.keyError
            | some v0 => if some v0 ≠ value then some PyErr.valueError else none
        | none => none
      else none
    match consistency with
    | some e => .error e
    | none =>
        if truthyArg name then
          match name with
          | some n =>
              if (t.values.map Prod.snd).contains n then
                .ok { t with values := t.values.filter (fun pair => pair.2 ≠ n),
                             valByName := [], valByVal := [] }
              else .error .keyError
          | none => .error .keyError
        else
          match value with
          | some v =>
              if (t.values.map Prod.fst).contains v then
                .ok { t with values := t.values.filter (fun pair => pair.1 ≠ v),
                             valByName := [], valByVal := [] }
              else .error .keyError
          | none => .error .keyError

/-- C6: the code contradicts its own docstring.  On a freshly built FixTag
(caches unbuilt) carrying the enum pair value "B" / name "BUY", deleting
with BOTH the registered name and its matching value raises `KeyError`
(the consistency check indexes the empty `_val_by_name` cache), although
the docstring promises `ValueError` only on a mismatch and success on a
match; with the cache built the same call succeeds.  The claim's
behaviour only holds after `enum_by_name` has populated the cache. -/
theorem C6_del_enum_value_cache_bug :
    del_enum_value
        { name := [], tag := 54, values := [([66], [66, 85, 89])],
          valByName := [], valByVal := [] }
        (some [66, 85, 89]) (some [66]) = .error .keyError ∧
    del_enum_value
        { name := [], tag := 54, values := [([66], [66, 85, 89])],
          valByName := [([66, 85, 89], [66])], valByVal := [] }
        (some [66, 85, 89]) (some [66]) =
      .ok { name := [], tag := 54, values := [],
            valByName := [], valByVal := [] } := by
  constructor <;> rfl


theorem dget_sizeOf (b : Frag) (k : PyKey) (w : PyVal) (h : dget b k = some w) :
    sizeOf w < sizeOf b := by
  induction b with
  | nil => simp [dget] at h
  | cons hd rest ih =>
      obtain ⟨k0, v0⟩ := hd
      simp only [dget] at h
      by_cases hk : k0 = k
      · rw [if_pos hk] at h
        cases h
        simp only [List.cons.sizeOf_spec, Prod.mk.sizeOf_spec]
        omega
      · rw [if_neg hk] at h
        have := ih h
        simp only [List.cons.sizeOf_spec, Prod.mk.sizeOf_spec]
        omega

mutual
/-- Python `==` on fragment values: scalars compare by content and type,
repeating groups compare as lists of their member fragments (the
`number_tag`/`first_tag` attributes do not participate: `list.__eq__`
only sees the elements). -/
def pyEqVal : PyVal → PyVal → Bool
  | .vStr s, .vStr t => s == t
  | .vStr _, .vInt _ => false
  | .vStr _, .vGrp _ _ _ => false
  | .vInt n, .vInt m => n == m
  | .vInt _, .vStr _ => false
  | .vInt _, .vGrp _ _ _ => false
  | .vGrp _ _ ms, .vGrp _ _ ns => pyEqMembers ms ns
  | .vGrp _ _ _, .vStr _ => false
  | .vGrp _ _ _, .vInt _ => false
termination_by a b => sizeOf a + sizeOf b

/-- Python list equality over group members. -/
def pyEqMembers : List Frag → List Frag → Bool
  | [], [] => true
  | [], _ :: _ => false
  | _ :: _, [] => false
  | m :: ms, n :: ns => pyEqFrag m n && pyEqMembers ms ns
termination_by a b => sizeOf a + sizeOf b

/-- Python dict equality between fragments: same size and every key of the
left maps to an equal value in the right. -/
def pyEqFrag (a b : Frag) : Bool :=
  a.length == b.length && pyEqSub a b
termination_by sizeOf a + sizeOf b + 1

/-- Helper of `pyEqFrag`: each key of the left fragment is present in the
right with a `==`-equal value. -/
def pyEqSub : Frag → Frag → Bool
  | [], _ => true
  | (k, v) :: rest, b =>
      (match h : dget b k with
       | some w => pyEqVal v w
       | none => false) && pyEqSub rest b
termination_by a b => sizeOf a + sizeOf b
decreasing_by
  all_goals simp only [List.cons.sizeOf_spec, Prod.mk.sizeOf_spec]
  all_goals try omega
  all_goals (have hsz := dget_sizeOf _ _ _ h; omega)
end


theorem dget_ddel_ne (f : Frag) (k k2 : PyKey) (h : k ≠ k2) :
    dget (ddel f k) k2 = dget f k2 := by
  induction f with
  | nil => simp [ddel, dget]
  | cons hd rest ih =>
      obtain ⟨k0, v0⟩ := hd
      simp only [ddel, dget]
      by_cases hk : k0 = k
      · rw [if_pos hk, if_neg (by rw [hk]; exact h)]
      · rw [if_neg hk]
        by_cases hk2 : k0 = k2
        · simp [dget, hk2]
        · simp [dget, hk2, ih]

theorem ddel_map_fst_sublist (f : Frag) (k : PyKey) :
    ((ddel f k).map Prod.fst).Sublist (f.map Prod.fst) := by
  induction f with
  | nil => simp [ddel]
  | cons hd rest ih =>
      obtain ⟨k0, v0⟩ := hd
      simp only [ddel]
      by_cases hk : k0 = k
      · rw [if_pos hk]
        exact (List.sublist_cons_self _ _)
      · rw [if_neg hk]
        simpa using ih.cons₂ k0

theorem ddel_nodup (f : Frag) (k : PyKey) (h : (f.map Prod.fst).Nodup) :
    ((ddel f k).map Prod.fst).Nodup :=
  (ddel_map_fst_sublist f k).nodup h

theorem dget_ddel_self (f : Frag) (k : PyKey) (h : (f.map Prod.fst).Nodup) :
    dget (ddel f k) k = none := by
  induction f with
  | nil => simp [ddel, dget]
  | cons hd rest ih =>
      obtain ⟨k0, v0⟩ := hd
      simp only [ddel]
      by_cases hk : k0 = k
      · rw [if_pos hk]
        subst hk
        simp only [List.map_cons, List.nodup_cons] at h
        cases hg : dget rest k0 with
        | none => rfl
        | some w =>
            exfalso
            apply h.1
            clear ih h
            induction rest with
            | nil => simp [dget] at hg
            | cons hd2 rest2 ih2 =>
                obtain ⟨k1, v1⟩ := hd2
                simp only [dget] at hg
                by_cases hk1 : k1 = k0
                · simp [hk1]
                · rw [if_neg hk1] at hg
                  simp only [List.map_cons, List.mem_cons]
                  exact Or.inr (ih2 hg)
      · rw [if_neg hk]
        simp only [dget, if_neg hk]
        simp only [List.map_cons, List.nodup_cons] at h
        exact ih h.2

/-- Result of a Python rich comparison that may return `None`. -/
inductive EqRes where
  | pyNone
  | pyBool (b : Bool)
deriving DecidableEq, Repr

/-- FixMessage state relevant to comparison: the tag dict plus the `time`
and `recipient` attributes (fixmessage.py). -/
structure FixMsg where
  frag : Frag
  time : Int
  recipient : Bytes

/-- Embedding of `FixMessage.__eq__` (fixmessage.py lines 186-199).
Comparing against `None` returns Python `None` (before any mutation); for
any other message the method first DELETES tags 9 and 10 from both
operands, then compares the mutated dicts, the times and the recipients.
The returned triple is (result, mutated self, mutated other). -/
def fixMessage_eq (self : FixMsg) (other : Option FixMsg) :
    EqRes × FixMsg × Option FixMsg :=
  match other with
  | none => (.pyNone, self, none)
  | some o =>
      let sf := ddel (ddel self.frag (.knum 9)) (.knum 10)
      let og := ddel (ddel o.frag (.knum 9)) (.knum 10)
      let res :=
        if pyEqFrag sf og then
          if o.time = self.time ∧ o.recipient = self.recipient then true else false
        else false
      (.pyBool res, { self with frag := sf }, some { o with frag := og })

/-- C9-adjacent helper: dict key sets of a fragment. -/
def fragKeys (f : Frag) : List PyKey := f.map Prod.fst

/-- C8: FixMessage equality is not side-effect free.  After `m1 == m2` both
returned operands contain neither tag 9 nor tag 10 (they are deleted
before the dicts are compared, as the result equation shows), and
comparing against `None` returns Python `None` (not `False`) with no
mutation. -/
theorem C8_eq_deletes_framing_and_none (m1 m2 : FixMsg)
    (h1 : (fragKeys m1.frag).Nodup) (h2 : (fragKeys m2.frag).Nodup) :
    dget (fixMessage_eq m1 (some m2)).2.1.frag (.knum 9) = none ∧
    dget (fixMessage_eq m1 (some m2)).2.1.frag (.knum 10) = none ∧
    ((fixMessage_eq m1 (some m2)).2.2.map (fun o => dget o.frag (.knum 9))) = some none ∧
    ((fixMessage_eq m1 (some m2)).2.2.map (fun o => dget o.frag (.knum 10))) = some none ∧
    (fixMessage_eq m1 (some m2)).1 =
      .pyBool (if pyEqFrag (ddel (ddel m1.frag (.knum 9)) (.knum 10))
                    (ddel (ddel m2.frag (.knum 9)) (.knum 10)) then
                 if m2.time = m1.time ∧ m2.recipient = m1.recipient then true else false
               else false) ∧
    (fixMessage_eq m1 none) = (.pyNone, m1, none) ∧
    (∀ b, EqRes.pyNone ≠ EqRes.pyBool b) := by
  refine ⟨?_, ?_, ?_, ?_, rfl, rfl, fun b h => by cases h⟩
  · show dget (ddel (ddel m1.frag (.knum 9)) (.knum 10)) (.knum 9) = none
    rw [dget_ddel_ne _ _ _ (by decide)]
    exact dget_ddel_self _ _ h1
  · exact dget_ddel_self _ _ (ddel_nodup _ _ h1)
  · show some (dget (ddel (ddel m2.frag (.knum 9)) (.knum 10)) (.knum 9)) = some none
    rw [dget_ddel_ne _ _ _ (by decide)]
    rw [dget_ddel_self _ _ h2]
  · show some (dget (ddel (ddel m2.frag (.knum 9)) (.knum 10)) (.knum 10)) = some none
    rw [dget_ddel_self _ _ (ddel_nodup _ _ h2)]

/-- Witness for C8 at concrete messages both carrying tags 9 and 10. -/
theorem C8_witness :
    dget (fixMessage_eq
        ⟨[(.knum 9, .vStr [49]), (.knum 10, .vStr [48]), (.knum 35, .vStr [68])], 0, []⟩
        (some ⟨[(.knum 35, .vStr [68]), (.knum 9, .vStr [50])], 0, []⟩)).2.1.frag
      (.knum 9) = none ∧
    (fixMessage_eq
        ⟨[(.knum 9, .vStr [49]), (.knum 10, .vStr [48]), (.knum 35, .vStr [68])], 0, []⟩
        (none : Option FixMsg)).1 = .pyNone := by
  constructor
  · exact (C8_eq_deletes_framing_and_none _ _ (by decide) (by decide)).1
  · rfl


/-- Python repr of a dict key (printable ASCII content, no escapes). -/
def reprKey : PyKey → Bytes
  | .knum n => encInt n
  | .kraw s => [39] ++ s ++ [39]

mutual
/-- Python str()/repr() of a fragment value, used by `native_str` when the
value is neither text nor an int (a RepeatingGroup renders as the list of
its member dicts).  Restricted to printable ASCII content, no escapes. -/
def reprVal : PyVal → Bytes
  | .vStr s => [39] ++ s ++ [39]
  | .vInt n => encInt n
  | .vGrp _ _ ms => [91] ++ reprMembers ms ++ [93]

/-- Comma-separated repr of group members. -/
def reprMembers : List Frag → Bytes
  | [] => []
  | [m] => reprFrag m
  | m :: m2 :: ms => reprFrag m ++ [44, 32] ++ reprMembers (m2 :: ms)

/-- Repr of one member dict. -/
def reprFrag (f : Frag) : Bytes := [123] ++ reprEntries f ++ [125]

/-- Comma-separated repr of dict entries. -/
def reprEntries : Frag → Bytes
  | [] => []
  | [(k, v)] => reprKey k ++ [58, 32] ++ reprVal v
  | (k, v) :: e2 :: rest =>
      reprKey k ++ [58, 32] ++ reprVal v ++ [44, 32] ++ reprEntries (e2 :: rest)
end

/-- Embedding of `native_str` (util.py lines 27-36) on a fragment value:
ints render in decimal, byte/text values keep their content, anything
else falls back to `str(val)`. -/
def native_str_val : PyVal → Bytes
  | .vInt n => encInt n
  | .vStr s => s
  | .vGrp nt ft ms => reprVal (.vGrp nt ft ms)

/-- ASCII decimal digit test. -/
def isDigitB (b : Nat) : Bool := 48 ≤ b && b ≤ 57

/-- Numeric value of an ASCII digit string. -/
def digitsVal (s : Bytes) : Int :=
  s.foldl (fun acc b => acc * 10 + ((b : Int) - 48)) 0

/-- ASCII whitespace bytes stripped by Python. -/
def isSpaceB (b : Nat) : Bool := b = 32 || b = 9 || b = 10 || b = 11 || b = 12 || b = 13

/-- Strip surrounding ASCII whitespace. -/
def stripWS (s : Bytes) : Bytes :=
  ((s.dropWhile isSpaceB).reverse.dropWhile isSpaceB).reverse

/-- A finite decimal value `mant * 10 ^ exp` as produced by
`decimal.Decimal` on plain numeric strings. -/
structure PyDec where
  mant : Int
  exp : Int
deriving DecidableEq, Repr

/-- Exponent suffix of a Decimal literal: sign? digits, consuming the whole
remainder. -/
def parseExpSuffix (s : Bytes) : Option Int :=
  match s with
  | 43 :: rest => if rest ≠ [] ∧ rest.all isDigitB then some (digitsVal rest) else none
  | 45 :: rest => if rest ≠ [] ∧ rest.all isDigitB then some (-(digitsVal rest)) else none
  | rest => if rest ≠ [] ∧ rest.all isDigitB then some (digitsVal rest) else none

/-- Embedding of `decimal.Decimal(str)` restricted to finite plain numeric
literals: surrounding whitespace, optional sign, digits with an optional
fraction part, optional exponent.  (Specials such as NaN/Infinity and
underscore grouping are not modelled; no claim depends on them.)
Returns `none` when Python would raise `InvalidOperation` (a subclass of
`ArithmeticError`, caught by the `except` in the tag comparators). -/
def pyDecParse (s0 : Bytes) : Option PyDec :=
  let s1 := stripWS s0
  let core := fun (s : Bytes) =>
    let ip := s.takeWhile isDigitB
    let r1 := s.drop ip.length
    match r1 with
    | [] => if ip = [] then none else some (PyDec.mk (digitsVal ip) 0)
    | 46 :: r2 =>
        let fp := r2.takeWhile isDigitB
        let r3 := r2.drop fp.length
        if ip = [] ∧ fp = [] then none
        else
          let base := PyDec.mk (digitsVal (ip ++ fp)) (-(fp.length : Int))
          match r3 with
          | [] => some base
          | 101 :: r4 => (parseExpSuffix r4).map (fun e => PyDec.mk base.mant (base.exp + e))
          | 69 :: r4 => (parseExpSuffix r4).map (fun e => PyDec.mk base.mant (base.exp + e))
          | _ => none
    | 101 :: r4 =>
        if ip = [] then none
        else (parseExpSuffix r4).map (fun e => PyDec.mk (digitsVal ip) e)
    | 69 :: r4 =>
        if ip = [] then none
        else (parseExpSuffix r4).map (fun e => PyDec.mk (digitsVal ip) e)
    | _ => none
  match s1 with
  | 43 :: rest => core rest
  | 45 :: rest => (core rest).map (fun d => PyDec.mk (-d.mant) d.exp)
  | rest => core rest

/-- Comparison of two finite decimals. -/
def decCmp (a b : PyDec) : Ordering :=
  if a.exp ≤ b.exp then compare a.mant (b.mant * 10 ^ (b.exp - a.exp).toNat)
  else compare (a.mant * 10 ^ (a.exp - b.exp).toNat) b.mant

/-- Lexicographic byte-string comparison (Python `str` ordering). -/
def bytesCmp : Bytes → Bytes → Ordering
  | [], [] => .eq
  | [], _ :: _ => .lt
  | _ :: _, [] => .gt
  | a :: as_, b :: bs =>
      if a < b then .lt else if b < a then .gt else bytesCmp as_ bs

/-- Truthiness of a fragment value: empty strings, zero ints and empty
groups are falsy. -/
def pyFalsyVal : PyVal → Bool
  | .vStr s => s.isEmpty
  | .vInt n => n = 0
  | .vGrp _ _ ms => ms.isEmpty

/-- Truthiness of `self.get(tag)`: absent tags give `None`, which is falsy. -/
def pyFalsyOpt : Option PyVal → Bool
  | none => true
  | some v => pyFalsyVal v

/-- Shared tail of the four tag comparators (fixmessage.py lines 436-495):
`native_str` both operands, try converting the left to Decimal - on
failure both stay strings and compare lexicographically; if the left
converts but the right does not, the comparison is Decimal-vs-str, a
`TypeError` in Python 3. -/
def compareOperands (v value : PyVal) : Except PyErr Ordering :=
  let ts := native_str_val v
  let vs := native_str_val value
  match pyDecParse ts with
  | none => .ok (bytesCmp ts vs)
  | some a =>
      match pyDecParse vs with
      | none => .error .typeError
      | some b => .ok (decCmp a b)

/-- Embedding of `FixMessage.tag_lt` (fixmessage.py lines 436-449). -/
def tag_lt (m : FixMsg) (tag : PyKey) (value : PyVal) : Except PyErr Bool :=
  if pyFalsyOpt (dget m.frag tag) then .ok false
  else if pyFalsyVal value then .ok false
  else
    match dget m.frag tag with
    | some v =>
        match compareOperands v value with
        | .ok o => .ok (o = Ordering.lt)
        | .error e => .error e
    | none => .ok false

/-- Embedding of `FixMessage.tag_le` (fixmessage.py lines 451-464). -/
def tag_le (m : FixMsg) (tag : PyKey) (value : PyVal) : Except PyErr Bool :=
  if pyFalsyOpt (dget m.frag tag) then .ok false
  else if pyFalsyVal value then .ok false
  else
    match dget m.frag tag with
    | some v =>
        match compareOperands v value with
        | .ok o => .ok (o ≠ Ordering.gt)
        | .error e => .error e
    | none => .ok false

/-- Embedding of `FixMessage.tag_gt` (fixmessage.py lines 466-479). -/
def tag_gt (m : FixMsg) (tag : PyKey) (value : PyVal) : Except PyErr Bool :=
  if pyFalsyOpt (dget m.frag tag) then .ok false
  else if pyFalsyVal value then .ok false
  else
    match dget m.frag tag with
    | some v =>
        match compareOperands v value with
        | .ok o => .ok (o = Ordering.gt)
        | .error e => .error e
    | none => .ok false

/-- Embedding of `FixMessage.tag_ge` (fixmessage.py lines 481-495). -/
def tag_ge (m : FixMsg) (tag : PyKey) (value : PyVal) : Except PyErr Bool :=
  if pyFalsyOpt (dget m.frag tag) then .ok false
  else if pyFalsyVal value then .ok false
  else
    match dget m.frag tag with
    | some v =>
        match compareOperands v value with
        | .ok o => .ok (o ≠ Ordering.lt)
        | .error e => .error e
    | none => .ok false

/-- C7: each of tag_lt, tag_le, tag_gt, tag_ge returns False whenever the
stored value of the tag is falsy (absent, empty string, zero, empty
group) or the comparison operand is falsy, regardless of whether the
comparison would otherwise hold. -/
theorem C7_falsy_comparisons_return_false (m : FixMsg) (tag : PyKey) (value : PyVal)
    (h : pyFalsyOpt (dget m.frag tag) = true ∨ pyFalsyVal value = true) :
    tag_lt m tag value = .ok false ∧ tag_le m tag value = .ok false ∧
    tag_gt m tag value = .ok false ∧ tag_ge m tag value = .ok false := by
  rcases h with h | h <;>
    refine ⟨?_, ?_, ?_, ?_⟩ <;>
    simp [tag_lt, tag_le, tag_gt, tag_ge, h]

/-- Witness for C7: tag 14 stores the int 0 (falsy) so `tag_gt` against 5
is False even though 0 < 5 would make `tag_lt` "true"; and a truthy
stored value compared against the falsy operand 0 is also False. -/
theorem C7_witness :
    tag_lt ⟨[(.knum 14, .vInt 0)], 0, []⟩ (.knum 14) (.vStr [53]) = .ok false ∧
    tag_ge ⟨[(.knum 44, .vStr [53, 48])], 0, []⟩ (.knum 44) (.vInt 0) = .ok false := by
  constructor
  · exact (C7_falsy_comparisons_return_false _ _ _ (Or.inl (by decide))).1
  · exact (C7_falsy_comparisons_return_false _ _ _ (Or.inr (by decide))).2.2.2


/-- ASCII alphanumeric test (`str.isalnum` on the single-character
delimiter/separator; the claims use ASCII delimiters). -/
def isAlnumB (b : Nat) : Bool :=
  (48 ≤ b && b ≤ 57) || (65 ≤ b && b ≤ 90) || (97 ≤ b && b ≤ 122)

/-- Regex word byte (b"\\w" in a bytes pattern): ASCII letters, digits,
underscore. -/
def isWordByte (b : Nat) : Bool :=
  (48 ≤ b && b ≤ 57) || (65 ≤ b && b ≤ 90) || (97 ≤ b && b ≤ 122) || b = 95

/-- Helper of `wordThenSep`: after one word byte, either the separator
appears (closing a b"\\w+{s}" match) or another word byte continues. -/
def wordThenSepGo (sep : Nat) : Bytes → Bool
  | [] => false
  | d :: rest => d = sep || (isWordByte d && wordThenSepGo sep rest)

/-- Whether the text matches the lookahead body b"\\w+{s}" at its start:
one or more word bytes followed directly by the separator.  The negative
lookahead of FIX_REGEX (codecs/stringfix.py line 21) fails a candidate
pair end exactly when this holds just after the separator. -/
def wordThenSep (sep : Nat) : Bytes → Bool
  | [] => false
  | c :: rest => isWordByte c && wordThenSepGo sep rest

/-- Lazy value scan of FIX_REGEX: the shortest prefix (DOTALL, so any
bytes) whose next byte is the separator with the negative lookahead
satisfied; returns (value, rest after the separator). -/
def findValue (sep : Nat) : Bytes → Option (Bytes × Bytes)
  | [] => none
  | c :: rest =>
      if c = sep ∧ wordThenSep sep rest = false then some ([], rest)
      else
        match findValue sep rest with
        | some (v, r) => some (c :: v, r)
        | none => none

theorem findValue_length (sep : Nat) (s v r : Bytes) (h : findValue sep s = some (v, r)) :
    r.length < s.length := by
  induction s generalizing v with
  | nil => simp [findValue] at h
  | cons c rest ih =>
      simp only [findValue] at h
      by_cases hc : c = sep ∧ wordThenSep sep rest = false
      · rw [if_pos hc] at h
        cases h
        simp
      · rw [if_neg hc] at h
        cases hrec : findValue sep rest with
        | some vr =>
            obtain ⟨v2, r2⟩ := vr
            rw [hrec] at h
            cases h
            have := ih v2 hrec
            simp only [List.length_cons]
            omega
        | none => rw [hrec] at h; cases h

/-- One anchored match attempt of FIX_REGEX at the start of `s`: a greedy
run of non-separator non-delimiter bytes (no backtracking is possible
because a shorter run cannot end at the delimiter), the delimiter, then
the lazy value scan.  Returns ((tag, value), rest after the match). -/
def matchAt (delim sep : Nat) (s : Bytes) : Option ((Bytes × Bytes) × Bytes) :=
  let tag := s.takeWhile (fun c => ¬(c = sep ∨ c = delim))
  match s.drop tag.length with
  | c :: rest2 =>
      if c = delim then (findValue sep rest2).map (fun vr => ((tag, vr.1), vr.2))
      else none
  | [] => none

theorem matchAt_length (delim sep : Nat) (s : Bytes) (tv : Bytes × Bytes) (r : Bytes)
    (h : matchAt delim sep s = some (tv, r)) : r.length < s.length := by
  simp only [matchAt] at h
  split at h
  next c rest2 hdrop =>
    split at h
    next hc =>
      cases hfv : findValue sep rest2 with
      | none => rw [hfv] at h; cases h
      | some vr =>
          obtain ⟨v2, r2⟩ := vr
          rw [hfv] at h
          cases h
          have h1 := findValue_length sep rest2 v2 r2 hfv
          have h2 : rest2.length < s.length := by
            have h3 := congrArg List.length hdrop
            rw [List.length_drop] at h3
            simp only [List.length_cons] at h3
            omega
          show r2.length < s.length
          omega
    next hc => cases h
  next hdrop => cases h

/-- Embedding of `FIX_REGEX.findall` (re scanning semantics): try an
anchored match at each position; on success continue after the match, on
failure advance one byte. -/
def findall (delim sep : Nat) : Bytes → List (Bytes × Bytes)
  | [] => []
  | c :: rest =>
      match h : matchAt delim sep (c :: rest) with
      | some (tv, r) => tv :: findall delim sep r
      | none => findall delim sep rest
termination_by s => s.length
decreasing_by
  · have := matchAt_length _ _ _ _ _ h
    simpa using this
  · simp

/-- The negative-lookahead body fails on a digit tag followed by the
delimiter when the delimiter is not a word byte and differs from the
separator. -/
theorem wordThenSepGo_boundary (sep delim : Nat) (hdw : isWordByte delim = false)
    (hds : delim ≠ sep) (hsa : isAlnumB sep = false) :
    ∀ (t rest : Bytes), t.all isDigitB = true →
      wordThenSepGo sep (t ++ delim :: rest) = false := by
  intro t
  induction t with
  | nil =>
      intro rest _
      simp [wordThenSepGo, hdw, fun h => hds h]
  | cons c t' ih =>
      intro rest hall
      simp only [List.all_cons, Bool.and_eq_true] at hall
      have hcs : c ≠ sep := by
        intro h
        rw [h] at hall
        have := hall.1
        simp [isDigitB] at this
        simp [isAlnumB] at hsa
        omega
      simp [wordThenSepGo, hcs, ih rest hall.2]

theorem wordThenSep_boundary (sep delim : Nat) (hdw : isWordByte delim = false)
    (hds : delim ≠ sep) (hsa : isAlnumB sep = false)
    (t rest : Bytes) (hall : t.all isDigitB = true) :
    wordThenSep sep (t ++ delim :: rest) = false := by
  cases t with
  | nil => simp [wordThenSep, hdw]
  | cons c t' =>
      simp only [List.all_cons, Bool.and_eq_true] at hall
      simp [wordThenSep, wordThenSepGo_boundary sep delim hdw hds hsa t' rest hall.2]

/-- The lazy value scan stops exactly at the separator closing the pair
when the value is separator-free and the lookahead fails after it. -/
theorem findValue_boundary (sep : Nat) (v rest : Bytes)
    (hv : ∀ b ∈ v, b ≠ sep) (hla : wordThenSep sep rest = false) :
    findValue sep (v ++ sep :: rest) = some (v, rest) := by
  induction v with
  | nil => simp [findValue, hla]
  | cons c v' ih =>
      have hc : c ≠ sep := hv c (by simp)
      have ih2 := ih (fun b hb => hv b (by simp [hb]))
      simp only [List.cons_append, findValue]
      rw [if_neg (by simp [hc])]
      simp only [List.append_eq]
      rw [ih2]

theorem takeWhile_append_all {p : Nat → Bool} (t z : Bytes) (h : ∀ b ∈ t, p b = true) :
    (t ++ z).takeWhile p = t ++ z.takeWhile p := by
  induction t with
  | nil => simp
  | cons c t' ih =>
      simp only [List.cons_append, List.takeWhile_cons, h c (by simp)]
      rw [ih (fun b hb => h b (by simp [hb]))]
      simp

/-- One anchored match on a well-formed leading pair returns that pair and
the rest of the buffer. -/
theorem matchAt_pair (delim sep : Nat) (t v rest : Bytes)
    (hdw : isWordByte delim = false) (hds : delim ≠ sep)
    (hsa : isAlnumB sep = false) (hda : isAlnumB delim = false)
    (ht : t.all isDigitB = true)
    (hv : ∀ b ∈ v, b ≠ sep) (hla : wordThenSep sep rest = false) :
    matchAt delim sep (t ++ delim :: (v ++ sep :: rest)) = some ((t, v), rest) := by
  have htp : ∀ b ∈ t, (¬(b = sep ∨ b = delim) : Bool) = true := by
    intro b hb
    rw [List.all_eq_true] at ht
    have := ht b hb
    simp [isDigitB] at this
    simp [isAlnumB] at hsa hda
    simp
    omega
  have htake : (t ++ delim :: (v ++ sep :: rest)).takeWhile
      (fun c => ¬(c = sep ∨ c = delim)) = t := by
    rw [takeWhile_append_all t _ htp]
    simp [List.takeWhile_cons]
  rw [matchAt]
  simp only [htake]
  rw [List.drop_left]
  simp only [if_pos rfl]
  rw [findValue_boundary sep v rest hv hla]
  rfl

/-- Wire image of a list of raw (tag bytes, value bytes) pairs:
tag, delimiter, value, separator, repeated. -/
def wireOf (delim sep : Nat) : List (Bytes × Bytes) → Bytes
  | [] => []
  | (t, v) :: ps => t ++ delim :: (v ++ sep :: wireOf delim sep ps)

/-- The lookahead fails at the start of any well-formed wire suffix. -/
theorem wordThenSep_wireOf (delim sep : Nat) (hdw : isWordByte delim = false)
    (hds : delim ≠ sep) (hsa : isAlnumB sep = false)
    (ps : List (Bytes × Bytes)) (hps : ∀ p ∈ ps, (p.1).all isDigitB = true) :
    wordThenSep sep (wireOf delim sep ps) = false := by
  cases ps with
  | nil => simp [wireOf, wordThenSep]
  | cons p ps' =>
      obtain ⟨t, v⟩ := p
      exact wordThenSep_boundary sep delim hdw hds hsa t _ (hps (t, v) (by simp))

/-- `FIX_REGEX.findall` recovers exactly the pairs of a well-formed wire:
digit tags, separator-free values, non-alphanumeric non-word framing
bytes. -/
theorem findall_wireOf (delim sep : Nat)
    (hdw : isWordByte delim = false) (hds : delim ≠ sep)
    (hsa : isAlnumB sep = false) (hda : isAlnumB delim = false)
    (ps : List (Bytes × Bytes))
    (hps : ∀ p ∈ ps, (p.1).all isDigitB = true ∧ ∀ b ∈ p.2, b ≠ sep) :
    findall delim sep (wireOf delim sep ps) = ps := by
  induction ps with
  | nil => simp [wireOf, findall]
  | cons p ps' ih =>
      obtain ⟨t, v⟩ := p
      have hm : matchAt delim sep (wireOf delim sep ((t, v) :: ps')) =
          some ((t, v), wireOf delim sep ps') := by
        rw [show wireOf delim sep ((t, v) :: ps') =
            t ++ delim :: (v ++ sep :: wireOf delim sep ps') from rfl]
        exact matchAt_pair delim sep t v _ hdw hds hsa hda
          (hps (t, v) (by simp)).1 (hps (t, v) (by simp)).2
          (wordThenSep_wireOf delim sep hdw hds hsa ps'
            (fun p hp => ((hps p (by simp [hp])).1)))
      have hne : wireOf delim sep ((t, v) :: ps') ≠ [] := by
        cases t <;> simp [wireOf]
      rcases hW : wireOf delim sep ((t, v) :: ps') with _ | ⟨c, w⟩
      · exact absurd hW hne
      · rw [← hW]
        rw [hW, findall]
        rw [hW] at hm
        rw [hm]
        rw [← hW, show wireOf delim sep ((t, v) :: ps') =
            t ++ delim :: (v ++ sep :: wireOf delim sep ps') from rfl] at hm
        simp only []
        rw [ih (fun p hp => hps p (by simp [hp]))]

/-- Embedding of `int()` on a tag byte string: optional surrounding ASCII
whitespace, optional sign, at least one digit. -/
def pyIntParse (s : Bytes) : Option Int :=
  match stripWS s with
  | [] => none
  | c :: rest =>
      if c = 43 then
        if rest ≠ [] ∧ rest.all isDigitB then some (digitsVal rest) else none
      else if c = 45 then
        if rest ≠ [] ∧ rest.all isDigitB then some (-(digitsVal rest)) else none
      else if (c :: rest).all isDigitB then some (digitsVal (c :: rest)) else none

/-- Embedding of `int_or_str` (util.py lines 11-24): an int when the bytes
parse as one, otherwise the stripped byte string (text decoding is the
identity in this model). -/
def int_or_str (s : Bytes) : PyKey :=
  match pyIntParse s with
  | some n => .knum n
  | none => .kraw (stripWS s)

theorem toDigitsCore_acc (fuel : Nat) : ∀ (n : Nat) (acc : List Char),
    Nat.toDigitsCore 10 fuel n acc = Nat.toDigitsCore 10 fuel n [] ++ acc := by
  induction fuel with
  | zero => intro n acc; simp [Nat.toDigitsCore]
  | succ f ih =>
      intro n acc
      simp only [Nat.toDigitsCore]
      by_cases h : n / 10 = 0
      · simp [h]
      · simp only [h, if_neg]
        rw [ih (n / 10) (Nat.digitChar (n % 10) :: acc), ih (n / 10) [Nat.digitChar (n % 10)]]
        simp

theorem toDigitsCore_fuel (fuel1 : Nat) : ∀ (fuel2 n : Nat), n < fuel1 → n < fuel2 →
    Nat.toDigitsCore 10 fuel1 n [] = Nat.toDigitsCore 10 fuel2 n [] := by
  induction fuel1 with
  | zero => intro fuel2 n h1 _; omega
  | succ f ih =>
      intro fuel2 n h1 h2
      match fuel2, h2 with
      | g + 1, _ =>
        simp only [Nat.toDigitsCore]
        by_cases h : n / 10 = 0
        · simp [h]
        · simp only [h, if_neg]
          rw [toDigitsCore_acc f, toDigitsCore_acc g]
          have hn : 0 < n := by
            rcases Nat.eq_zero_or_pos n with h0 | h0
            · exfalso; exact h (by simp [h0])
            · exact h0
          have hlt : n / 10 < n := Nat.div_lt_self hn (by omega)
          rw [ih g (n / 10) (by omega) (by omega)]

theorem encNat_step (n : Nat) :
    encNat n = if n < 10 then [48 + n] else encNat (n / 10) ++ [48 + n % 10] := by
  have hchar : ∀ m : Nat, m < 10 → (Nat.digitChar m).toNat = 48 + m := by
    intro m hm; interval_cases m <;> rfl
  simp only [encNat, Nat.toDigits]
  rw [show Nat.toDigitsCore 10 (n + 1) n [] =
      (if n / 10 = 0 then [Nat.digitChar (n % 10)]
       else Nat.toDigitsCore 10 n (n / 10) [Nat.digitChar (n % 10)]) from by
    simp [Nat.toDigitsCore]]
  by_cases h : n < 10
  · rw [if_pos (by omega), if_pos h]
    simp [hchar n (by omega), Nat.mod_eq_of_lt h]
  · rw [if_neg (by omega), if_neg h]
    rw [toDigitsCore_acc]
    have hn : 0 < n := by omega
    rw [toDigitsCore_fuel n (n / 10 + 1) (n / 10) (Nat.div_lt_self hn (by omega)) (by omega)]
    simp [hchar (n % 10) (Nat.mod_lt n (by omega))]

theorem encNat_all_digits (n : Nat) : (encNat n).all isDigitB = true := by
  induction n using Nat.strong_induction_on with
  | _ n ih =>
      rw [encNat_step]
      by_cases h : n < 10
      · simp [h, isDigitB]; omega
      · rw [if_neg h]
        have hn : 0 < n := by omega
        simp [List.all_append, ih (n / 10) (Nat.div_lt_self hn (by omega)), isDigitB]
        omega

theorem encNat_ne_nil (n : Nat) : encNat n ≠ [] := by
  rw [encNat_step]
  by_cases h : n < 10 <;> simp [h]

theorem digitsVal_append_one (xs : Bytes) (b : Nat) :
    digitsVal (xs ++ [b]) = digitsVal xs * 10 + ((b : Int) - 48) := by
  simp [digitsVal, List.foldl_append]

theorem digitsVal_encNat (n : Nat) : digitsVal (encNat n) = (n : Int) := by
  induction n using Nat.strong_induction_on with
  | _ n ih =>
      rw [encNat_step]
      by_cases h : n < 10
      · simp [h, digitsVal]
      · rw [if_neg h, digitsVal_append_one]
        have hn : 0 < n := by omega
        rw [ih (n / 10) (Nat.div_lt_self hn (by omega))]
        have := Nat.div_add_mod n 10
        push_cast
        omega

theorem digit_not_space {b : Nat} (h : isDigitB b = true) : isSpaceB b = false := by
  simp [isDigitB] at h; simp [isSpaceB]; omega

theorem stripWS_of_no_space (s : Bytes) (h : ∀ b ∈ s, isSpaceB b = false) :
    stripWS s = s := by
  have h1 : s.dropWhile isSpaceB = s := by
    cases s with
    | nil => rfl
    | cons c rest => simp [List.dropWhile, h c (by simp)]
  rw [stripWS, h1]
  have h2 : s.reverse.dropWhile isSpaceB = s.reverse := by
    cases hrv : s.reverse with
    | nil => rfl
    | cons c rest =>
        have hc : c ∈ s := by
          rw [← List.mem_reverse, hrv]; simp
        simp [List.dropWhile, h c hc]
  rw [h2, List.reverse_reverse]

theorem stripWS_encNat (n : Nat) : stripWS (encNat n) = encNat n := by
  apply stripWS_of_no_space
  intro b hb
  have := encNat_all_digits n
  rw [List.all_eq_true] at this
  exact digit_not_space (this b hb)

theorem pyIntParse_encInt (n : Int) : pyIntParse (encInt n) = some n := by
  by_cases hn : n < 0
  · have heq : encInt n = 45 :: encNat n.natAbs := by simp [encInt, hn]
    have hns : ∀ b ∈ 45 :: encNat n.natAbs, isSpaceB b = false := by
      intro b hb
      rw [List.mem_cons] at hb
      rcases hb with hb | hb
      · simp [hb, isSpaceB]
      · have := encNat_all_digits n.natAbs
        rw [List.all_eq_true] at this
        exact digit_not_space (this b hb)
    rw [pyIntParse, heq, stripWS_of_no_space _ hns]
    simp only []
    simp [encNat_ne_nil _, encNat_all_digits, digitsVal_encNat]
    rw [abs_of_neg hn, neg_neg]
  · have heq : encInt n = encNat n.natAbs := by simp [encInt, hn]
    rw [pyIntParse, heq, stripWS_encNat]
    rcases hE : encNat n.natAbs with _ | ⟨c, cs⟩
    · exact absurd hE (encNat_ne_nil _)
    · have hall : (c :: cs).all isDigitB = true := by rw [← hE]; exact encNat_all_digits _
      have hc : isDigitB c = true := by
        rw [List.all_eq_true] at hall; exact hall c (by simp)
      simp only [isDigitB, Bool.and_eq_true, decide_eq_true_eq] at hc
      simp only []
      rw [if_neg (by omega), if_neg (by omega), if_pos hall]
      rw [← hE, digitsVal_encNat]
      congr 1
      omega

/-- `int_or_str` recovers an integer tag from its decimal rendering. -/
theorem int_or_str_encInt (n : Int) : int_or_str (encInt n) = PyKey.knum n := by
  rw [int_or_str, pyIntParse_encInt]

/-- Only zero renders as the single byte "0". -/
theorem encNat_eq_singleton_48 (m : Nat) (h : encNat m = [48]) : m = 0 := by
  have hv := digitsVal_encNat m
  rw [h] at hv
  simp [digitsVal] at hv
  omega

/-- Digit bytes are word bytes. -/
theorem digit_word {b : Nat} (h : isDigitB b = true) : isWordByte b = true := by
  simp [isDigitB] at h; simp [isWordByte]; omega

/-- Digit bytes are alphanumeric. -/
theorem digit_alnum {b : Nat} (h : isDigitB b = true) : isAlnumB b = true := by
  simp [isDigitB] at h; simp [isAlnumB]; omega

/-- Specification of one repeating group as the codec consumes it
(reference.py Group): count tag, direct member tag numbers (`tags`),
nested groups keyed by their count tags, and the group's sorting key. -/
inductive GroupSpec where
  | mk (countTag : Int) (tagList : List Int) (subgroups : List (Int × GroupSpec))
      (skey : List (Int × Int))

def GroupSpec.countTag : GroupSpec → Int
  | .mk c _ _ _ => c

def GroupSpec.tagList : GroupSpec → List Int
  | .mk _ t _ _ => t

def GroupSpec.subgroups : GroupSpec → List (Int × GroupSpec)
  | .mk _ _ g _ => g

def GroupSpec.skey : GroupSpec → List (Int × Int)
  | .mk _ _ _ k => k

/-- MessageType as the codec consumes it: its reachable groups keyed by
count tag and its sorting key. -/
structure MsgTypeSpec where
  groups : List (Int × GroupSpec)
  skey : List (Int × Int)

/-- FixSpec as the codec consumes it: message types keyed by the wire value
of tag 35 (Python keys both the str and bytes forms; byte content is a
single form here). -/
structure FixSpecModel where
  msgTypes : List (Bytes × MsgTypeSpec)

/-- Lookup of `spec.msg_types.get(value)`. -/
def mtLookup : List (Bytes × MsgTypeSpec) → Bytes → Option MsgTypeSpec
  | [], _ => none
  | (k, m) :: rest, key => if k = key then some m else mtLookup rest key

/-- Python `tag in groups` for the group dicts keyed by int count tags:
only int keys can match. -/
def lookupGroup : List (Int × GroupSpec) → PyKey → Option GroupSpec
  | _, .kraw _ => none
  | [], .knum _ => none
  | (t, g) :: rest, .knum n => if t = n then some g else lookupGroup rest (.knum n)

/-- Python `tag in valid_tags` for a set of int tag numbers. -/
def keyInTags (k : PyKey) (l : List Int) : Bool :=
  match k with
  | .knum n => l.contains n
  | .kraw _ => false

/-- The Codec configuration (codecs/stringfix.py `__init__`): `_no_groups`
is forced when no spec is given. -/
structure CodecM where
  spec : Option FixSpecModel
  noGroups : Bool

/-- `Codec(spec=..., no_groups=...)`. -/
def CodecM.init (spec : Option FixSpecModel) (noGroups : Bool) : CodecM :=
  ⟨spec, match spec with | none => true | some _ => noGroups⟩


/-- Embedding of the loop of `Codec._process_group`
(codecs/stringfix.py lines 177-227), with an explicit token list in place
of the pushback generator (the returned list starts with any pushed-back
token) and a fuel argument only to express the recursion; every caller
passes at least the token-list length, which the fuel lemmas show is
enough (the Python loop is bounded the same way because tokens are only
consumed).  State: the resolved `first_tag`, the member being
accumulated, and the members so far.  Returns ((members, first_tag),
remaining tokens). -/
def processGroupGo : Nat → GroupSpec → Option PyKey → Frag → List Frag →
    List (PyKey × Bytes) → (List Frag × Option PyKey) × List (PyKey × Bytes)
  | _, _, ft, member, acc, [] => ((acc ++ [member], ft), [])
  | 0, _, ft, member, acc, tok :: rest => ((acc ++ [member], ft), tok :: rest)
  | fuel + 1, g, none, member, acc, (tag, value) :: rest =>
      processGroupGo fuel g (some tag) (dinsert member tag (.vStr value)) acc rest
  | fuel + 1, g, some ft, member, acc, (tag, value) :: rest =>
      if tag = ft then
        processGroupGo fuel g (some ft) [(tag, .vStr value)] (acc ++ [member]) rest
      else if keyInTags tag g.tagList then
        processGroupGo fuel g (some ft) (dinsert member tag (.vStr value)) acc rest
      else
        match lookupGroup g.subgroups tag with
        | some g2 =>
            match processGroupGo fuel g2 none [] [] rest with
            | ((ms1, ft1), []) =>
                ((acc ++ [dinsert member tag (PyVal.vGrp (some tag) ft1 ms1)], some ft), [])
            | ((ms1, ft1), (t, v) :: rem2) =>
                if t = ft then
                  processGroupGo fuel g (some ft) [(t, .vStr v)]
                    (acc ++ [dinsert member tag (PyVal.vGrp (some tag) ft1 ms1)]) rem2
                else if keyInTags t g.tagList then
                  processGroupGo fuel g (some ft)
                    (dinsert (dinsert member tag (PyVal.vGrp (some tag) ft1 ms1)) t (.vStr v))
                    acc rem2
                else
                  ((acc ++ [dinsert member tag (PyVal.vGrp (some tag) ft1 ms1)], some ft),
                   (t, v) :: rem2)
        | none => ((acc ++ [member], some ft), (tag, value) :: rest)

/-- Embedding of `Codec._process_group(identifying_tag, enumerator,
msg_type, group)`: runs the loop with fresh state and wraps the members
into a RepeatingGroup with `number_tag = identifying_tag` and the
resolved `first_tag`. -/
def processGroup (identifyingTag : PyKey) (toks : List (PyKey × Bytes)) (g : GroupSpec) :
    PyVal × List (PyKey × Bytes) :=
  let r := processGroupGo toks.length g none [] [] toks
  (PyVal.vGrp (some identifyingTag) r.1.2 r.1.1, r.2)

/-- Length of the remaining-token component never exceeds the input. -/
theorem processGroupGo_length (fuel : Nat) :
    ∀ (g : GroupSpec) ft member acc (toks : List (PyKey × Bytes)),
      (processGroupGo fuel g ft member acc toks).2.length ≤ toks.length := by
  induction fuel with
  | zero =>
      intro g ft member acc toks
      cases toks <;> simp [processGroupGo]
  | succ fuel ih =>
      intro g ft member acc toks
      cases toks with
      | nil => simp [processGroupGo]
      | cons tok rest =>
          obtain ⟨tag, value⟩ := tok
          cases ft with
          | none =>
              simp only [processGroupGo]
              have := ih g (some tag) (dinsert member tag (.vStr value)) acc rest
              simp only [List.length_cons]
              omega
          | some f =>
              simp only [processGroupGo]
              by_cases h1 : tag = f
              · rw [if_pos h1]
                have := ih g (some f) [(tag, .vStr value)] (acc ++ [member]) rest
                simp only [List.length_cons]
                omega
              · rw [if_neg h1]
                by_cases h2 : keyInTags tag g.tagList
                · rw [if_pos h2]
                  have := ih g (some f) (dinsert member tag (.vStr value)) acc rest
                  simp only [List.length_cons]
                  omega
                · rw [if_neg h2]
                  cases hg : lookupGroup g.subgroups tag with
                  | none => simp
                  | some g2 =>
                      simp only []
                      have hinner := ih g2 none [] [] rest
                      rcases hpg : processGroupGo fuel g2 none [] [] rest with ⟨⟨ms1, ft1⟩, rem⟩
                      rw [hpg] at hinner
                      have hinner2 : rem.length ≤ rest.length := hinner
                      cases rem with
                      | nil => simp
                      | cons tv rem2 =>
                          obtain ⟨t, v⟩ := tv
                          simp only [List.length_cons] at hinner2
                          simp only []
                          by_cases h3 : t = f
                          · rw [if_pos h3]
                            have := ih g (some f) [(t, .vStr v)]
                              (acc ++ [dinsert member tag (PyVal.vGrp (some tag) ft1 ms1)]) rem2
                            simp only [List.length_cons]
                            omega
                          · rw [if_neg h3]
                            by_cases h4 : keyInTags t g.tagList
                            · rw [if_pos h4]
                              have := ih g (some f)
                                (dinsert (dinsert member tag
                                  (PyVal.vGrp (some tag) ft1 ms1)) t (.vStr v)) acc rem2
                              simp only [List.length_cons]
                              omega
                            · rw [if_neg h4]
                              simp only [List.length_cons]
                              omega


theorem processGroupGo_fuel_aux (n : Nat) :
    ∀ (toks : List (PyKey × Bytes)), toks.length ≤ n →
      ∀ fuel1 fuel2, toks.length ≤ fuel1 → toks.length ≤ fuel2 →
        ∀ g ft member acc,
          processGroupGo fuel1 g ft member acc toks =
            processGroupGo fuel2 g ft member acc toks := by
  induction n with
  | zero =>
      intro toks hn fuel1 fuel2 h1 h2 g ft member acc
      have : toks = [] := List.length_eq_zero.mp (Nat.le_zero.mp hn)
      subst this
      cases fuel1 <;> cases fuel2 <;> simp [processGroupGo]
  | succ n ih =>
      intro toks hn fuel1 fuel2 h1 h2 g ft member acc
      cases toks with
      | nil => cases fuel1 <;> cases fuel2 <;> simp [processGroupGo]
      | cons tok rest =>
          obtain ⟨tag, value⟩ := tok
          simp only [List.length_cons] at hn h1 h2
          cases fuel1 with
          | zero => omega
          | succ f1 =>
              cases fuel2 with
              | zero => omega
              | succ f2 =>
                  have hr1 : rest.length ≤ f1 := by omega
                  have hr2 : rest.length ≤ f2 := by omega
                  have hrn : rest.length ≤ n := by omega
                  cases ft with
                  | none =>
                      simp only [processGroupGo]
                      exact ih rest hrn f1 f2 hr1 hr2 g (some tag)
                        (dinsert member tag (.vStr value)) acc
                  | some f =>
                      simp only [processGroupGo]
                      by_cases hc1 : tag = f
                      · rw [if_pos hc1, if_pos hc1]
                        exact ih rest hrn f1 f2 hr1 hr2 g (some f)
                          [(tag, .vStr value)] (acc ++ [member])
                      · rw [if_neg hc1, if_neg hc1]
                        by_cases hc2 : keyInTags tag g.tagList
                        · rw [if_pos hc2, if_pos hc2]
                          exact ih rest hrn f1 f2 hr1 hr2 g (some f)
                            (dinsert member tag (.vStr value)) acc
                        · rw [if_neg hc2, if_neg hc2]
                          cases hg : lookupGroup g.subgroups tag with
                          | none => simp only []
                          | some g2 =>
                              simp only []
                              have hinner_eq : processGroupGo f1 g2 none [] [] rest =
                                  processGroupGo f2 g2 none [] [] rest :=
                                ih rest hrn f1 f2 hr1 hr2 g2 none [] []
                              rw [hinner_eq]
                              rcases hpg : processGroupGo f2 g2 none [] [] rest
                                with ⟨⟨ms1, ft1⟩, rem⟩
                              have hlen := processGroupGo_length f2 g2 none [] [] rest
                              rw [hpg] at hlen
                              cases rem with
                              | nil => rfl
                              | cons tv rem2 =>
                                  obtain ⟨t, v⟩ := tv
                                  simp only [List.length_cons] at hlen
                                  have hm2 : rem2.length ≤ n := by omega
                                  have hm2a : rem2.length ≤ f1 := by omega
                                  have hm2b : rem2.length ≤ f2 := by omega
                                  simp only []
                                  by_cases hc3 : t = f
                                  · rw [if_pos hc3, if_pos hc3]
                                    exact ih rem2 hm2 f1 f2 hm2a hm2b g (some f)
                                      [(t, .vStr v)]
                                      (acc ++ [dinsert member tag
                                        (PyVal.vGrp (some tag) ft1 ms1)])
                                  · rw [if_neg hc3, if_neg hc3]
                                    by_cases hc4 : keyInTags t g.tagList
                                    · rw [if_pos hc4, if_pos hc4]
                                      exact ih rem2 hm2 f1 f2 hm2a hm2b g (some f)
                                        (dinsert (dinsert member tag
                                          (PyVal.vGrp (some tag) ft1 ms1)) t (.vStr v)) acc
                                    · rw [if_neg hc4, if_neg hc4]

theorem processGroupGo_fuel (toks : List (PyKey × Bytes)) (fuel : Nat)
    (h : toks.length ≤ fuel) (g : GroupSpec) (ft : Option PyKey) (member : Frag)
    (acc : List Frag) :
    processGroupGo fuel g ft member acc toks =
      processGroupGo toks.length g ft member acc toks :=
  processGroupGo_fuel_aux toks.length toks (le_refl _) fuel toks.length h (le_refl _)
    g ft member acc


/-- Stable ascending insertion by the decorated sort key.  Python's
`list.sort` is stable, and all stable sorts by the same keys produce the
same list, so insertion sort is an exact model of the source's sort. -/
def insertLE (a : Int × (PyKey × PyVal)) :
    List (Int × (PyKey × PyVal)) → List (Int × (PyKey × PyVal))
  | [] => [a]
  | b :: l => if a.1 ≤ b.1 then a :: b :: l else b :: insertLE a l

/-- Stable sort of a decorated item list. -/
def sortLE : List (Int × (PyKey × PyVal)) → List (Int × (PyKey × PyVal))
  | [] => []
  | a :: l => insertLE a (sortLE l)

/-- The sort key `spec.sorting_key.get(x[0], int(1e9 + x[0]))` of
`Codec._unmap.sort_values`: the default is computed eagerly, so a non-int
key raises TypeError even when the dict would contain it. -/
def getSortingKeyE (skey : List (Int × Int)) (k : PyKey) : Except PyErr Int :=
  match k with
  | .kraw _ => .error .typeError
  | .knum n => .ok ((skLookup skey n).getD (1000000000 + n))

/-- Compute the sort key of every item, in list order (Python computes all
keys before sorting; the first failure propagates). -/
def decorate (f : PyKey → Except PyErr Int) :
    List (PyKey × PyVal) → Except PyErr (List (Int × (PyKey × PyVal)))
  | [] => .ok []
  | kv :: rest =>
      match f kv.1, decorate f rest with
      | .ok r, .ok drest => .ok ((r, kv) :: drest)
      | .error e, _ => .error e
      | .ok _, .error e => .error e

/-- Sort a fragment's items by a sort-key function
(`tvals = list(msg.items()); tvals.sort(key=...)`). -/
def sortFrag (f : PyKey → Except PyErr Int) (msg : Frag) :
    Except PyErr (List (PyKey × PyVal)) :=
  match decorate f msg with
  | .ok dl => .ok ((sortLE dl).map Prod.snd)
  | .error e => .error e

theorem decorate_map_snd (f : PyKey → Except PyErr Int) (l : List (PyKey × PyVal))
    (dl : List (Int × (PyKey × PyVal))) (h : decorate f l = .ok dl) :
    dl.map Prod.snd = l := by
  induction l generalizing dl with
  | nil => simp only [decorate] at h; cases h; rfl
  | cons kv rest ih =>
      simp only [decorate] at h
      cases hf : f kv.1 with
      | error e => rw [hf] at h; cases h
      | ok r =>
          rw [hf] at h
          cases hd : decorate f rest with
          | error e => rw [hd] at h; cases h
          | ok drest =>
              rw [hd] at h
              cases h
              simp [ih drest hd]

theorem insertLE_perm (a : Int × (PyKey × PyVal)) (l : List (Int × (PyKey × PyVal))) :
    (insertLE a l).Perm (a :: l) := by
  induction l with
  | nil => simp [insertLE]
  | cons b rest ih =>
      simp only [insertLE]
      by_cases hab : a.1 ≤ b.1
      · rw [if_pos hab]
      · rw [if_neg hab]
        exact (ih.cons b).trans (List.Perm.swap a b rest)

theorem sortLE_perm (l : List (Int × (PyKey × PyVal))) : (sortLE l).Perm l := by
  induction l with
  | nil => simp [sortLE]
  | cons a rest ih => exact (insertLE_perm a (sortLE rest)).trans (ih.cons a)

theorem sortFrag_perm (f : PyKey → Except PyErr Int) (msg : Frag)
    (sorted : List (PyKey × PyVal)) (h : sortFrag f msg = .ok sorted) :
    sorted.Perm msg := by
  unfold sortFrag at h
  cases hd : decorate f msg with
  | error e => rw [hd] at h; cases h
  | ok dl =>
      rw [hd] at h
      cases h
      have := (sortLE_perm dl).map Prod.snd
      rw [decorate_map_snd f msg dl hd] at this
      exact this

theorem sortFrag_sizeOf (f : PyKey → Except PyErr Int) (msg : Frag)
    (sorted : List (PyKey × PyVal)) (h : sortFrag f msg = .ok sorted) :
    sizeOf sorted = sizeOf msg :=
  (sortFrag_perm f msg sorted h).sizeOf_eq_sizeOf

mutual
/-- Embedding of `sort_values(msg, spec)` inside `Codec._unmap`
(codecs/stringfix.py lines 237-252): sort the items by the scope's
sorting key, then expand each RepeatingGroup value into its (count tag,
member count) pair followed by each member's own sorted expansion under
the group's spec.  `groups`/`skey` are the scope's `spec.groups` and
`spec.sorting_key`. -/
def sort_values (groups : List (Int × GroupSpec)) (skey : List (Int × Int)) (msg : Frag) :
    Except PyErr (List (PyKey × PyVal)) :=
  match hs : sortFrag (getSortingKeyE skey) msg with
  | .ok sorted => expandSorted groups sorted
  | .error e => .error e
termination_by (sizeOf msg, 1)
decreasing_by
  simp_wf
  rw [sortFrag_sizeOf _ _ _ hs]
  exact Prod.Lex.right _ (by omega)

/-- Expansion walk over the sorted items. -/
def expandSorted (groups : List (Int × GroupSpec)) :
    List (PyKey × PyVal) → Except PyErr (List (PyKey × PyVal))
  | [] => .ok []
  | (k, PyVal.vGrp nt ft ms) :: rest =>
      match lookupGroup groups k with
      | none => .error .keyError
      | some g2 =>
          match expandMembers g2 ms, expandSorted groups rest with
          | .ok mem, .ok restE => .ok ((k, PyVal.vInt ms.length) :: (mem ++ restE))
          | .error e, _ => .error e
          | .ok _, .error e => .error e
  | (k, PyVal.vStr s) :: rest =>
      match expandSorted groups rest with
      | .ok restE => .ok ((k, PyVal.vStr s) :: restE)
      | .error e => .error e
  | (k, PyVal.vInt n) :: rest =>
      match expandSorted groups rest with
      | .ok restE => .ok ((k, PyVal.vInt n) :: restE)
      | .error e => .error e
termination_by l => (sizeOf l, 0)

/-- Per-member expansion of a repeating group value. -/
def expandMembers (g : GroupSpec) : List Frag → Except PyErr (List (PyKey × PyVal))
  | [] => .ok []
  | m :: ms =>
      match sort_values g.subgroups g.skey m, expandMembers g ms with
      | .ok mE, .ok msE => .ok (mE ++ msE)
      | .error e, _ => .error e
      | .ok _, .error e => .error e
termination_by ms => (sizeOf ms, 2)
end


/-- HEADER_SORT_MAP (reference.py lines 28-29): header positions plus
forced top ranks for the trailer tags 10, 89, 93. -/
def HEADER_SORT_MAP : List (Int × Int) :=
  skInsert (skInsert (skInsert (skAssignFrom HEADER_TAGS 0 (fun i => (i : Int)) [])
    10 10000000000) 89 9999999999) 93 9999999998

/-- Embedding of `Codec._unmap` (codecs/stringfix.py lines 229-260): with
no spec, sort by HEADER_SORT_MAP with the same `int(1e9 + tag)` default
and do not expand groups; with a spec, look up the message type under the
value of tag 35 (KeyError when tag 35 or the message type is missing; a
non-string value of 35 is a KeyError of its own, an unhashable group
value a TypeError) and run `sort_values`. -/
def unmap (codec : CodecM) (msg : Frag) : Except PyErr (List (PyKey × PyVal)) :=
  match codec.spec with
  | none =>
      sortFrag (fun k =>
        match k with
        | .kraw _ => .error .typeError
        | .knum n => .ok ((skLookup HEADER_SORT_MAP n).getD (1000000000 + n))) msg
  | some sp =>
      match dget msg (.knum 35) with
      | none => .error .keyError
      | some (PyVal.vStr s) =>
          match mtLookup sp.msgTypes s with
          | none => .error .keyError
          | some mt => sort_values mt.groups mt.skey msg
      | some (PyVal.vInt _) => .error .keyError
      | some (PyVal.vGrp _ _ _) => .error .typeError

/-- Byte rendering of a tag in `Codec.serialise`: ints in decimal ASCII,
byte/str tags verbatim. -/
def serialiseTagBytes : PyKey → Bytes
  | .knum n => encInt n
  | .kraw s => s

/-- Byte rendering of a value in `Codec.serialise`: ints in decimal, byte
and text values by content; a raw RepeatingGroup reaching this point
raises in Python (`six.ensure_text` of a list). -/
def serialiseValBytes : PyVal → Except PyErr Bytes
  | .vInt n => .ok (encInt n)
  | .vStr s => .ok s
  | .vGrp _ _ _ => .error .typeError

/-- Concatenation `tag ++ delimiter ++ value ++ separator` over the
unmapped pairs (codecs/stringfix.py lines 273-299). -/
def serialisePairs (delim sep : Nat) : List (PyKey × PyVal) → Except PyErr Bytes
  | [] => .ok []
  | (k, v) :: rest =>
      match serialiseValBytes v, serialisePairs delim sep rest with
      | .ok vb, .ok restB => .ok (serialiseTagBytes k ++ [delim] ++ vb ++ [sep] ++ restB)
      | .error e, _ => .error e
      | .ok _, .error e => .error e

/-- Embedding of `Codec.serialise(msg, separator, delimiter, encoding)`:
unmap then render (encoding is the identity on byte content here). -/
def serialise (codec : CodecM) (msg : Frag) (sep delim : Nat) : Except PyErr Bytes :=
  match unmap codec msg with
  | .ok tagvals => serialisePairs delim sep tagvals
  | .error e => .error e

/-- Embedding of the main group-aware loop of `Codec.parse`
(codecs/stringfix.py lines 159-175): tags outside the message type's
groups are stored as scalars; a group count tag with wire value b"0"
stores an empty RepeatingGroup; otherwise `_process_group` consumes the
member span and the loop continues on its pushback/remaining tokens.
Fuel only expresses the recursion; the initial call passes the token
count, which suffices since tokens are only consumed. -/
def parseMsgLoop : Nat → MsgTypeSpec → Frag → List (PyKey × Bytes) → Frag
  | _, _, msg, [] => msg
  | 0, _, msg, _ :: _ => msg
  | fuel + 1, mt, msg, (tag, value) :: rest =>
      match lookupGroup mt.groups tag with
      | none => parseMsgLoop fuel mt (dinsert msg tag (.vStr value)) rest
      | some g =>
          if value = [48] then
            parseMsgLoop fuel mt (dinsert msg tag (PyVal.vGrp (some tag) none [])) rest
          else
            match processGroup tag rest g with
            | (contents, rem) => parseMsgLoop fuel mt (dinsert msg tag contents) rem

/-- The message-type scan of `Codec.parse` (codecs/stringfix.py lines
126-129) once the buffer is known to hold at least four pairs: for each
of the first four raw pairs whose tag reads b"35", (re)assign
`msg_type = spec.msg_types.get(value)`. -/
def findMsgType (sp : FixSpecModel) (tagvals : List (Bytes × Bytes)) : Option MsgTypeSpec :=
  (List.range 4).foldl
    (fun acc i =>
      match tagvals[i]? with
      | some tv => if tv.1 = [51, 53] then mtLookup sp.msgTypes tv.2 else acc
      | none => acc) none

/-- `self._frg_class(tagvals)`: the flat dict of converted pairs, values
kept scalar, later occurrences of a key overwriting earlier ones. -/
def dictOfS (l : List (PyKey × Bytes)) : Frag :=
  dictOf (l.map (fun kv => (kv.1, PyVal.vStr kv.2)))

/-- Embedding of `Codec.parse(buff, delimiter, separator)`
(codecs/stringfix.py lines 67-175) for byte-string buffers, with text
decoding modelled as the identity on byte content: assert the delimiter
and separator are not alphanumeric, tokenise with FIX_REGEX, scan the
first four raw pairs for tag 35 when a spec is present and group parsing
is enabled (this indexes tagvals[0..3] unconditionally, so fewer than
four pairs raise IndexError), convert tags with `int_or_str`, and build
either the flat dict or the group-aware message. -/
def parse (codec : CodecM) (buff : Bytes) (delim sep : Nat) : Except PyErr Frag :=
  if isAlnumB delim || isAlnumB sep then .error .assertionError
  else
    let tagvals := findall delim sep buff
    match codec.spec, codec.noGroups with
    | some sp, false =>
        if tagvals.length < 4 then .error .indexError
        else
          let keyvals := tagvals.map (fun tv => (int_or_str tv.1, tv.2))
          match findMsgType sp tagvals with
          | none => .ok (dictOfS keyvals)
          | some mt => .ok (parseMsgLoop keyvals.length mt [] keyvals)
    | _, _ => .ok (dictOfS (tagvals.map (fun tv => (int_or_str tv.1, tv.2))))


/-- C9: with a specification and group parsing enabled, `Codec.parse`
unconditionally indexes the first four tokenised pairs while looking for
tag 35, so any buffer that tokenises to fewer than four pairs raises
IndexError instead of returning a fragment. -/
theorem C9_short_buffer_index_error (sp : FixSpecModel) (buff : Bytes) (delim sep : Nat)
    (hd : isAlnumB delim = false) (hs : isAlnumB sep = false)
    (hlen : (findall delim sep buff).length < 4) :
    parse ⟨some sp, false⟩ buff delim sep = .error .indexError := by
  simp [parse, hd, hs, hlen]

/-- Witness for C9: parsing b"35=D\\x01" - one tokenised pair - with a spec
present raises IndexError. -/
theorem C9_witness :
    parse ⟨some ⟨[]⟩, false⟩ [51, 53, 61, 68, 1] 61 1 = .error .indexError := by
  apply C9_short_buffer_index_error _ _ _ _ (by decide) (by decide)
  simp +decide [findall, matchAt, findValue, wordThenSep, wordThenSepGo,
    List.takeWhile, List.drop]

/-- Value stored for the last occurrence of a key in a pair list (what
`dict(pairs)` keeps per key). -/
def lastVal : List (PyKey × PyVal) → PyKey → Option PyVal
  | [], _ => none
  | kv :: rest, k =>
      match lastVal rest k with
      | some v => some v
      | none => if kv.1 = k then some kv.2 else none

theorem dget_dinsert (d : Frag) (key : PyKey) (val : PyVal) (k : PyKey) :
    dget (dinsert d key val) k = if key = k then some val else dget d k := by
  induction d with
  | nil => simp [dinsert, dget]
  | cons hd rest ih =>
      obtain ⟨k0, v0⟩ := hd
      simp only [dinsert]
      by_cases h0 : k0 = key
      · subst h0
        by_cases hk : k0 = k <;> simp [dget, hk]
      · rw [if_neg h0]
        by_cases hk : k0 = k
        · subst hk
          rw [if_neg (fun h => h0 h.symm)]
          simp [dget]
        · simp [dget, hk, ih]

theorem dget_foldl_dinsert (l : List (PyKey × PyVal)) (k : PyKey) :
    ∀ d : Frag,
      dget (l.foldl (fun acc kv => dinsert acc kv.1 kv.2) d) k =
        match lastVal l k with
        | some v => some v
        | none => dget d k := by
  induction l with
  | nil => intro d; simp [lastVal]
  | cons kv rest ih =>
      intro d
      simp only [List.foldl_cons, lastVal, ih, dget_dinsert]
      cases lastVal rest k with
      | some v => simp
      | none =>
          by_cases hk : kv.1 = k <;> simp [hk]

theorem dget_dictOf (l : List (PyKey × PyVal)) (k : PyKey) :
    dget (dictOf l) k = lastVal l k := by
  unfold dictOf
  rw [dget_foldl_dinsert]
  cases lastVal l k <;> simp [dget]

/-- C5 counterexample: a buffer that tokenises to a single pair, parsed
with a specification under which no message type resolves (here the trivial
empty spec), does not return a flat fragment - it raises IndexError. -/
theorem C5_counterexample_short_buffer :
    parse ⟨some ⟨[]⟩, false⟩ [49, 61, 50, 1] 61 1 = .error .indexError := by
  simp +decide [parse, findall, matchAt, findValue, wordThenSep, wordThenSepGo,
    List.takeWhile, List.drop]

/-- C5 (amended): with no specification - or with one, group parsing
enabled, at least four tokenised pairs and no message type resolving -
parse returns the flat dict of the converted pairs: every tag maps to a
scalar wire value (no repeating group is built), and a tag occurring more
than once keeps its last occurrence. -/
theorem C5_amended_flat_parse (buff : Bytes) (delim sep : Nat)
    (hd : isAlnumB delim = false) (hs : isAlnumB sep = false) :
    (∀ ng : Bool, parse ⟨none, ng⟩ buff delim sep =
        .ok (dictOfS ((findall delim sep buff).map (fun tv => (int_or_str tv.1, tv.2))))) ∧
    (∀ sp : FixSpecModel, 4 ≤ (findall delim sep buff).length →
        findMsgType sp (findall delim sep buff) = none →
        parse ⟨some sp, false⟩ buff delim sep =
          .ok (dictOfS ((findall delim sep buff).map (fun tv => (int_or_str tv.1, tv.2))))) ∧
    (∀ k, dget (dictOfS ((findall delim sep buff).map (fun tv => (int_or_str tv.1, tv.2)))) k =
        lastVal (((findall delim sep buff).map
          (fun tv => (int_or_str tv.1, tv.2))).map (fun kv => (kv.1, PyVal.vStr kv.2))) k) ∧
    (∀ k v, dget (dictOfS ((findall delim sep buff).map (fun tv => (int_or_str tv.1, tv.2)))) k
          = some v → ∃ s, v = PyVal.vStr s) := by
  refine ⟨?_, ?_, ?_, ?_⟩
  · intro ng
    simp [parse, hd, hs]
  · intro sp hlen hmt
    simp [parse, hd, hs, hmt, show ¬(findall delim sep buff).length < 4 by omega]
  · intro k
    exact dget_dictOf _ k
  · intro k v h
    unfold dictOfS at h
    rw [dget_dictOf] at h
    generalize hl : ((findall delim sep buff).map (fun tv => (int_or_str tv.1, tv.2))) = l at h
    clear hl
    induction l with
    | nil => simp [lastVal] at h
    | cons kv rest ih =>
        simp only [List.map_cons, lastVal] at h
        cases hrec : lastVal (rest.map (fun kv => (kv.1, PyVal.vStr kv.2))) k with
        | some w => rw [hrec] at h; cases h; exact ih hrec
        | none =>
            rw [hrec] at h
            by_cases hk : kv.1 = k
            · rw [if_pos hk] at h
              cases h
              exact ⟨kv.2, rfl⟩
            · rw [if_neg hk] at h
              cases h

/-- Witness for C5 (amended): b"270=1\\x01270=2\\x018=F\\x0135=Z\\x0155=A\\x01"
parsed with a spec that does not know message type Z gives a flat dict
where the duplicated tag 270 keeps its last value "2". -/
theorem C5_witness :
    parse ⟨some ⟨[]⟩, false⟩
        [50, 55, 48, 61, 49, 1, 50, 55, 48, 61, 50, 1, 56, 61, 70, 1,
         51, 53, 61, 90, 1, 53, 53, 61, 65, 1] 61 1 =
      .ok (dictOfS [(.knum 270, [49]), (.knum 270, [50]), (.knum 8, [70]),
        (.knum 35, [90]), (.knum 55, [65])]) ∧
    dget (dictOfS [(.knum 270, [49]), (.knum 270, [50]), (.knum 8, [70]),
        (.knum 35, [90]), (.knum 55, [65])]) (.knum 270) = some (.vStr [50]) := by
  constructor
  · have hfa : findall 61 1
        [50, 55, 48, 61, 49, 1, 50, 55, 48, 61, 50, 1, 56, 61, 70, 1,
         51, 53, 61, 90, 1, 53, 53, 61, 65, 1] =
        [([50, 55, 48], [49]), ([50, 55, 48], [50]), ([56], [70]),
         ([51, 53], [90]), ([53, 53], [65])] := by
      simp +decide [findall, matchAt, findValue, wordThenSep, wordThenSepGo,
        List.takeWhile, List.drop]
    have h := (C5_amended_flat_parse
      [50, 55, 48, 61, 49, 1, 50, 55, 48, 61, 50, 1, 56, 61, 70, 1,
       51, 53, 61, 90, 1, 53, 53, 61, 65, 1] 61 1 (by decide) (by decide)).2.1
      ⟨[]⟩ (by rw [hfa]; decide) (by rw [hfa]; rfl)
    rw [h, hfa]
    rfl
  · rfl


theorem processGroupGo_count_simple (g : GroupSpec) (f : PyKey) :
    ∀ (toks : List (PyKey × Bytes)) (fuel : Nat) (member : Frag) (acc : List Frag),
      toks.length ≤ fuel →
      (∀ tv ∈ toks, tv.1 = f ∨ keyInTags tv.1 g.tagList = true) →
      (processGroupGo fuel g (some f) member acc toks).1.1.length =
          acc.length + 1 + toks.countP (fun tv => decide (tv.1 = f)) ∧
      (processGroupGo fuel g (some f) member acc toks).2 = [] ∧
      (processGroupGo fuel g (some f) member acc toks).1.2 = some f := by
  intro toks
  induction toks with
  | nil =>
      intro fuel member acc hf hv
      cases fuel <;> simp [processGroupGo]
  | cons tok rest ih =>
      intro fuel member acc hf hv
      obtain ⟨tag, value⟩ := tok
      cases fuel with
      | zero => simp at hf
      | succ fuel =>
          simp only [List.length_cons] at hf
          have hrest : ∀ tv ∈ rest, tv.1 = f ∨ keyInTags tv.1 g.tagList = true := by
            intro tv htv
            exact hv tv (List.mem_cons_of_mem _ htv)
          rcases hv (tag, value) (List.mem_cons_self _ _) with htag | htag
          · simp only at htag
            subst htag
            simp only [processGroupGo, if_pos rfl, if_true]
            have := ih fuel [(tag, .vStr value)] (acc ++ [member]) (by omega) hrest
            simp only [List.countP_cons, decide_eq_true_eq, if_pos rfl]
            refine ⟨?_, this.2.1, this.2.2⟩
            rw [this.1]
            simp
            omega
          · simp only at htag
            by_cases heq : tag = f
            · subst heq
              simp only [processGroupGo, if_pos rfl, if_true]
              have := ih fuel [(tag, .vStr value)] (acc ++ [member]) (by omega) hrest
              simp only [List.countP_cons, decide_eq_true_eq, if_pos rfl]
              refine ⟨?_, this.2.1, this.2.2⟩
              rw [this.1]
              simp
              omega
            · simp only [processGroupGo, if_neg heq, if_pos htag]
              have := ih fuel (dinsert member tag (.vStr value)) acc (by omega) hrest
              simp only [List.countP_cons, decide_eq_true_eq, if_neg heq]
              exact this

/-- Membership transfer through the expansion walk: every group entry of
the sorted list contributes its (count tag, member count) pair. -/
theorem expandSorted_count_mem (groups : List (Int × GroupSpec)) :
    ∀ (l out : List (PyKey × PyVal)), expandSorted groups l = .ok out →
      ∀ k nt ft ms, (k, PyVal.vGrp nt ft ms) ∈ l →
        (k, PyVal.vInt ms.length) ∈ out := by
  intro l
  induction l with
  | nil =>
      intro out hout k nt ft ms hmem
      simp at hmem
  | cons kv rest ih =>
      intro out hout k nt ft ms hmem
      obtain ⟨k0, v0⟩ := kv
      cases v0 with
      | vStr s =>
          simp only [expandSorted] at hout
          cases hrec : expandSorted groups rest with
          | error e => rw [hrec] at hout; cases hout
          | ok restE =>
              rw [hrec] at hout
              cases hout
              rcases List.mem_cons.mp hmem with hh | hh
              · cases hh
              · exact List.mem_cons_of_mem _ (ih _ hrec k nt ft ms hh)
      | vInt n =>
          simp only [expandSorted] at hout
          cases hrec : expandSorted groups rest with
          | error e => rw [hrec] at hout; cases hout
          | ok restE =>
              rw [hrec] at hout
              cases hout
              rcases List.mem_cons.mp hmem with hh | hh
              · cases hh
              · exact List.mem_cons_of_mem _ (ih _ hrec k nt ft ms hh)
      | vGrp nt0 ft0 ms0 =>
          simp only [expandSorted] at hout
          cases hlk : lookupGroup groups k0 with
          | none => rw [hlk] at hout; cases hout
          | some g2 =>
              rw [hlk] at hout
              simp only [] at hout
              cases hmem2 : expandMembers g2 ms0 with
              | error e => rw [hmem2] at hout; cases hout
              | ok mem =>
                  rw [hmem2] at hout
                  cases hrec : expandSorted groups rest with
                  | error e => rw [hrec] at hout; cases hout
                  | ok restE =>
                      rw [hrec] at hout
                      cases hout
                      rcases List.mem_cons.mp hmem with hh | hh
                      · cases hh
                        exact List.mem_cons_self _ _
                      · exact List.mem_cons_of_mem _
                          (List.mem_append_right _ (ih _ hrec k nt ft ms hh))

/-- Membership in the sorted fragment is membership in the fragment. -/
theorem sort_values_count_mem (groups : List (Int × GroupSpec)) (skey : List (Int × Int))
    (msg : Frag) (out : List (PyKey × PyVal)) (h : sort_values groups skey msg = .ok out)
    (k : PyKey) (nt ft : Option PyKey) (ms : List Frag)
    (hmem : (k, PyVal.vGrp nt ft ms) ∈ msg) : (k, PyVal.vInt ms.length) ∈ out := by
  rw [sort_values] at h
  cases hs : sortFrag (getSortingKeyE skey) msg with
  | error e => rw [hs] at h; cases h
  | ok sorted =>
      rw [hs] at h
      have hperm := sortFrag_perm _ _ _ hs
      exact expandSorted_count_mem groups sorted out h k nt ft ms
        (hperm.mem_iff.mpr hmem)


/-- C10: the wire value of a repeating group's count tag is discarded on
parsing, except for the literal b"0" which yields an empty group: the
parse loop treats any two non-"0" count values identically; over a span
of direct member tokens the parsed member count is the number of
occurrences of the group's first tag (the tag of the first token of the
span); and re-serialisation emits the actual member count for every group
value, not the original wire value. -/
theorem C10_group_count_discarded
    (mt : MsgTypeSpec) (msg : Frag) (k : PyKey) (g : GroupSpec)
    (v v2 : Bytes) (rest : List (PyKey × Bytes)) (fuel : Nat)
    (hg : lookupGroup mt.groups k = some g) (hv : v ≠ [48]) (hv2 : v2 ≠ [48]) :
    parseMsgLoop (fuel + 1) mt msg ((k, v) :: rest) =
      parseMsgLoop (fuel + 1) mt msg ((k, v2) :: rest) ∧
    parseMsgLoop (fuel + 1) mt msg ((k, [48]) :: rest) =
      parseMsgLoop fuel mt (dinsert msg k (PyVal.vGrp (some k) none [])) rest ∧
    (∀ (idTag t0 : PyKey) (v0 : Bytes) (span : List (PyKey × Bytes)),
        (∀ tv ∈ (t0, v0) :: span, tv.1 = t0 ∨ keyInTags tv.1 g.tagList = true) →
        ∃ ms : List Frag,
          processGroup idTag ((t0, v0) :: span) g =
            (PyVal.vGrp (some idTag) (some t0) ms, []) ∧
          ms.length = ((t0, v0) :: span).countP (fun tv => decide (tv.1 = t0))) ∧
    (∀ (groups : List (Int × GroupSpec)) (skey : List (Int × Int)) (m : Frag)
        (out : List (PyKey × PyVal)) (k2 : PyKey) (nt ft : Option PyKey) (ms : List Frag),
        sort_values groups skey m = .ok out → (k2, PyVal.vGrp nt ft ms) ∈ m →
        (k2, PyVal.vInt ms.length) ∈ out) := by
  refine ⟨?_, ?_, ?_, ?_⟩
  · simp only [parseMsgLoop]
    rw [hg]
    simp only []
    rw [if_neg hv, if_neg hv2]
  · simp only [parseMsgLoop]
    rw [hg]
    simp only [if_true]
  · intro idTag t0 v0 span hvalid
    have hspan : ∀ tv ∈ span, tv.1 = t0 ∨ keyInTags tv.1 g.tagList = true := by
      intro tv htv
      exact hvalid tv (List.mem_cons_of_mem _ htv)
    have hc := processGroupGo_count_simple g t0 span span.length
      (dinsert [] t0 (PyVal.vStr v0)) [] (le_refl _) hspan
    refine ⟨(processGroupGo span.length g (some t0)
      (dinsert [] t0 (PyVal.vStr v0)) [] span).1.1, ?_, ?_⟩
    · unfold processGroup
      simp only [List.length_cons, processGroupGo]
      rw [Prod.ext_iff]
      constructor
      · simp only []
        rw [PyVal.vGrp.injEq]
        exact ⟨rfl, hc.2.2, rfl⟩
      · exact hc.2.1
    · rw [hc.1]
      simp only [List.countP_cons, decide_eq_true_eq, if_pos rfl, if_true, List.length_nil]
      omega
  · exact fun groups skey m out k2 nt ft ms h hm =>
      sort_values_count_mem groups skey m out h k2 nt ft ms hm

/-- Witness for C10 at a concrete group spec (count tag 268, members 279
and 269): the count values "2" and "5" parse identically, and the span
279=0 269=1 279=0 yields two members (two occurrences of first tag 279). -/
theorem C10_witness :
    parseMsgLoop 6 ⟨[(268, GroupSpec.mk 268 [279, 269] [] [])], []⟩ []
        ((.knum 268, [50]) :: [(.knum 279, [48])]) =
      parseMsgLoop 6 ⟨[(268, GroupSpec.mk 268 [279, 269] [] [])], []⟩ []
        ((.knum 268, [53]) :: [(.knum 279, [48])]) ∧
    ∃ ms : List Frag,
      processGroup (.knum 268) [(.knum 279, [48]), (.knum 269, [49]), (.knum 279, [48])]
          (GroupSpec.mk 268 [279, 269] [] []) =
        (PyVal.vGrp (some (.knum 268)) (some (.knum 279)) ms, []) ∧ ms.length = 2 := by
  have h := C10_group_count_discarded ⟨[(268, GroupSpec.mk 268 [279, 269] [] [])], []⟩
    [] (.knum 268) (GroupSpec.mk 268 [279, 269] [] []) [50] [53] [(.knum 279, [48])] 5
    rfl (by decide) (by decide)
  refine ⟨h.1, ?_⟩
  have h3 := h.2.2.1 (.knum 268) (.knum 279) [48] [(.knum 269, [49]), (.knum 279, [48])]
    (by decide)
  obtain ⟨ms, hms, hlen⟩ := h3
  exact ⟨ms, hms, by rw [hlen]; rfl⟩


/-- Total version of the `_unmap` sort key for statements: rank from the
sorting key, default `1e9 + tag` for unknown int tags (raw keys never
reach a successful sort). -/
def rankTotal (skey : List (Int × Int)) : PyKey → Int
  | .knum n => (skLookup skey n).getD (1000000000 + n)
  | .kraw _ => 0

theorem mem_insertLE (a x : Int × (PyKey × PyVal)) (l : List (Int × (PyKey × PyVal)))
    (h : x ∈ insertLE a l) : x = a ∨ x ∈ l :=
  (insertLE_perm a l).subset h |> List.mem_cons.mp

theorem pairwise_insertLE (a : Int × (PyKey × PyVal)) (l : List (Int × (PyKey × PyVal)))
    (h : l.Pairwise (fun x y => x.1 ≤ y.1))
    (ha : ∀ x ∈ l, a.1 ≤ x.1 ∨ x.1 ≤ a.1) :
    (insertLE a l).Pairwise (fun x y => x.1 ≤ y.1) := by
  induction l with
  | nil => simp [insertLE]
  | cons b rest ih =>
      simp only [insertLE]
      by_cases hab : a.1 ≤ b.1
      · rw [if_pos hab]
        refine List.Pairwise.cons ?_ h
        intro x hx
        rcases List.mem_cons.mp hx with hh | hh
        · subst hh; exact hab
        · exact le_trans hab ((List.pairwise_cons.mp h).1 x hh)
      · rw [if_neg hab]
        have hba : b.1 ≤ a.1 := by
          rcases ha b (List.mem_cons_self _ _) with h1 | h1
          · omega
          · exact h1
        refine List.Pairwise.cons ?_ (ih (List.pairwise_cons.mp h).2
          (fun x hx => ha x (List.mem_cons_of_mem _ hx)))
        intro x hx
        rcases mem_insertLE a x rest hx with hh | hh
        · subst hh; exact hba
        · exact (List.pairwise_cons.mp h).1 x hh

theorem pairwise_sortLE (l : List (Int × (PyKey × PyVal))) :
    (sortLE l).Pairwise (fun x y => x.1 ≤ y.1) := by
  induction l with
  | nil => simp [sortLE]
  | cons a rest ih =>
      simp only [sortLE]
      exact pairwise_insertLE a (sortLE rest) ih (fun x _ => by omega)

theorem decorate_rank (skey : List (Int × Int)) (l : List (PyKey × PyVal))
    (dl : List (Int × (PyKey × PyVal))) (h : decorate (getSortingKeyE skey) l = .ok dl) :
    ∀ d ∈ dl, d.1 = rankTotal skey d.2.1 := by
  induction l generalizing dl with
  | nil => simp only [decorate] at h; cases h; simp
  | cons kv rest ih =>
      simp only [decorate] at h
      cases hf : getSortingKeyE skey kv.1 with
      | error e => rw [hf] at h; cases h
      | ok r =>
          rw [hf] at h
          cases hd : decorate (getSortingKeyE skey) rest with
          | error e => rw [hd] at h; cases h
          | ok drest =>
              rw [hd] at h
              cases h
              intro d hm
              rcases List.mem_cons.mp hm with hh | hh
              · subst hh
                cases hk : kv.1 with
                | kraw s => rw [hk] at hf; simp [getSortingKeyE] at hf
                | knum n =>
                    rw [hk] at hf
                    simp only [getSortingKeyE, Except.ok.injEq] at hf
                    simp [rankTotal, hk, ← hf]
              · exact ih drest hd d hh

/-- C4 counterexample: under a sorting key that ranks the known trailer tag
93 near int(10e9), the unknown tag 999 (default rank 1e9 + 999) is
emitted BEFORE 93, so an unknown tag is not emitted after all known
tags. -/
theorem C4_counterexample_trailer_after_unknown :
    unmap ⟨some ⟨[([68], ⟨[], [(35, 0), (93, 9999999998)]⟩)]⟩, false⟩
        [(.knum 35, .vStr [68]), (.knum 93, .vStr [65]), (.knum 999, .vStr [66])] =
      .ok [(.knum 35, .vStr [68]), (.knum 999, .vStr [66]), (.knum 93, .vStr [65])] ∧
    skLookup [(35, 0), (93, 9999999998)] 93 = some 9999999998 ∧
    skLookup [(35, 0), (93, 9999999998)] 999 = none := by
  refine ⟨?_, by rfl, by rfl⟩
  rw [show unmap ⟨some ⟨[([68], ⟨[], [(35, 0), (93, 9999999998)]⟩)]⟩, false⟩
      [(.knum 35, .vStr [68]), (.knum 93, .vStr [65]), (.knum 999, .vStr [66])] =
      sort_values [] [(35, 0), (93, 9999999998)]
        [(.knum 35, .vStr [68]), (.knum 93, .vStr [65]), (.knum 999, .vStr [66])] from rfl]
  rw [sort_values]
  split
  next sorted heq =>
    rw [show sortFrag (getSortingKeyE [(35, 0), (93, 9999999998)])
        [(PyKey.knum 35, PyVal.vStr [68]), (PyKey.knum 93, PyVal.vStr [65]),
         (PyKey.knum 999, PyVal.vStr [66])] =
        Except.ok [(PyKey.knum 35, PyVal.vStr [68]), (PyKey.knum 999, PyVal.vStr [66]),
         (PyKey.knum 93, PyVal.vStr [65])] from rfl] at heq
    cases heq
    simp [expandSorted]
  next e heq =>
    rw [show sortFrag (getSortingKeyE [(35, 0), (93, 9999999998)])
        [(PyKey.knum 35, PyVal.vStr [68]), (PyKey.knum 93, PyVal.vStr [65]),
         (PyKey.knum 999, PyVal.vStr [66])] =
        Except.ok [(PyKey.knum 35, PyVal.vStr [68]), (PyKey.knum 999, PyVal.vStr [66]),
         (PyKey.knum 93, PyVal.vStr [65])] from rfl] at heq
    cases heq

/-- C4 (amended): sorting a fragment's direct entries by the message type's
sorting key orders them by nondecreasing rank, where an unknown int tag
gets the sentinel rank `1e9 + tag`: unknown tags therefore sort among
themselves by numeric tag value and come after every known tag of rank
below `1e9 + tag` (all header and body ranks), but BEFORE known tags
with larger ranks - in particular trailer tags and the checksum tag,
whose ranks are near int(10e9).  The sorted list is a permutation of the
fragment's entries. -/
theorem C4_amended_unknown_tag_order (skey : List (Int × Int)) (msg : Frag)
    (sorted : List (PyKey × PyVal)) (h : sortFrag (getSortingKeyE skey) msg = .ok sorted) :
    sorted.Pairwise (fun a b => rankTotal skey a.1 ≤ rankTotal skey b.1) ∧
    (∀ n, skLookup skey n = none → rankTotal skey (.knum n) = 1000000000 + n) ∧
    sorted.Perm msg := by
  refine ⟨?_, ?_, sortFrag_perm _ _ _ h⟩
  · unfold sortFrag at h
    cases hd : decorate (getSortingKeyE skey) msg with
    | error e => rw [hd] at h; cases h
    | ok dl =>
        rw [hd] at h
        cases h
        have hrank := decorate_rank skey msg dl hd
        have hpw := pairwise_sortLE dl
        have hmem : ∀ d ∈ sortLE dl, d.1 = rankTotal skey d.2.1 := by
          intro d hdm
          exact hrank d ((sortLE_perm dl).subset hdm)
        rw [List.pairwise_map]
        refine hpw.imp_of_mem ?_
        intro a b ha hb hab
        rw [← hmem a ha, ← hmem b hb]
        exact hab
  · intro n hn
    simp [rankTotal, hn]

/-- Witness for C4 (amended) at the counterexample fragment: the sorted
entries are ranked nondecreasingly and unknown tag 999 carries the
sentinel rank 1000000999. -/
theorem C4_amended_witness :
    ([(PyKey.knum 35, PyVal.vStr [68]), (PyKey.knum 999, PyVal.vStr [66]),
      (PyKey.knum 93, PyVal.vStr [65])] : List (PyKey × PyVal)).Pairwise
        (fun a b => rankTotal [(35, 0), (93, 9999999998)] a.1 ≤
          rankTotal [(35, 0), (93, 9999999998)] b.1) ∧
    rankTotal [(35, 0), (93, 9999999998)] (.knum 999) = 1000000999 := by
  have h := C4_amended_unknown_tag_order [(35, 0), (93, 9999999998)]
    [(.knum 35, .vStr [68]), (.knum 93, .vStr [65]), (.knum 999, .vStr [66])]
    [(.knum 35, .vStr [68]), (.knum 999, .vStr [66]), (.knum 93, .vStr [65])]
    (by rfl)
  refine ⟨h.1, ?_⟩
  have := h.2.1 999 (by rfl)
  rw [this]
  rfl

/-! ### Support for C1: the serialise/parse round trip -/

mutual
/-- All tag numbers `_process_group` can consume at any nesting depth
below a group: its direct member tags, its subgroup count tags, and
recursively everything below those subgroups. -/
def capSet : GroupSpec → List Int
  | .mk _ tl sgs _ => tl ++ capList sgs

/-- Union of count tags and capture sets over a subgroup table. -/
def capList : List (Int × GroupSpec) → List Int
  | [] => []
  | (t, g) :: rest => t :: (capSet g ++ capList rest)
end

/-- The token a scalar unmapped pair becomes after `int_or_str` tag
conversion: the key and the rendered value bytes. -/
def tokenOf (kv : PyKey × PyVal) : PyKey × Bytes := (kv.1, encScalarBytes kv.2)

/-- First key of a member in its serialisation order. -/
def memberFirstKey (skey : List (Int × Int)) (m : Frag) : Option PyKey :=
  match sortFrag (getSortingKeyE skey) m with
  | .ok ((k, _) :: _) => some k
  | _ => none

/-- The `first_tag` marker the parser resolves for a nonempty group. -/
def groupMarkerK (skey : List (Int × Int)) : List Frag → Option PyKey
  | [] => none
  | m :: _ => memberFirstKey skey m

mutual
/-- Wire tokens one unmapped entry contributes under subgroup scope
`sgs`: a scalar pair for scalar values; for a group value, the count pair
followed by the member expansions. -/
def entryToks (sgs : List (Int × GroupSpec)) : PyKey × PyVal → List (PyKey × Bytes)
  | (k, .vStr s) => [(k, s)]
  | (k, .vInt n) => [(k, encInt n)]
  | (k, .vGrp _ _ ms) =>
      match lookupGroup sgs k with
      | some g2 => (k, encInt ms.length) :: memberToksList g2.subgroups g2.skey ms
      | none => []
termination_by e => (sizeOf e, 0)

/-- Concatenated wire tokens of an entry list. -/
def entryToksList (sgs : List (Int × GroupSpec)) : List (PyKey × PyVal) → List (PyKey × Bytes)
  | [] => []
  | e :: rest => entryToks sgs e ++ entryToksList sgs rest
termination_by l => (sizeOf l, 0)

/-- Wire tokens of one group member: its entries in sorted order. -/
def memberToks (sgs : List (Int × GroupSpec)) (skey : List (Int × Int)) (m : Frag) :
    List (PyKey × Bytes) :=
  match hs : sortFrag (getSortingKeyE skey) m with
  | .ok se => entryToksList sgs se
  | .error _ => []
termination_by (sizeOf m, 1)
decreasing_by
  simp_wf
  rw [sortFrag_sizeOf _ _ _ hs]
  exact Prod.Lex.right _ (by omega)

/-- Wire tokens of a member list. -/
def memberToksList (sgs : List (Int × GroupSpec)) (skey : List (Int × Int)) :
    List Frag → List (PyKey × Bytes)
  | [] => []
  | m :: ms => memberToks sgs skey m ++ memberToksList sgs skey ms
termination_by ms => (sizeOf ms, 2)
end

mutual
/-- Serialisation-side sanity of an entry list: integer keys at least 0,
scalar string values free of the separator byte, group values resolvable
in scope with sane members. -/
def cleanEntryList (sep : Nat) (sgs : List (Int × GroupSpec)) :
    List (PyKey × PyVal) → Bool
  | [] => true
  | (PyKey.knum n, PyVal.vStr s) :: rest =>
      decide (0 ≤ n) && s.all (fun b => decide (b ≠ sep)) && cleanEntryList sep sgs rest
  | (PyKey.knum n, PyVal.vGrp _ _ ms) :: rest =>
      (match lookupGroup sgs (.knum n) with
       | some g2 => decide (0 ≤ n) && cleanMemberList sep g2.subgroups g2.skey ms
       | none => false) && cleanEntryList sep sgs rest
  | _ => false
termination_by l => (sizeOf l, 0)

/-- Sanity of one member under its group scope. -/
def cleanMember (sep : Nat) (sgs : List (Int × GroupSpec)) (skey : List (Int × Int))
    (m : Frag) : Bool :=
  match hs : sortFrag (getSortingKeyE skey) m with
  | .ok se => cleanEntryList sep sgs se
  | .error _ => false
termination_by (sizeOf m, 1)
decreasing_by
  simp_wf
  rw [sortFrag_sizeOf _ _ _ hs]
  exact Prod.Lex.right _ (by omega)

/-- Sanity of a member list. -/
def cleanMemberList (sep : Nat) (sgs : List (Int × GroupSpec)) (skey : List (Int × Int)) :
    List Frag → Bool
  | [] => true
  | m :: ms => cleanMember sep sgs skey m && cleanMemberList sep sgs skey ms
termination_by ms => (sizeOf ms, 2)
end

mutual
/-- The value the parser stores back for an unmapped entry: scalar strings
survive, integers come back as their decimal byte string, group values
come back as a RepeatingGroup with `number_tag` the count key,
`first_tag` the resolved marker, and the members reparsed. -/
def parsedVal (sgs : List (Int × GroupSpec)) : PyKey → PyVal → PyVal
  | _, .vStr s => .vStr s
  | _, .vInt n => .vStr (encInt n)
  | k, .vGrp nt ft ms =>
      match lookupGroup sgs k with
      | some g2 =>
          .vGrp (some k) (groupMarkerK g2.skey ms) (parsedMemberList g2.subgroups g2.skey ms)
      | none => .vGrp nt ft ms
termination_by _ v => (sizeOf v, 0)

/-- Entry list with every value replaced by its reparsed form. -/
def parsedEntryList (sgs : List (Int × GroupSpec)) : List (PyKey × PyVal) → Frag
  | [] => []
  | (k, v) :: rest => (k, parsedVal sgs k v) :: parsedEntryList sgs rest
termination_by l => (sizeOf l, 0)

/-- The fragment the parser rebuilds for one member. -/
def parsedMember (sgs : List (Int × GroupSpec)) (skey : List (Int × Int)) (m : Frag) :
    Frag :=
  match hs : sortFrag (getSortingKeyE skey) m with
  | .ok se => parsedEntryList sgs se
  | .error _ => []
termination_by (sizeOf m, 1)
decreasing_by
  simp_wf
  rw [sortFrag_sizeOf _ _ _ hs]
  exact Prod.Lex.right _ (by omega)

/-- Member list with every member reparsed. -/
def parsedMemberList (sgs : List (Int × GroupSpec)) (skey : List (Int × Int)) :
    List Frag → List Frag
  | [] => []
  | m :: ms => parsedMember sgs skey m :: parsedMemberList sgs skey ms
termination_by ms => (sizeOf ms, 2)
end

/-- Distinctness of the keys of a fragment (canonical Python dict). -/
def nodupKeysB (m : Frag) : Bool := decide (m.map Prod.fst).Nodup

mutual
/-- Round-trip well-formedness of the non-leading sorted entries of a
member of group `g` with marker tag `f`: scalars carry member tags other
than the marker with separator-free values; nested groups are nonempty,
resolvable, keyed outside the member tags, do not capture the marker,
and are followed by a scalar member entry that the nested group cannot
capture (or end the member). -/
def wfEntryList (sep : Nat) (g : GroupSpec) (f : Int) : List (PyKey × PyVal) → Bool
  | [] => true
  | (PyKey.knum n, PyVal.vStr s) :: rest =>
      decide (0 ≤ n) && decide (n ≠ f) && g.tagList.contains n &&
      s.all (fun b => decide (b ≠ sep)) && wfEntryList sep g f rest
  | (PyKey.knum n, PyVal.vGrp _ _ ms) :: rest =>
      (match lookupGroup g.subgroups (.knum n) with
       | some g2 =>
           decide (0 ≤ n) && decide (n ≠ f) && !(g.tagList.contains n) &&
           decide (f ∉ capSet g2) && wfGroupVal sep g2 ms &&
           (match rest with
            | [] => true
            | (PyKey.knum n2, PyVal.vStr _) :: _ => decide (n2 ∉ capSet g2)
            | _ => false)
       | none => false) && wfEntryList sep g f rest
  | _ => false
termination_by l => (sizeOf l, 0)

/-- Well-formedness of a member's full sorted entry list: it starts with
the marker tag as a separator-free scalar, the marker is a member tag,
and the tail is entry-wise well formed. -/
def wfSortedMember (sep : Nat) (g : GroupSpec) (f : Int) : List (PyKey × PyVal) → Bool
  | (PyKey.knum n0, PyVal.vStr v0) :: tail =>
      decide (n0 = f) && decide (0 ≤ f) && g.tagList.contains f &&
      v0.all (fun b => decide (b ≠ sep)) && wfEntryList sep g f tail
  | _ => false
termination_by se => (sizeOf se, 1)

/-- Well-formedness of one member fragment: distinct keys and a well
formed sorted entry list. -/
def wfMemberB (sep : Nat) (g : GroupSpec) (f : Int) (m : Frag) : Bool :=
  nodupKeysB m &&
  (match hs : sortFrag (getSortingKeyE g.skey) m with
   | .ok se => wfSortedMember sep g f se
   | .error _ => false)
termination_by (sizeOf m, 2)
decreasing_by
  simp_wf
  rw [sortFrag_sizeOf _ _ _ hs]
  exact Prod.Lex.right _ (by omega)

/-- Well-formedness of every member of a group against marker `f`. -/
def wfMemberList (sep : Nat) (g : GroupSpec) (f : Int) : List Frag → Bool
  | [] => true
  | m :: ms => wfMemberB sep g f m && wfMemberList sep g f ms
termination_by ms => (sizeOf ms, 3)

/-- Well-formedness of a nonempty group value: all members share the
marker of the first one. -/
def wfGroupVal (sep : Nat) (g : GroupSpec) : List Frag → Bool
  | [] => false
  | m0 :: ms' =>
      match memberFirstKey g.skey m0 with
      | some (PyKey.knum f) => wfMemberList sep g f (m0 :: ms')
      | _ => false
termination_by ms => (sizeOf ms, 4)
end

/-- Round-trip well-formedness of the top-level sorted entries: scalar
values on non-group tags, separator-free; group values on group tags,
either empty or well formed and followed by an entry the group cannot
capture. -/
def wfTopEntryList (sep : Nat) (mt : MsgTypeSpec) : List (PyKey × PyVal) → Bool
  | [] => true
  | (PyKey.knum n, PyVal.vStr s) :: rest =>
      decide (0 ≤ n) && (lookupGroup mt.groups (.knum n)).isNone &&
      s.all (fun b => decide (b ≠ sep)) && wfTopEntryList sep mt rest
  | (PyKey.knum n, PyVal.vGrp _ _ ms) :: rest =>
      (match lookupGroup mt.groups (.knum n) with
       | some g2 =>
           decide (0 ≤ n) &&
           (ms.isEmpty ||
            (wfGroupVal sep g2 ms &&
             (match rest with
              | [] => true
              | (PyKey.knum n2, _) :: _ => decide (n2 ∉ capSet g2)
              | _ => false)))
       | none => false) && wfTopEntryList sep mt rest
  | _ => false

/-- Round-trip well-formedness of a whole message fragment under a
message-type specification. -/
def WFParse (sep : Nat) (mt : MsgTypeSpec) (msg : Frag) : Bool :=
  nodupKeysB msg &&
  (match sortFrag (getSortingKeyE mt.skey) msg with
   | .ok se => wfTopEntryList sep mt se
   | .error _ => false)

/-- A token list a group's loop may hand control back to: empty, or led
by the marker tag or a tag the group cannot capture. -/
def followSafe (g : GroupSpec) (f : Int) : List (PyKey × Bytes) → Prop
  | [] => True
  | (PyKey.knum n, _) :: _ => n = f ∨ n ∉ capSet g
  | (PyKey.kraw _, _) :: _ => False

/-- A token list that terminates a group: empty or led by a tag the group
cannot capture. -/
def termSafe (g : GroupSpec) : List (PyKey × Bytes) → Prop
  | [] => True
  | (PyKey.knum n, _) :: _ => n ∉ capSet g
  | (PyKey.kraw _, _) :: _ => False

/-- Successive stores of the reparsed entries into a member dict. -/
def insertParsedEntries (sgs : List (Int × GroupSpec)) (member : Frag)
    (entries : List (PyKey × PyVal)) : Frag :=
  entries.foldl (fun mem kv => dinsert mem kv.1 (parsedVal sgs kv.1 kv.2)) member


/-- Cleanliness of an unmapped pair list: integer keys at least zero,
string values separator-free, integer values nonnegative, no residual
group values. -/
def outClean (sep : Nat) (out : List (PyKey × PyVal)) : Prop :=
  ∀ kv ∈ out, (∃ n : Int, 0 ≤ n ∧ kv.1 = PyKey.knum n) ∧
    (match kv.2 with
     | PyVal.vStr s => ∀ b ∈ s, b ≠ sep
     | PyVal.vInt n => 0 ≤ n
     | PyVal.vGrp _ _ _ => False)

theorem outClean_nil (sep : Nat) : outClean sep [] := by
  intro kv hkv; cases hkv

theorem outClean_append (sep : Nat) (a b : List (PyKey × PyVal))
    (ha : outClean sep a) (hb : outClean sep b) : outClean sep (a ++ b) := by
  intro kv hkv
  rcases List.mem_append.mp hkv with h | h
  · exact ha kv h
  · exact hb kv h

/-- Link between the serialisation-side expansion and the token/clean
closed forms, by strong induction on a scaled size measure. -/
theorem tokens_link_aux (sep : Nat) : ∀ N : Nat,
    (∀ (sgs : List (Int × GroupSpec)) (skey : List (Int × Int)) (m : Frag),
       2 * sizeOf m + 1 ≤ N → cleanMember sep sgs skey m = true →
       ∀ out, sort_values sgs skey m = .ok out →
         out.map tokenOf = memberToks sgs skey m ∧ outClean sep out) ∧
    (∀ (sgs : List (Int × GroupSpec)) (l : List (PyKey × PyVal)),
       2 * sizeOf l ≤ N → cleanEntryList sep sgs l = true →
       ∀ out, expandSorted sgs l = .ok out →
         out.map tokenOf = entryToksList sgs l ∧ outClean sep out) ∧
    (∀ (g : GroupSpec) (ms : List Frag),
       2 * sizeOf ms + 2 ≤ N → cleanMemberList sep g.subgroups g.skey ms = true →
       ∀ out, expandMembers g ms = .ok out →
         out.map tokenOf = memberToksList g.subgroups g.skey ms ∧ outClean sep out) := by
  intro N
  induction N using Nat.strong_induction_on with
  | _ N ih =>
      refine ⟨?_, ?_, ?_⟩
      · -- sort_values / cleanMember / memberToks
        intro sgs skey m hN hclean out hout
        cases hsf : sortFrag (getSortingKeyE skey) m with
        | error e =>
            rw [cleanMember, hsf] at hclean
            cases hclean
        | ok se =>
            rw [sort_values, hsf] at hout
            rw [cleanMember, hsf] at hclean
            rw [memberToks, hsf]
            have hsz : sizeOf se = sizeOf m := sortFrag_sizeOf _ _ _ hsf
            have hlt : 2 * sizeOf se < N := by omega
            exact (ih (2 * sizeOf se) hlt).2.1 sgs se (le_refl _) hclean out hout
      · -- expandSorted / cleanEntryList / entryToksList
        intro sgs l hN hclean out hout
        cases l with
        | nil =>
            rw [expandSorted] at hout
            cases hout
            refine ⟨?_, outClean_nil sep⟩
            simp [entryToksList]
        | cons e rest =>
            obtain ⟨k, v⟩ := e
            cases k with
            | kraw s =>
                cases v <;> (rw [cleanEntryList.eq_def] at hclean; simp at hclean)
            | knum n =>
                cases v with
                | vInt i =>
                    rw [cleanEntryList.eq_def] at hclean
                    simp at hclean
                | vStr s =>
                    rw [expandSorted] at hout
                    rw [cleanEntryList] at hclean
                    simp only [Bool.and_eq_true, decide_eq_true_eq, List.all_eq_true] at hclean
                    obtain ⟨⟨hn0, hsep⟩, hcrest⟩ := hclean
                    cases hrest : expandSorted sgs rest with
                    | error e => rw [hrest] at hout; cases hout
                    | ok restE =>
                        rw [hrest] at hout
                        cases hout
                        have hszr : 2 * sizeOf rest < N := by
                          have : sizeOf rest < sizeOf ((PyKey.knum n, PyVal.vStr s) :: rest) := by
                            simp <;> omega
                          omega
                        have hr := (ih (2 * sizeOf rest) hszr).2.1 sgs rest (le_refl _) hcrest
                          restE hrest
                        constructor
                        · rw [entryToksList, entryToks]
                          simp only [List.map_cons, tokenOf, encScalarBytes]
                          rw [hr.1]
                          rfl
                        · intro kv hkv
                          rcases List.mem_cons.mp hkv with h | h
                          · subst h
                            exact ⟨⟨n, hn0, rfl⟩, fun b hb => hsep b hb⟩
                          · exact hr.2 kv h
                | vGrp nt ft ms =>
                    rw [expandSorted] at hout
                    rw [cleanEntryList] at hclean
                    cases hlk : lookupGroup sgs (PyKey.knum n) with
                    | none =>
                        rw [hlk] at hclean
                        simp at hclean
                    | some g2 =>
                        rw [hlk] at hclean hout
                        simp only [] at hclean hout
                        simp only [Bool.and_eq_true, decide_eq_true_eq] at hclean
                        obtain ⟨⟨hn0, hcms⟩, hcrest⟩ := hclean
                        cases hmem : expandMembers g2 ms with
                        | error e => rw [hmem] at hout; cases hout
                        | ok mem =>
                            cases hrest : expandSorted sgs rest with
                            | error e => rw [hmem, hrest] at hout; cases hout
                            | ok restE =>
                                rw [hmem, hrest] at hout
                                cases hout
                                have hszms : 2 * sizeOf ms + 2 < N := by
                                  have : sizeOf ms + 3 ≤
                                      sizeOf ((PyKey.knum n, PyVal.vGrp nt ft ms) :: rest) := by
                                    simp <;> omega
                                  omega
                                have hszr : 2 * sizeOf rest < N := by
                                  have : sizeOf rest <
                                      sizeOf ((PyKey.knum n, PyVal.vGrp nt ft ms) :: rest) := by
                                    simp <;> omega
                                  omega
                                have hm := (ih (2 * sizeOf ms + 2) hszms).2.2 g2 ms (le_refl _)
                                  hcms mem hmem
                                have hr := (ih (2 * sizeOf rest) hszr).2.1 sgs rest (le_refl _)
                                  hcrest restE hrest
                                constructor
                                · rw [entryToksList, entryToks, hlk]
                                  simp only [List.map_cons, List.map_append, tokenOf,
                                    encScalarBytes]
                                  rw [hm.1, hr.1]
                                  rfl
                                · intro kv hkv
                                  rcases List.mem_cons.mp hkv with h | h
                                  · subst h
                                    refine ⟨⟨n, hn0, rfl⟩, ?_⟩
                                    simp only []
                                    positivity
                                  · exact outClean_append sep mem restE hm.2 hr.2 kv h
      · -- expandMembers / cleanMemberList / memberToksList
        intro g ms hN hclean out hout
        match ms with
        | [] =>
            rw [expandMembers] at hout
            cases hout
            refine ⟨?_, outClean_nil sep⟩
            simp [memberToksList]
        | m :: ms' =>
            rw [expandMembers] at hout
            rw [cleanMemberList] at hclean
            simp only [Bool.and_eq_true] at hclean
            obtain ⟨hcm, hcms⟩ := hclean
            cases hsv : sort_values g.subgroups g.skey m with
            | error e => rw [hsv] at hout; cases hout
            | ok mE =>
                cases hms : expandMembers g ms' with
                | error e => rw [hsv, hms] at hout; cases hout
                | ok msE =>
                    rw [hsv, hms] at hout
                    cases hout
                    have hszm : 2 * sizeOf m + 1 < N := by
                      have : sizeOf m < sizeOf (m :: ms') := by simp <;> omega
                      omega
                    have hszms : 2 * sizeOf ms' + 2 < N := by
                      have : sizeOf ms' < sizeOf (m :: ms') := by simp <;> omega
                      omega
                    have h1 := (ih (2 * sizeOf m + 1) hszm).1 g.subgroups g.skey m
                      (le_refl _) hcm mE hsv
                    have h2 := (ih (2 * sizeOf ms' + 2) hszms).2.2 g ms' (le_refl _)
                      hcms msE hms
                    constructor
                    · rw [memberToksList]
                      simp only [List.map_append]
                      rw [h1.1, h2.1]
                    · exact outClean_append sep mE msE h1.2 h2.2

/-- Parse-side well-formedness implies serialisation-side cleanliness, by
strong induction on a scaled size measure. -/
theorem wf_clean_aux (sep : Nat) : ∀ N : Nat,
    (∀ (g : GroupSpec) (f : Int) (l : List (PyKey × PyVal)), 2 * sizeOf l ≤ N →
       wfEntryList sep g f l = true → cleanEntryList sep g.subgroups l = true) ∧
    (∀ (g : GroupSpec) (f : Int) (se : List (PyKey × PyVal)), 2 * sizeOf se + 1 ≤ N →
       wfSortedMember sep g f se = true → cleanEntryList sep g.subgroups se = true) ∧
    (∀ (g : GroupSpec) (f : Int) (m : Frag), 2 * sizeOf m + 2 ≤ N →
       wfMemberB sep g f m = true → cleanMember sep g.subgroups g.skey m = true) ∧
    (∀ (g : GroupSpec) (f : Int) (ms : List Frag), 2 * sizeOf ms + 3 ≤ N →
       wfMemberList sep g f ms = true → cleanMemberList sep g.subgroups g.skey ms = true) ∧
    (∀ (g : GroupSpec) (ms : List Frag), 2 * sizeOf ms + 4 ≤ N →
       wfGroupVal sep g ms = true → cleanMemberList sep g.subgroups g.skey ms = true) := by
  intro N
  induction N using Nat.strong_induction_on with
  | _ N ih =>
      refine ⟨?_, ?_, ?_, ?_, ?_⟩
      · -- wfEntryList → cleanEntryList
        intro g f l hN hwf
        cases l with
        | nil => rw [cleanEntryList]
        | cons e rest =>
            obtain ⟨k, v⟩ := e
            cases k with
            | kraw s =>
                cases v <;> (rw [wfEntryList.eq_def] at hwf; simp at hwf)
            | knum n =>
                cases v with
                | vInt i =>
                    rw [wfEntryList.eq_def] at hwf
                    simp at hwf
                | vStr s =>
                    rw [wfEntryList] at hwf
                    rw [cleanEntryList]
                    simp only [Bool.and_eq_true] at hwf
                    obtain ⟨⟨⟨⟨h0, _⟩, _⟩, hsep⟩, hrest⟩ := hwf
                    have hszr : 2 * sizeOf rest < N := by
                      have : sizeOf rest < sizeOf ((PyKey.knum n, PyVal.vStr s) :: rest) := by
                        simp <;> omega
                      omega
                    rw [(ih (2 * sizeOf rest) hszr).1 g f rest (le_refl _) hrest]
                    simp only [Bool.and_eq_true]
                    exact ⟨⟨h0, hsep⟩, by trivial⟩
                | vGrp nt ft ms =>
                    rw [wfEntryList] at hwf
                    rw [cleanEntryList]
                    cases hlk : lookupGroup g.subgroups (PyKey.knum n) with
                    | none =>
                        rw [hlk] at hwf
                        simp at hwf
                    | some g2 =>
                        rw [hlk] at hwf
                        simp only [] at hwf
                        simp only [Bool.and_eq_true, decide_eq_true_eq] at hwf
                        obtain ⟨⟨⟨⟨⟨⟨h0, _⟩, _⟩, _⟩, hgv⟩, _⟩, hrest⟩ := hwf
                        have hszr : 2 * sizeOf rest < N := by
                          have : sizeOf rest <
                              sizeOf ((PyKey.knum n, PyVal.vGrp nt ft ms) :: rest) := by
                            simp <;> omega
                          omega
                        have hszms : 2 * sizeOf ms + 4 < N := by
                          have : sizeOf ms + 3 ≤
                              sizeOf ((PyKey.knum n, PyVal.vGrp nt ft ms) :: rest) := by
                            simp <;> omega
                          omega
                        simp only []
                        rw [(ih (2 * sizeOf rest) hszr).1 g f rest (le_refl _) hrest]
                        rw [(ih (2 * sizeOf ms + 4) hszms).2.2.2.2 g2 ms (le_refl _) hgv]
                        simp [h0]
      · -- wfSortedMember → cleanEntryList
        intro g f se hN hwf
        cases se with
        | nil => rw [wfSortedMember.eq_def] at hwf; simp at hwf
        | cons e tail =>
            obtain ⟨k, v⟩ := e
            cases k with
            | kraw s =>
                cases v <;> (rw [wfSortedMember.eq_def] at hwf; simp at hwf)
            | knum n =>
                cases v with
                | vInt i => rw [wfSortedMember.eq_def] at hwf; simp at hwf
                | vGrp nt ft ms => rw [wfSortedMember.eq_def] at hwf; simp at hwf
                | vStr s =>
                    rw [wfSortedMember] at hwf
                    rw [cleanEntryList]
                    simp only [Bool.and_eq_true, decide_eq_true_eq] at hwf
                    obtain ⟨⟨⟨⟨_, h0f⟩, _⟩, hsep⟩, htail⟩ := hwf
                    have hszt : 2 * sizeOf tail < N := by
                      have : sizeOf tail < sizeOf ((PyKey.knum n, PyVal.vStr s) :: tail) := by
                        simp <;> omega
                      omega
                    rw [(ih (2 * sizeOf tail) hszt).1 g f tail (le_refl _) htail]
                    simp only [Bool.and_eq_true]
                    refine ⟨⟨?_, hsep⟩, by trivial⟩
                    rename_i hn0f
                    simp only [decide_eq_true_eq] at hn0f ⊢
                    omega
      · -- wfMemberB → cleanMember
        intro g f m hN hwf
        rw [wfMemberB] at hwf
        simp only [Bool.and_eq_true] at hwf
        obtain ⟨_, hwf2⟩ := hwf
        cases hsf : sortFrag (getSortingKeyE g.skey) m with
        | error e => rw [hsf] at hwf2; cases hwf2
        | ok se =>
            rw [hsf] at hwf2
            rw [cleanMember, hsf]
            have hsz : sizeOf se = sizeOf m := sortFrag_sizeOf _ _ _ hsf
            have hlt : 2 * sizeOf se + 1 < N := by omega
            exact (ih (2 * sizeOf se + 1) hlt).2.1 g f se (le_refl _) hwf2
      · -- wfMemberList → cleanMemberList
        intro g f ms hN hwf
        cases ms with
        | nil => rw [cleanMemberList]
        | cons m ms' =>
            rw [wfMemberList] at hwf
            rw [cleanMemberList]
            simp only [Bool.and_eq_true] at hwf
            obtain ⟨hm, hms⟩ := hwf
            have hszm : 2 * sizeOf m + 2 < N := by
              have : sizeOf m < sizeOf (m :: ms') := by simp <;> omega
              omega
            have hszms : 2 * sizeOf ms' + 3 < N := by
              have : sizeOf ms' < sizeOf (m :: ms') := by simp <;> omega
              omega
            rw [(ih (2 * sizeOf m + 2) hszm).2.2.1 g f m (le_refl _) hm]
            rw [(ih (2 * sizeOf ms' + 3) hszms).2.2.2.1 g f ms' (le_refl _) hms]
            rfl
      · -- wfGroupVal → cleanMemberList
        intro g ms hN hwf
        cases ms with
        | nil => rw [wfGroupVal.eq_def] at hwf; simp at hwf
        | cons m0 ms' =>
            rw [wfGroupVal] at hwf
            cases hfk : memberFirstKey g.skey m0 with
            | none => rw [hfk] at hwf; simp at hwf
            | some k =>
                cases k with
                | kraw s => rw [hfk] at hwf; simp at hwf
                | knum f =>
                    rw [hfk] at hwf
                    simp only [] at hwf
                    exact (ih (2 * sizeOf (m0 :: ms') + 3) (by omega)).2.2.2.1 g f
                      (m0 :: ms') (le_refl _) hwf

/-- Instantiation of `wf_clean_aux` for a whole group value. -/
theorem wfGroupVal_clean (sep : Nat) (g : GroupSpec) (ms : List Frag)
    (h : wfGroupVal sep g ms = true) :
    cleanMemberList sep g.subgroups g.skey ms = true :=
  (wf_clean_aux sep (2 * sizeOf ms + 4)).2.2.2.2 g ms (le_refl _) h

/-- Top-level well-formedness implies cleanliness of the top entry list. -/
theorem wfTop_clean (sep : Nat) (mt : MsgTypeSpec) :
    ∀ l, wfTopEntryList sep mt l = true → cleanEntryList sep mt.groups l = true := by
  intro l
  induction l with
  | nil => intro _; rw [cleanEntryList]
  | cons e rest ih =>
      obtain ⟨k, v⟩ := e
      intro hwf
      cases k with
      | kraw s => cases v <;> simp [wfTopEntryList] at hwf
      | knum n =>
          cases v with
          | vInt i => simp [wfTopEntryList] at hwf
          | vStr s =>
              rw [wfTopEntryList] at hwf
              rw [cleanEntryList]
              simp only [Bool.and_eq_true] at hwf
              obtain ⟨⟨⟨h0, _⟩, hsep⟩, hrest⟩ := hwf
              rw [ih hrest]
              simp only [Bool.and_eq_true]
              exact ⟨⟨h0, hsep⟩, by trivial⟩
          | vGrp nt ft ms =>
              rw [wfTopEntryList] at hwf
              rw [cleanEntryList]
              cases hlk : lookupGroup mt.groups (PyKey.knum n) with
              | none => rw [hlk] at hwf; simp at hwf
              | some g2 =>
                  rw [hlk] at hwf
                  simp only [] at hwf
                  simp only [Bool.and_eq_true] at hwf
                  obtain ⟨⟨h0, hbody⟩, hrest⟩ := hwf
                  simp only []
                  rw [ih hrest]
                  simp only [Bool.and_eq_true]
                  refine ⟨⟨h0, ?_⟩, by trivial⟩
                  cases ms with
                  | nil => rw [cleanMemberList]
                  | cons m0 ms' =>
                      simp only [List.isEmpty_cons, Bool.false_or, Bool.and_eq_true] at hbody
                      exact wfGroupVal_clean sep g2 (m0 :: ms') hbody.1

/-- Raw (tag bytes, value bytes) wire pair of an unmapped entry. -/
def rawOf (kv : PyKey × PyVal) : Bytes × Bytes :=
  (serialiseTagBytes kv.1, encScalarBytes kv.2)

/-- On a clean pair list, `serialise`'s rendering loop produces exactly the
well-formed wire of the raw pairs. -/
theorem serialisePairs_clean (delim sep : Nat) :
    ∀ out : List (PyKey × PyVal), outClean sep out →
      serialisePairs delim sep out = .ok (wireOf delim sep (out.map rawOf)) := by
  intro out
  induction out with
  | nil => intro _; rfl
  | cons kv rest ih =>
      intro h
      obtain ⟨k, v⟩ := kv
      have hh := h (k, v) (by simp)
      have ht : outClean sep rest := fun p hp => h p (by simp [hp])
      have hv : serialiseValBytes v = .ok (encScalarBytes v) := by
        cases v with
        | vStr s => rfl
        | vInt i => rfl
        | vGrp nt ft ms => exact absurd hh.2 (by simp)
      rw [serialisePairs, hv, ih ht]
      simp only [List.map_cons, wireOf, rawOf]
      simp [List.append_assoc]

/-- The raw pairs of a clean list have digit-only tags and separator-free
values. -/
theorem rawOf_props (sep : Nat) (hsa : isAlnumB sep = false)
    (out : List (PyKey × PyVal)) (h : outClean sep out) :
    ∀ p ∈ out.map rawOf, p.1.all isDigitB = true ∧ ∀ b ∈ p.2, b ≠ sep := by
  intro p hp
  rcases List.mem_map.mp hp with ⟨kv, hkv, hpe⟩
  obtain ⟨⟨n, hn0, hk⟩, hval⟩ := h kv hkv
  subst hpe
  constructor
  · rw [rawOf, hk]
    simp only [serialiseTagBytes]
    rw [show encInt n = encNat n.natAbs from by simp [encInt]; omega]
    exact encNat_all_digits n.natAbs
  · intro b hb
    rw [rawOf] at hb
    simp only [] at hb
    cases hv2 : kv.2 with
    | vStr s =>
        rw [hv2] at hval hb
        exact hval b hb
    | vInt i =>
        rw [hv2] at hval hb
        simp only [encScalarBytes] at hb
        rw [show encInt i = encNat i.natAbs from by simp [encInt]; omega] at hb
        have hd : isDigitB b = true := by
          have := encNat_all_digits i.natAbs
          rw [List.all_eq_true] at this
          exact this b hb
        intro hbs
        rw [hbs] at hd
        rw [digit_alnum hd] at hsa
        cases hsa
    | vGrp nt ft ms =>
        rw [hv2] at hval
        exact absurd hval (by simp)

/-- Converting the raw tags back with `int_or_str` recovers the keys. -/
theorem raw_int_or_str (sep : Nat) (out : List (PyKey × PyVal)) (h : outClean sep out) :
    (out.map rawOf).map (fun tv => (int_or_str tv.1, tv.2)) = out.map tokenOf := by
  induction out with
  | nil => rfl
  | cons kv rest ih =>
      obtain ⟨⟨n, _, hk⟩, _⟩ := h kv (by simp)
      have ht : outClean sep rest := fun p hp => h p (by simp [hp])
      simp only [List.map_cons, ih ht]
      congr 1
      rw [rawOf, tokenOf, hk]
      simp only [serialiseTagBytes]
      rw [int_or_str_encInt]

/-- `capSet` unfolding through the accessors. -/
theorem capSet_eq (g : GroupSpec) : capSet g = g.tagList ++ capList g.subgroups := by
  cases g
  rfl

/-- A resolvable count tag is in the capture list. -/
theorem lookupGroup_some_mem (sgs : List (Int × GroupSpec)) (n : Int) (g2 : GroupSpec)
    (h : lookupGroup sgs (.knum n) = some g2) : n ∈ capList sgs := by
  induction sgs with
  | nil => rw [lookupGroup] at h; cases h
  | cons e rest ih =>
      obtain ⟨t, g'⟩ := e
      rw [lookupGroup] at h
      rw [capList]
      by_cases ht : t = n
      · simp [ht]
      · rw [if_neg ht] at h
        simp [ih h]

/-- A tag outside the capture list resolves to no subgroup. -/
theorem lookupGroup_none_of_not_mem (sgs : List (Int × GroupSpec)) (n : Int)
    (h : n ∉ capList sgs) : lookupGroup sgs (.knum n) = none := by
  cases hl : lookupGroup sgs (.knum n) with
  | none => rfl
  | some g2 => exact absurd (lookupGroup_some_mem sgs n g2 hl) h

/-- The capture set of a subgroup is contained in the capture list of its
table. -/
theorem capList_trans (sgs : List (Int × GroupSpec)) (n : Int) (g2 : GroupSpec)
    (h : lookupGroup sgs (.knum n) = some g2) : ∀ x ∈ capSet g2, x ∈ capList sgs := by
  induction sgs with
  | nil => rw [lookupGroup] at h; cases h
  | cons e rest ih =>
      obtain ⟨t, g'⟩ := e
      rw [lookupGroup] at h
      intro x hx
      rw [capList]
      by_cases ht : t = n
      · rw [if_pos ht] at h
        cases h
        simp [hx]
      · rw [if_neg ht] at h
        simp [ih h x hx]

/-- Inserting a fresh key appends the pair. -/
theorem dinsert_append (m : Frag) (k : PyKey) (v : PyVal)
    (h : k ∉ m.map Prod.fst) : dinsert m k v = m ++ [(k, v)] := by
  induction m with
  | nil => rfl
  | cons e rest ih =>
      obtain ⟨k', v'⟩ := e
      simp only [List.map_cons, List.mem_cons] at h
      rw [dinsert, if_neg (by intro he; exact h (Or.inl he.symm))]
      rw [ih (fun hm => h (Or.inr hm))]
      simp

/-- `parsedEntryList` keeps the keys. -/
theorem parsedEntryList_map_fst (sgs : List (Int × GroupSpec)) :
    ∀ l : List (PyKey × PyVal), (parsedEntryList sgs l).map Prod.fst = l.map Prod.fst := by
  intro l
  induction l with
  | nil => rw [parsedEntryList]
  | cons e rest ih =>
      obtain ⟨k, v⟩ := e
      rw [parsedEntryList]
      simp only [List.map_cons]
      rw [ih]

/-- Storing well-keyed parsed entries one by one appends their parsed
forms. -/
theorem insertParsedEntries_eq (sgs : List (Int × GroupSpec)) :
    ∀ (entries : List (PyKey × PyVal)) (member : Frag),
      (entries.map Prod.fst).Nodup →
      (∀ k ∈ entries.map Prod.fst, k ∉ member.map Prod.fst) →
      insertParsedEntries sgs member entries = member ++ parsedEntryList sgs entries := by
  intro entries
  induction entries with
  | nil =>
      intro member _ _
      have h1 : parsedEntryList sgs ([] : List (PyKey × PyVal)) = [] := by
        rw [parsedEntryList]
      rw [h1]
      simp [insertParsedEntries]
  | cons e rest ih =>
      intro member hnd hdis
      obtain ⟨k, v⟩ := e
      simp only [List.map_cons, List.nodup_cons] at hnd
      have hstep : insertParsedEntries sgs member ((k, v) :: rest) =
          insertParsedEntries sgs (dinsert member k (parsedVal sgs k v)) rest := rfl
      rw [hstep, dinsert_append member k _ (hdis k (by simp))]
      rw [ih (member ++ [(k, parsedVal sgs k v)]) hnd.2 ?_]
      · rw [parsedEntryList]
        simp
      · intro k2 hk2
        simp only [List.map_append, List.mem_append, List.map_cons, List.map_nil]
        intro hc
        rcases hc with hc | hc
        · exact hdis k2 (by simp [hk2]) hc
        · simp only [List.mem_singleton] at hc
          rw [hc] at hk2
          exact hnd.1 hk2

/-- Keys stay distinct through a sort. -/
theorem sortFrag_keys_nodup (f : PyKey → Except PyErr Int) (m : Frag)
    (se : List (PyKey × PyVal)) (h : sortFrag f m = .ok se)
    (hnd : (m.map Prod.fst).Nodup) : (se.map Prod.fst).Nodup := by
  have hp := (sortFrag_perm f m se h).map Prod.fst
  exact hp.nodup_iff.mpr hnd

/-- Shape of a well-formed member: its sorted entries start with the
marker as a scalar and the tail is entry-wise well formed. -/
theorem wfMemberB_shape (sep : Nat) (g : GroupSpec) (f : Int) (m : Frag)
    (h : wfMemberB sep g f m = true) :
    ∃ v0 tail, sortFrag (getSortingKeyE g.skey) m = .ok ((PyKey.knum f, PyVal.vStr v0) :: tail) ∧
      g.tagList.contains f = true ∧ wfEntryList sep g f tail = true ∧
      nodupKeysB m = true := by
  rw [wfMemberB] at h
  simp only [Bool.and_eq_true] at h
  obtain ⟨hnd, h2⟩ := h
  cases hsf : sortFrag (getSortingKeyE g.skey) m with
  | error e =>
      rw [hsf] at h2
      replace h2 : false = true := h2
      cases h2
  | ok se =>
      rw [hsf] at h2
      replace h2 : wfSortedMember sep g f se = true := h2
      cases se with
      | nil => rw [wfSortedMember.eq_def] at h2; simp at h2
      | cons e tail =>
          obtain ⟨k, v⟩ := e
          cases k with
          | kraw s => cases v <;> (rw [wfSortedMember.eq_def] at h2; simp at h2)
          | knum n0 =>
              cases v with
              | vInt i => rw [wfSortedMember.eq_def] at h2; simp at h2
              | vGrp nt ft ms => rw [wfSortedMember.eq_def] at h2; simp at h2
              | vStr v0 =>
                  rw [wfSortedMember] at h2
                  simp only [Bool.and_eq_true, decide_eq_true_eq] at h2
                  obtain ⟨⟨⟨⟨hn0f, _⟩, hcont⟩, _⟩, htail⟩ := h2
                  subst hn0f
                  exact ⟨v0, tail, rfl, hcont, htail, hnd⟩

theorem entryToksList_nil (sgs : List (Int × GroupSpec)) :
    entryToksList sgs [] = [] := by rw [entryToksList]

theorem entryToksList_cons (sgs : List (Int × GroupSpec)) (e : PyKey × PyVal)
    (r : List (PyKey × PyVal)) :
    entryToksList sgs (e :: r) = entryToks sgs e ++ entryToksList sgs r := by
  rw [entryToksList]

theorem entryToks_scalar (sgs : List (Int × GroupSpec)) (k : PyKey) (s : Bytes) :
    entryToks sgs (k, .vStr s) = [(k, s)] := by rw [entryToks]

theorem entryToks_group (sgs : List (Int × GroupSpec)) (k : PyKey) (nt ft : Option PyKey)
    (ms : List Frag) (g2 : GroupSpec) (h : lookupGroup sgs k = some g2) :
    entryToks sgs (k, .vGrp nt ft ms) =
      (k, encInt ms.length) :: memberToksList g2.subgroups g2.skey ms := by
  rw [entryToks, h]

theorem memberToksList_nil (sgs : List (Int × GroupSpec)) (skey : List (Int × Int)) :
    memberToksList sgs skey [] = [] := by rw [memberToksList]

theorem memberToksList_cons (sgs : List (Int × GroupSpec)) (skey : List (Int × Int))
    (m : Frag) (ms : List Frag) :
    memberToksList sgs skey (m :: ms) =
      memberToks sgs skey m ++ memberToksList sgs skey ms := by
  rw [memberToksList]

theorem memberToks_eq (sgs : List (Int × GroupSpec)) (skey : List (Int × Int)) (m : Frag)
    (se : List (PyKey × PyVal)) (h : sortFrag (getSortingKeyE skey) m = .ok se) :
    memberToks sgs skey m = entryToksList sgs se := by
  rw [memberToks, h]

theorem parsedEntryList_cons (sgs : List (Int × GroupSpec)) (k : PyKey) (v : PyVal)
    (r : List (PyKey × PyVal)) :
    parsedEntryList sgs ((k, v) :: r) = (k, parsedVal sgs k v) :: parsedEntryList sgs r := by
  rw [parsedEntryList]

theorem parsedMemberList_nil (sgs : List (Int × GroupSpec)) (skey : List (Int × Int)) :
    parsedMemberList sgs skey [] = [] := by rw [parsedMemberList]

theorem parsedMemberList_cons (sgs : List (Int × GroupSpec)) (skey : List (Int × Int))
    (m : Frag) (ms : List Frag) :
    parsedMemberList sgs skey (m :: ms) =
      parsedMember sgs skey m :: parsedMemberList sgs skey ms := by
  rw [parsedMemberList]

theorem parsedMember_eq (sgs : List (Int × GroupSpec)) (skey : List (Int × Int)) (m : Frag)
    (se : List (PyKey × PyVal)) (h : sortFrag (getSortingKeyE skey) m = .ok se) :
    parsedMember sgs skey m = parsedEntryList sgs se := by
  rw [parsedMember, h]

theorem parsedVal_scalar (sgs : List (Int × GroupSpec)) (k : PyKey) (s : Bytes) :
    parsedVal sgs k (.vStr s) = .vStr s := by rw [parsedVal]

theorem parsedVal_group (sgs : List (Int × GroupSpec)) (k : PyKey) (nt ft : Option PyKey)
    (ms : List Frag) (g2 : GroupSpec) (h : lookupGroup sgs k = some g2) :
    parsedVal sgs k (.vGrp nt ft ms) =
      .vGrp (some k) (groupMarkerK g2.skey ms) (parsedMemberList g2.subgroups g2.skey ms) := by
  rw [parsedVal, h]

theorem insertParsedEntries_cons (sgs : List (Int × GroupSpec)) (member : Frag)
    (k : PyKey) (v : PyVal) (r : List (PyKey × PyVal)) :
    insertParsedEntries sgs member ((k, v) :: r) =
      insertParsedEntries sgs (dinsert member k (parsedVal sgs k v)) r := rfl

/-- The tokens of a well-formed nonempty entry list are nonempty. -/
theorem entryToksList_ne_nil_of_wf (sep : Nat) (g : GroupSpec) (f : Int)
    (e : PyKey × PyVal) (r : List (PyKey × PyVal))
    (h : wfEntryList sep g f (e :: r) = true) :
    entryToksList g.subgroups (e :: r) ≠ [] := by
  obtain ⟨k, v⟩ := e
  cases k with
  | kraw s => cases v <;> (rw [wfEntryList.eq_def] at h; simp at h)
  | knum n =>
      cases v with
      | vInt i => rw [wfEntryList.eq_def] at h; simp at h
      | vStr s => rw [entryToksList_cons, entryToks_scalar]; simp
      | vGrp nt ft ms =>
          rw [wfEntryList] at h
          cases hlk : lookupGroup g.subgroups (PyKey.knum n) with
          | none => rw [hlk] at h; simp at h
          | some g2 =>
              rw [entryToksList_cons, entryToks_group _ _ _ _ _ _ hlk]
              simp

/-- One post-subgroup dispatch of `_process_group` behaves like a fresh
main-loop step on the pushed-back token whenever that token is no
subgroup count tag of the enclosing group. -/
theorem processGroupGo_dispatch (g : GroupSpec) (f : Int) (member2 : Frag)
    (acc : List Frag) (t : PyKey) (v : Bytes) (rem2 : List (PyKey × Bytes))
    (hdis : t = .knum f ∨ keyInTags t g.tagList = true ∨ lookupGroup g.subgroups t = none) :
    (if t = PyKey.knum f then
       processGroupGo rem2.length g (some (.knum f)) [(t, .vStr v)] (acc ++ [member2]) rem2
     else if keyInTags t g.tagList then
       processGroupGo rem2.length g (some (.knum f)) (dinsert member2 t (.vStr v)) acc rem2
     else ((acc ++ [member2], some (.knum f)), (t, v) :: rem2)) =
    processGroupGo (rem2.length + 1) g (some (.knum f)) member2 acc ((t, v) :: rem2) := by
  rw [processGroupGo]
  by_cases h1 : t = PyKey.knum f
  · rw [if_pos h1, if_pos h1]
  · rw [if_neg h1, if_neg h1]
    by_cases h2 : keyInTags t g.tagList = true
    · rw [if_pos h2, if_pos h2]
    · rw [if_neg h2, if_neg h2]
      have h3 : lookupGroup g.subgroups t = none := by
        rcases hdis with h | h | h
        · exact absurd h h1
        · exact absurd h h2
        · exact h
      rw [h3]

theorem mem_capSet_of_contains (g : GroupSpec) (n : Int)
    (h : g.tagList.contains n = true) : n ∈ capSet g := by
  rw [capSet_eq]
  exact List.mem_append_left _ (by simpa using h)

theorem keyInTags_false_of_not_capSet (g : GroupSpec) (n : Int) (h : n ∉ capSet g) :
    keyInTags (.knum n) g.tagList = false := by
  cases hk : keyInTags (.knum n) g.tagList with
  | false => rfl
  | true => exact absurd (mem_capSet_of_contains g n hk) h

theorem lookupGroup_none_of_not_capSet (g : GroupSpec) (n : Int) (h : n ∉ capSet g) :
    lookupGroup g.subgroups (.knum n) = none := by
  apply lookupGroup_none_of_not_mem
  intro hx
  exact h (by rw [capSet_eq]; exact List.mem_append_right _ hx)

theorem ne_marker_of_not_capSet (g : GroupSpec) (f n : Int)
    (hf : g.tagList.contains f = true) (h : n ∉ capSet g) : n ≠ f := by
  intro he
  rw [he] at h
  exact h (mem_capSet_of_contains g f hf)

/-- Capture sets grow downward: what a subgroup captures, the parent
captures. -/
theorem capSet_sub (g g2 : GroupSpec) (n : Int)
    (hlk : lookupGroup g.subgroups (.knum n) = some g2) :
    ∀ x ∈ capSet g2, x ∈ capSet g := by
  intro x hx
  rw [capSet_eq]
  exact List.mem_append_right _ (capList_trans g.subgroups n g2 hlk x hx)

/-- The token block of further well-formed members plus a terminator is a
safe hand-back list. -/
theorem followSafe_members (sep : Nat) (g : GroupSpec) (f : Int) (ms : List Frag)
    (rest : List (PyKey × Bytes)) (hms : wfMemberList sep g f ms = true)
    (hterm : termSafe g rest) :
    followSafe g f (memberToksList g.subgroups g.skey ms ++ rest) := by
  cases ms with
  | nil =>
      rw [memberToksList_nil]
      simp only [List.nil_append]
      cases rest with
      | nil => rw [followSafe]; trivial
      | cons tok tl =>
          obtain ⟨tk, tv⟩ := tok
          cases tk with
          | kraw s => rw [termSafe] at hterm; exact hterm.elim
          | knum n2 =>
              rw [termSafe] at hterm
              rw [followSafe]
              exact Or.inr hterm
  | cons m2 ms2 =>
      rw [wfMemberList] at hms
      simp only [Bool.and_eq_true] at hms
      obtain ⟨v0, tail, hsf, _, _, _⟩ := wfMemberB_shape sep g f m2 hms.1
      rw [memberToksList_cons, memberToks_eq _ _ _ _ hsf, entryToksList_cons,
        entryToks_scalar]
      simp only [List.cons_append, List.singleton_append]
      rw [followSafe]
      exact Or.inl rfl

/-- Fuel-normalising variant of the dispatch lemma. -/
theorem processGroupGo_dispatch_fuel (g : GroupSpec) (f : Int) (member2 : Frag)
    (acc : List Frag) (t : PyKey) (v : Bytes) (rem2 : List (PyKey × Bytes)) (fuel : Nat)
    (hge : rem2.length ≤ fuel)
    (hdis : t = .knum f ∨ keyInTags t g.tagList = true ∨ lookupGroup g.subgroups t = none) :
    (if t = PyKey.knum f then
       processGroupGo fuel g (some (.knum f)) [(t, .vStr v)] (acc ++ [member2]) rem2
     else if keyInTags t g.tagList then
       processGroupGo fuel g (some (.knum f)) (dinsert member2 t (.vStr v)) acc rem2
     else ((acc ++ [member2], some (.knum f)), (t, v) :: rem2)) =
    processGroupGo (rem2.length + 1) g (some (.knum f)) member2 acc ((t, v) :: rem2) := by
  rw [processGroupGo_fuel rem2 fuel hge, processGroupGo_fuel rem2 fuel hge]
  exact processGroupGo_dispatch g f member2 acc t v rem2 hdis

/-- The three invariants of `_process_group` on well-formed wire tokens,
by strong induction on the token-list length: consuming the tokens of a
member's residual entries only extends the member under construction;
consuming whole member token blocks appends the reparsed members; a full
group run from a fresh state returns exactly the reparsed members, the
marker, and the untouched suffix. -/
theorem processGroup_master (sep : Nat) : ∀ N : Nat,
    (∀ (g : GroupSpec) (f : Int) (entries : List (PyKey × PyVal)) (member : Frag)
       (acc : List Frag) (followup : List (PyKey × Bytes)),
       (entryToksList g.subgroups entries ++ followup).length ≤ N →
       wfEntryList sep g f entries = true →
       g.tagList.contains f = true →
       followSafe g f followup →
       processGroupGo (entryToksList g.subgroups entries ++ followup).length g
         (some (.knum f)) member acc (entryToksList g.subgroups entries ++ followup) =
       processGroupGo followup.length g (some (.knum f))
         (insertParsedEntries g.subgroups member entries) acc followup) ∧
    (∀ (g : GroupSpec) (f : Int) (ms : List Frag) (cur : Frag) (acc : List Frag)
       (rest : List (PyKey × Bytes)),
       (memberToksList g.subgroups g.skey ms ++ rest).length ≤ N →
       wfMemberList sep g f ms = true →
       g.tagList.contains f = true →
       termSafe g rest →
       processGroupGo (memberToksList g.subgroups g.skey ms ++ rest).length g
         (some (.knum f)) cur acc (memberToksList g.subgroups g.skey ms ++ rest) =
       ((acc ++ cur :: parsedMemberList g.subgroups g.skey ms, some (.knum f)), rest)) ∧
    (∀ (g : GroupSpec) (ms : List Frag) (rest : List (PyKey × Bytes)),
       (memberToksList g.subgroups g.skey ms ++ rest).length ≤ N →
       wfGroupVal sep g ms = true →
       termSafe g rest →
       processGroupGo (memberToksList g.subgroups g.skey ms ++ rest).length g
         none [] [] (memberToksList g.subgroups g.skey ms ++ rest) =
       ((parsedMemberList g.subgroups g.skey ms, groupMarkerK g.skey ms), rest)) := by
  intro N
  induction N using Nat.strong_induction_on with
  | _ N ih =>
      refine ⟨?_, ?_, ?_⟩
      · -- (A) entry consumption
        intro g f entries member acc followup hN hwf hf hfol
        cases entries with
        | nil =>
            rw [entryToksList_nil]
            simp only [List.nil_append]
            rw [show insertParsedEntries g.subgroups member [] = member from rfl]
        | cons e rest =>
            obtain ⟨k, v⟩ := e
            cases k with
            | kraw s => cases v <;> (rw [wfEntryList.eq_def] at hwf; simp at hwf)
            | knum n =>
                cases v with
                | vInt i => rw [wfEntryList.eq_def] at hwf; simp at hwf
                | vStr s =>
                    rw [wfEntryList] at hwf
                    simp only [Bool.and_eq_true, decide_eq_true_eq] at hwf
                    obtain ⟨⟨⟨⟨h0, hnf⟩, hcont⟩, hsepv⟩, hrest⟩ := hwf
                    rw [entryToksList_cons, entryToks_scalar]
                    simp only [List.cons_append, List.singleton_append, List.nil_append, List.length_cons]
                    rw [processGroupGo]
                    rw [if_neg (by simp [hnf])]
                    rw [if_pos (show keyInTags (PyKey.knum n) g.tagList = true from hcont)]
                    have hlt : (entryToksList g.subgroups rest ++ followup).length < N := by
                      rw [entryToksList_cons, entryToks_scalar] at hN
                      simp only [List.cons_append, List.singleton_append, List.nil_append,
                        List.length_cons] at hN
                      omega
                    rw [(ih _ hlt).1 g f rest
                      (dinsert member (PyKey.knum n) (PyVal.vStr s)) acc followup
                      (le_refl _) hrest hf hfol]
                    rw [insertParsedEntries_cons, parsedVal_scalar]
                | vGrp nt ft0 ms =>
                    rw [wfEntryList] at hwf
                    cases hlk : lookupGroup g.subgroups (PyKey.knum n) with
                    | none => rw [hlk] at hwf; simp at hwf
                    | some g2 =>
                        rw [hlk] at hwf
                        simp only [] at hwf
                        simp only [Bool.and_eq_true, decide_eq_true_eq,
                          Bool.not_eq_true'] at hwf
                        obtain ⟨⟨⟨⟨⟨⟨h0, hnf⟩, hncont⟩, hfcap⟩, hgv⟩, hfol2⟩, hrest⟩ := hwf
                        rw [entryToksList_cons, entryToks_group _ _ _ _ _ _ hlk]
                        simp only [List.cons_append, List.length_cons, List.append_assoc]
                        rw [processGroupGo]
                        rw [if_neg (by simp [hnf])]
                        rw [if_neg (show ¬ keyInTags (PyKey.knum n) g.tagList = true from by
                          show ¬ g.tagList.contains n = true
                          rw [hncont]
                          simp)]
                        rw [hlk]
                        simp only []
                        have hterm2 : termSafe g2 (entryToksList g.subgroups rest ++
                            followup) := by
                          cases rest with
                          | nil =>
                              rw [entryToksList_nil]
                              simp only [List.nil_append]
                              cases followup with
                              | nil => rw [termSafe]; trivial
                              | cons tok tl =>
                                  obtain ⟨tk, tv⟩ := tok
                                  cases tk with
                                  | kraw s2 => rw [followSafe] at hfol; exact hfol.elim
                                  | knum n2 =>
                                      rw [followSafe] at hfol
                                      rw [termSafe]
                                      rcases hfol with h | h
                                      · rw [h]; exact hfcap
                                      · intro hx
                                        exact h (capSet_sub g g2 n hlk n2 hx)
                          | cons e2 r2 =>
                              obtain ⟨k2, v2'⟩ := e2
                              cases k2 with
                              | kraw s2 => simp at hfol2
                              | knum n2 =>
                                  cases v2' with
                                  | vInt i => simp at hfol2
                                  | vGrp a b c => simp at hfol2
                                  | vStr s2 =>
                                      simp only [decide_eq_true_eq] at hfol2
                                      rw [entryToksList_cons, entryToks_scalar]
                                      simp only [List.cons_append, List.singleton_append, List.nil_append]
                                      rw [termSafe]
                                      exact hfol2
                        have hdis : ∀ t : PyKey, ∀ v2 : Bytes,
                            ∀ tl : List (PyKey × Bytes),
                            entryToksList g.subgroups rest ++ followup = (t, v2) :: tl →
                            t = PyKey.knum f ∨ keyInTags t g.tagList = true ∨
                              lookupGroup g.subgroups t = none := by
                          intro t v2 tl hEF
                          cases rest with
                          | nil =>
                              rw [entryToksList_nil, List.nil_append] at hEF
                              rw [hEF] at hfol
                              cases t with
                              | kraw s2 => rw [followSafe] at hfol; exact hfol.elim
                              | knum nn =>
                                  rw [followSafe] at hfol
                                  rcases hfol with h | h
                                  · exact Or.inl (by rw [h])
                                  · exact Or.inr (Or.inr
                                      (lookupGroup_none_of_not_capSet g nn h))
                          | cons e2 r2 =>
                              obtain ⟨k2, v2'⟩ := e2
                              cases k2 with
                              | kraw s2 => simp at hfol2
                              | knum n2 =>
                                  cases v2' with
                                  | vInt i => simp at hfol2
                                  | vGrp a b c => simp at hfol2
                                  | vStr s2 =>
                                      rw [wfEntryList] at hrest
                                      simp only [Bool.and_eq_true,
                                        decide_eq_true_eq] at hrest
                                      obtain ⟨⟨⟨⟨_, _⟩, hcont2⟩, _⟩, _⟩ := hrest
                                      rw [entryToksList_cons, entryToks_scalar] at hEF
                                      simp only [List.cons_append,
                                        List.singleton_append] at hEF
                                      injection hEF with h1 h2
                                      injection h1 with h1a h1b
                                      rw [← h1a]
                                      exact Or.inr (Or.inl hcont2)
                        have hlt2 : (memberToksList g2.subgroups g2.skey ms ++
                            (entryToksList g.subgroups rest ++ followup)).length < N := by
                          rw [entryToksList_cons, entryToks_group _ _ _ _ _ _ hlk] at hN
                          simp only [List.cons_append, List.length_cons,
                            List.append_assoc, List.length_append] at hN ⊢
                          omega
                        have hlt3 : (entryToksList g.subgroups rest ++ followup).length
                            < N := by
                          rw [entryToksList_cons, entryToks_group _ _ _ _ _ _ hlk] at hN
                          simp only [List.cons_append, List.length_cons,
                            List.append_assoc, List.length_append] at hN ⊢
                          omega
                        rw [(ih _ hlt2).2.2 g2 ms
                          (entryToksList g.subgroups rest ++ followup) (le_refl _)
                          hgv hterm2]
                        cases hEF : entryToksList g.subgroups rest ++ followup with
                        | nil =>
                            have hrnil : rest = [] := by
                              cases rest with
                              | nil => rfl
                              | cons e2 r2 =>
                                  exact absurd (List.append_eq_nil.mp hEF).1
                                    (entryToksList_ne_nil_of_wf sep g f e2 r2 hrest)
                            have hfnil : followup = [] := (List.append_eq_nil.mp hEF).2
                            subst hrnil
                            subst hfnil
                            simp only []
                            rw [insertParsedEntries_cons,
                              parsedVal_group _ _ _ _ _ _ hlk]
                            rw [show insertParsedEntries g.subgroups
                              (dinsert member (PyKey.knum n)
                                (PyVal.vGrp (some (PyKey.knum n))
                                  (groupMarkerK g2.skey ms)
                                  (parsedMemberList g2.subgroups g2.skey ms))) [] =
                              dinsert member (PyKey.knum n)
                                (PyVal.vGrp (some (PyKey.knum n))
                                  (groupMarkerK g2.skey ms)
                                  (parsedMemberList g2.subgroups g2.skey ms)) from rfl]
                            rw [processGroupGo]
                        | cons tv2 tl =>
                            obtain ⟨t, v2⟩ := tv2
                            simp only []
                            rw [processGroupGo_dispatch_fuel g f _ acc t v2 tl _
                              (by
                                simp only [List.length_append, List.length_cons]
                                omega)
                              (hdis t v2 tl hEF)]
                            rw [show tl.length + 1 =
                              (entryToksList g.subgroups rest ++ followup).length from by
                              rw [hEF]
                              simp]
                            rw [show ((t, v2) :: tl) =
                              entryToksList g.subgroups rest ++ followup from hEF.symm]
                            rw [(ih _ hlt3).1 g f rest
                              (dinsert member (PyKey.knum n)
                                (PyVal.vGrp (some (PyKey.knum n))
                                  (groupMarkerK g2.skey ms)
                                  (parsedMemberList g2.subgroups g2.skey ms)))
                              acc followup (le_refl _) hrest hf hfol]
                            rw [insertParsedEntries_cons,
                              parsedVal_group _ _ _ _ _ _ hlk]
      · -- (B) member loop
        intro g f ms cur acc rest hN hwf hf hterm
        cases ms with
        | nil =>
            rw [memberToksList_nil]
            simp only [List.nil_append]
            rw [parsedMemberList_nil]
            cases rest with
            | nil => rw [processGroupGo]
            | cons tok tl =>
                obtain ⟨tk, tv⟩ := tok
                cases tk with
                | kraw s2 => rw [termSafe] at hterm; exact hterm.elim
                | knum n2 =>
                    rw [termSafe] at hterm
                    simp only [List.length_cons]
                    rw [processGroupGo]
                    rw [if_neg (by
                      simp only [PyKey.knum.injEq]
                      intro he
                      exact (ne_marker_of_not_capSet g f n2 hf hterm) he)]
                    rw [if_neg (by
                      rw [keyInTags_false_of_not_capSet g n2 hterm]
                      simp)]
                    rw [lookupGroup_none_of_not_capSet g n2 hterm]
        | cons m ms' =>
            rw [wfMemberList] at hwf
            simp only [Bool.and_eq_true] at hwf
            obtain ⟨hm, hms⟩ := hwf
            obtain ⟨v0, tail, hsf, hcontf, htail, hnd⟩ := wfMemberB_shape sep g f m hm
            rw [memberToksList_cons, memberToks_eq _ _ _ _ hsf, entryToksList_cons,
              entryToks_scalar]
            simp only [List.cons_append, List.singleton_append, List.nil_append, List.length_cons,
              List.append_assoc]
            rw [processGroupGo]
            rw [if_pos rfl]
            have hfol : followSafe g f (memberToksList g.subgroups g.skey ms' ++ rest) :=
              followSafe_members sep g f ms' rest hms hterm
            have hltA : (entryToksList g.subgroups tail ++
                (memberToksList g.subgroups g.skey ms' ++ rest)).length < N := by
              rw [memberToksList_cons, memberToks_eq _ _ _ _ hsf, entryToksList_cons,
                entryToks_scalar] at hN
              simp only [List.cons_append, List.singleton_append, List.nil_append, List.length_cons,
                List.append_assoc, List.length_append] at hN ⊢
              omega
            rw [(ih _ hltA).1 g f tail [(PyKey.knum f, PyVal.vStr v0)]
              (acc ++ [cur]) (memberToksList g.subgroups g.skey ms' ++ rest)
              (le_refl _) htail hf hfol]
            have hltB : (memberToksList g.subgroups g.skey ms' ++ rest).length < N := by
              rw [memberToksList_cons, memberToks_eq _ _ _ _ hsf, entryToksList_cons,
                entryToks_scalar] at hN
              simp only [List.cons_append, List.singleton_append, List.nil_append, List.length_cons,
                List.append_assoc, List.length_append] at hN ⊢
              omega
            rw [(ih _ hltB).2.1 g f ms'
              (insertParsedEntries g.subgroups [(PyKey.knum f, PyVal.vStr v0)] tail)
              (acc ++ [cur]) rest (le_refl _) hms hf hterm]
            have hkeys := sortFrag_keys_nodup _ _ _ hsf (by
              have h2 : nodupKeysB m = true := hnd
              rw [nodupKeysB] at h2
              exact of_decide_eq_true h2)
            simp only [List.map_cons, List.nodup_cons] at hkeys
            rw [insertParsedEntries_eq g.subgroups tail [(PyKey.knum f, PyVal.vStr v0)]
              hkeys.2 (by
                intro k2 hk2
                simp only [List.map_cons, List.map_nil, List.mem_singleton]
                intro hc
                rw [hc] at hk2
                exact hkeys.1 hk2)]
            rw [parsedMemberList_cons, parsedMember_eq _ _ _ _ hsf]
            rw [parsedEntryList_cons, parsedVal_scalar]
            simp
      · -- (C) full group run
        intro g ms rest hN hgv hterm
        cases ms with
        | nil => rw [wfGroupVal.eq_def] at hgv; simp at hgv
        | cons m0 ms' =>
            rw [wfGroupVal] at hgv
            cases hfk : memberFirstKey g.skey m0 with
            | none => rw [hfk] at hgv; simp at hgv
            | some fk =>
                cases fk with
                | kraw s => rw [hfk] at hgv; simp at hgv
                | knum f =>
                    rw [hfk] at hgv
                    replace hgv : wfMemberList sep g f (m0 :: ms') = true := hgv
                    rw [wfMemberList] at hgv
                    simp only [Bool.and_eq_true] at hgv
                    obtain ⟨hm, hms⟩ := hgv
                    obtain ⟨v0, tail, hsf, hcontf, htail, hnd⟩ :=
                      wfMemberB_shape sep g f m0 hm
                    rw [memberToksList_cons, memberToks_eq _ _ _ _ hsf,
                      entryToksList_cons, entryToks_scalar]
                    simp only [List.cons_append, List.singleton_append, List.nil_append, List.length_cons,
                      List.append_assoc]
                    rw [processGroupGo]
                    rw [show dinsert [] (PyKey.knum f) (PyVal.vStr v0) =
                      [(PyKey.knum f, PyVal.vStr v0)] from rfl]
                    have hfol : followSafe g f
                        (memberToksList g.subgroups g.skey ms' ++ rest) :=
                      followSafe_members sep g f ms' rest hms hterm
                    have hltA : (entryToksList g.subgroups tail ++
                        (memberToksList g.subgroups g.skey ms' ++ rest)).length < N := by
                      rw [memberToksList_cons, memberToks_eq _ _ _ _ hsf,
                        entryToksList_cons, entryToks_scalar] at hN
                      simp only [List.cons_append, List.singleton_append, List.nil_append,
                        List.length_cons, List.append_assoc, List.length_append] at hN ⊢
                      omega
                    rw [(ih _ hltA).1 g f tail [(PyKey.knum f, PyVal.vStr v0)]
                      [] (memberToksList g.subgroups g.skey ms' ++ rest)
                      (le_refl _) htail hcontf hfol]
                    have hltB : (memberToksList g.subgroups g.skey ms' ++ rest).length
                        < N := by
                      rw [memberToksList_cons, memberToks_eq _ _ _ _ hsf,
                        entryToksList_cons, entryToks_scalar] at hN
                      simp only [List.cons_append, List.singleton_append, List.nil_append,
                        List.length_cons, List.append_assoc, List.length_append] at hN ⊢
                      omega
                    rw [(ih _ hltB).2.1 g f ms'
                      (insertParsedEntries g.subgroups
                        [(PyKey.knum f, PyVal.vStr v0)] tail)
                      [] rest (le_refl _) hms hcontf hterm]
                    have hkeys := sortFrag_keys_nodup _ _ _ hsf (by
                      have h2 : nodupKeysB m0 = true := hnd
                      rw [nodupKeysB] at h2
                      exact of_decide_eq_true h2)
                    simp only [List.map_cons, List.nodup_cons] at hkeys
                    rw [insertParsedEntries_eq g.subgroups tail
                      [(PyKey.knum f, PyVal.vStr v0)] hkeys.2 (by
                        intro k2 hk2
                        simp only [List.map_cons, List.map_nil, List.mem_singleton]
                        intro hc
                        rw [hc] at hk2
                        exact hkeys.1 hk2)]
                    rw [parsedMemberList_cons, parsedMember_eq _ _ _ _ hsf]
                    rw [parsedEntryList_cons, parsedVal_scalar]
                    rw [groupMarkerK, hfk]
                    simp

theorem parseMsgLoop_fuel_aux (n : Nat) :
    ∀ (toks : List (PyKey × Bytes)), toks.length ≤ n →
      ∀ fuel1 fuel2, toks.length ≤ fuel1 → toks.length ≤ fuel2 →
        ∀ (mt : MsgTypeSpec) (msg : Frag),
          parseMsgLoop fuel1 mt msg toks = parseMsgLoop fuel2 mt msg toks := by
  induction n with
  | zero =>
      intro toks hn fuel1 fuel2 h1 h2 mt msg
      have : toks = [] := List.length_eq_zero.mp (Nat.le_zero.mp hn)
      subst this
      cases fuel1 <;> cases fuel2 <;> simp [parseMsgLoop]
  | succ n ih =>
      intro toks hn fuel1 fuel2 h1 h2 mt msg
      cases toks with
      | nil => cases fuel1 <;> cases fuel2 <;> simp [parseMsgLoop]
      | cons tok rest =>
          obtain ⟨tag, value⟩ := tok
          simp only [List.length_cons] at hn h1 h2
          cases fuel1 with
          | zero => omega
          | succ f1 =>
              cases fuel2 with
              | zero => omega
              | succ f2 =>
                  have hr1 : rest.length ≤ f1 := by omega
                  have hr2 : rest.length ≤ f2 := by omega
                  have hrn : rest.length ≤ n := by omega
                  simp only [parseMsgLoop]
                  cases hg : lookupGroup mt.groups tag with
                  | none =>
                      simp only []
                      exact ih rest hrn f1 f2 hr1 hr2 mt
                        (dinsert msg tag (.vStr value))
                  | some g =>
                      simp only []
                      by_cases hz : value = [48]
                      · rw [if_pos hz, if_pos hz]
                        exact ih rest hrn f1 f2 hr1 hr2 mt
                          (dinsert msg tag (PyVal.vGrp (some tag) none []))
                      · rw [if_neg hz, if_neg hz]
                        rcases hpg : processGroupGo rest.length g none [] [] rest
                          with ⟨⟨ms1, ft1⟩, rem⟩
                        have hlen := processGroupGo_length rest.length g none [] [] rest
                        rw [hpg] at hlen
                        simp only [processGroup, hpg]
                        have hremn : rem.length ≤ n := le_trans hlen hrn
                        have hrem1 : rem.length ≤ f1 := le_trans hlen hr1
                        have hrem2 : rem.length ≤ f2 := le_trans hlen hr2
                        exact ih rem hremn f1 f2 hrem1 hrem2 mt
                          (dinsert msg tag (PyVal.vGrp (some tag) ft1 ms1))

theorem parseMsgLoop_fuel (toks : List (PyKey × Bytes)) (fuel : Nat)
    (h : toks.length ≤ fuel) (mt : MsgTypeSpec) (msg : Frag) :
    parseMsgLoop fuel mt msg toks = parseMsgLoop toks.length mt msg toks :=
  parseMsgLoop_fuel_aux toks.length toks (le_refl _) fuel toks.length h (le_refl _) mt msg

/-- A nonzero count never renders as the single byte "0". -/
theorem encInt_natCast_ne_48 (k : Nat) (h : k ≠ 0) : encInt (k : Int) ≠ [48] := by
  intro he
  rw [encInt, if_neg (by simp)] at he
  rw [show (Int.natAbs (k : Int)) = k from by simp] at he
  exact h (encNat_eq_singleton_48 k he)

/-- The first wire token of a well-formed top entry list carries the first
entry's key. -/
theorem entryToksList_top_head (sep : Nat) (mt : MsgTypeSpec) (e2 : PyKey × PyVal)
    (r2 : List (PyKey × PyVal)) (hwf : wfTopEntryList sep mt (e2 :: r2) = true) :
    ∃ vb tl2, entryToksList mt.groups (e2 :: r2) = (e2.1, vb) :: tl2 := by
  obtain ⟨k2, v2⟩ := e2
  cases k2 with
  | kraw s => cases v2 <;> simp [wfTopEntryList] at hwf
  | knum n2 =>
      cases v2 with
      | vInt i => simp [wfTopEntryList] at hwf
      | vStr s2 =>
          rw [entryToksList_cons, entryToks_scalar]
          exact ⟨s2, entryToksList mt.groups r2, by simp⟩
      | vGrp nt ft ms =>
          rw [wfTopEntryList] at hwf
          cases hlk : lookupGroup mt.groups (PyKey.knum n2) with
          | none => rw [hlk] at hwf; simp at hwf
          | some g3 =>
              rw [entryToksList_cons, entryToks_group _ _ _ _ _ _ hlk]
              exact ⟨encInt ms.length,
                memberToksList g3.subgroups g3.skey ms ++ entryToksList mt.groups r2,
                by simp⟩

/-- The group-aware top loop of `Codec.parse` rebuilds exactly the parsed
entries of a well-formed sorted top list. -/
theorem parseTop (sep : Nat) : ∀ (se : List (PyKey × PyVal)) (mt : MsgTypeSpec)
    (msgAcc : Frag), wfTopEntryList sep mt se = true →
    parseMsgLoop (entryToksList mt.groups se).length mt msgAcc
      (entryToksList mt.groups se) = insertParsedEntries mt.groups msgAcc se := by
  intro se
  induction se with
  | nil =>
      intro mt msgAcc _
      rw [entryToksList_nil]
      rw [show insertParsedEntries mt.groups msgAcc [] = msgAcc from rfl]
      rw [parseMsgLoop]
  | cons e rest ih =>
      intro mt msgAcc hwf
      obtain ⟨k, v⟩ := e
      cases k with
      | kraw s => cases v <;> simp [wfTopEntryList] at hwf
      | knum n =>
          cases v with
          | vInt i => simp [wfTopEntryList] at hwf
          | vStr s =>
              rw [wfTopEntryList] at hwf
              simp only [Bool.and_eq_true, decide_eq_true_eq,
                Option.isNone_iff_eq_none] at hwf
              obtain ⟨⟨⟨h0, hnone⟩, hsepv⟩, hrest⟩ := hwf
              rw [entryToksList_cons, entryToks_scalar]
              simp only [List.singleton_append, List.length_cons]
              rw [parseMsgLoop, hnone]
              simp only []
              rw [ih mt (dinsert msgAcc (PyKey.knum n) (PyVal.vStr s)) hrest]
              rw [insertParsedEntries_cons, parsedVal_scalar]
          | vGrp nt ft0 ms =>
              rw [wfTopEntryList] at hwf
              cases hlk : lookupGroup mt.groups (PyKey.knum n) with
              | none => rw [hlk] at hwf; simp at hwf
              | some g2 =>
                  rw [hlk] at hwf
                  simp only [] at hwf
                  simp only [Bool.and_eq_true, decide_eq_true_eq] at hwf
                  obtain ⟨⟨h0, hbody⟩, hrest⟩ := hwf
                  rw [entryToksList_cons, entryToks_group _ _ _ _ _ _ hlk]
                  simp only [List.cons_append, List.length_cons, List.append_assoc]
                  rw [parseMsgLoop, hlk]
                  simp only []
                  cases ms with
                  | nil =>
                      rw [memberToksList_nil]
                      simp only [List.nil_append]
                      rw [if_pos (show encInt (List.length ([] : List Frag) : Int) = [48]
                        from by decide)]
                      rw [ih mt (dinsert msgAcc (PyKey.knum n)
                        (PyVal.vGrp (some (PyKey.knum n)) none [])) hrest]
                      rw [insertParsedEntries_cons, parsedVal_group _ _ _ _ _ _ hlk]
                      rw [groupMarkerK, parsedMemberList_nil]
                  | cons m0 ms' =>
                      simp only [List.isEmpty_cons, Bool.false_or,
                        Bool.and_eq_true] at hbody
                      obtain ⟨hgv, hfol2⟩ := hbody
                      rw [if_neg (encInt_natCast_ne_48 _ (by simp))]
                      have hterm : termSafe g2 (entryToksList mt.groups rest) := by
                        cases rest with
                        | nil => rw [entryToksList_nil, termSafe]; trivial
                        | cons e2 r2 =>
                            obtain ⟨vb, tl2, hhead⟩ :=
                              entryToksList_top_head sep mt e2 r2 hrest
                            rw [hhead]
                            obtain ⟨k2, v2⟩ := e2
                            cases k2 with
                            | kraw s2 => simp at hfol2
                            | knum n2 =>
                                simp only [decide_eq_true_eq] at hfol2
                                rw [termSafe]
                                exact hfol2
                      simp only [processGroup]
                      rw [(processGroup_master sep
                        ((memberToksList g2.subgroups g2.skey (m0 :: ms') ++
                          entryToksList mt.groups rest).length)).2.2 g2 (m0 :: ms')
                        (entryToksList mt.groups rest) (le_refl _) hgv hterm]
                      simp only []
                      rw [parseMsgLoop_fuel (entryToksList mt.groups rest) _ (by
                        simp only [List.length_append]
                        omega)]
                      rw [ih mt (dinsert msgAcc (PyKey.knum n)
                        (PyVal.vGrp (some (PyKey.knum n))
                          (groupMarkerK g2.skey (m0 :: ms'))
                          (parsedMemberList g2.subgroups g2.skey (m0 :: ms')))) hrest]
                      rw [insertParsedEntries_cons, parsedVal_group _ _ _ _ _ _ hlk]

/-- Lookup of a present key in a dict with distinct keys. -/
theorem dget_of_mem_nodup (m : Frag) (k : PyKey) (v : PyVal)
    (hnd : (m.map Prod.fst).Nodup) (hmem : (k, v) ∈ m) : dget m k = some v := by
  induction m with
  | nil => cases hmem
  | cons e r ih =>
      obtain ⟨k', w⟩ := e
      simp only [List.map_cons, List.nodup_cons] at hnd
      rcases List.mem_cons.mp hmem with he | ht
      · injection he with h1 h2
        subst h1
        subst h2
        rw [dget, if_pos rfl]
      · have hne : k' ≠ k := by
          intro hk
          subst hk
          exact hnd.1 (List.mem_map.mpr ⟨(k', v), ht, rfl⟩)
        rw [dget, if_neg hne]
        exact ih hnd.2 ht

theorem parsedEntryList_length (sgs : List (Int × GroupSpec)) (l : List (PyKey × PyVal)) :
    (parsedEntryList sgs l).length = l.length := by
  have h := congrArg List.length (parsedEntryList_map_fst sgs l)
  simpa using h

/-- Per-value condition for the parser to reproduce a value: scalar
strings are reproduced verbatim; group values must resolve in scope and
be empty or well formed. -/
def valWF (sep : Nat) (sgs : List (Int × GroupSpec)) (k : PyKey) : PyVal → Prop
  | .vStr _ => True
  | .vInt _ => False
  | .vGrp _ _ ms =>
      ∃ g2, lookupGroup sgs k = some g2 ∧ (ms = [] ∨ wfGroupVal sep g2 ms = true)

theorem wfEntryList_valWF (sep : Nat) (g : GroupSpec) (f : Int) :
    ∀ l, wfEntryList sep g f l = true → ∀ kv ∈ l, valWF sep g.subgroups kv.1 kv.2 := by
  intro l
  induction l with
  | nil => intro _ kv hkv; cases hkv
  | cons e rest ih =>
      intro hwf kv hkv
      obtain ⟨k, v⟩ := e
      cases k with
      | kraw s => cases v <;> (rw [wfEntryList.eq_def] at hwf; simp at hwf)
      | knum n =>
          cases v with
          | vInt i => rw [wfEntryList.eq_def] at hwf; simp at hwf
          | vStr s =>
              rw [wfEntryList] at hwf
              simp only [Bool.and_eq_true] at hwf
              rcases List.mem_cons.mp hkv with he | ht
              · subst he; exact trivial
              · exact ih hwf.2 kv ht
          | vGrp nt ft ms =>
              rw [wfEntryList] at hwf
              cases hlk : lookupGroup g.subgroups (PyKey.knum n) with
              | none => rw [hlk] at hwf; simp at hwf
              | some g2 =>
                  rw [hlk] at hwf
                  simp only [] at hwf
                  simp only [Bool.and_eq_true] at hwf
                  rcases List.mem_cons.mp hkv with he | ht
                  · subst he
                    exact ⟨g2, hlk, Or.inr hwf.1.1.2⟩
                  · exact ih hwf.2 kv ht

theorem wfTop_valWF (sep : Nat) (mt : MsgTypeSpec) :
    ∀ l, wfTopEntryList sep mt l = true → ∀ kv ∈ l, valWF sep mt.groups kv.1 kv.2 := by
  intro l
  induction l with
  | nil => intro _ kv hkv; cases hkv
  | cons e rest ih =>
      intro hwf kv hkv
      obtain ⟨k, v⟩ := e
      cases k with
      | kraw s => cases v <;> simp [wfTopEntryList] at hwf
      | knum n =>
          cases v with
          | vInt i => simp [wfTopEntryList] at hwf
          | vStr s =>
              rw [wfTopEntryList] at hwf
              simp only [Bool.and_eq_true] at hwf
              rcases List.mem_cons.mp hkv with he | ht
              · subst he; exact trivial
              · exact ih hwf.2 kv ht
          | vGrp nt ft ms =>
              rw [wfTopEntryList] at hwf
              cases hlk : lookupGroup mt.groups (PyKey.knum n) with
              | none => rw [hlk] at hwf; simp at hwf
              | some g2 =>
                  rw [hlk] at hwf
                  simp only [] at hwf
                  simp only [Bool.and_eq_true] at hwf
                  rcases List.mem_cons.mp hkv with he | ht
                  · subst he
                    refine ⟨g2, hlk, ?_⟩
                    cases ms with
                    | nil => exact Or.inl rfl
                    | cons m0 ms' =>
                        simp only [List.isEmpty_cons, Bool.false_or,
                          Bool.and_eq_true] at hwf
                        exact Or.inr hwf.1.2.1
                  · exact ih hwf.2 kv ht

/-- The parsed forms are Python-`==` to the originals, by strong induction
on a scaled size measure. -/
theorem parsed_pyEq (sep : Nat) : ∀ N : Nat,
    (∀ (sgs : List (Int × GroupSpec)) (k : PyKey) (v : PyVal), 2 * sizeOf v ≤ N →
       valWF sep sgs k v → pyEqVal (parsedVal sgs k v) v = true) ∧
    (∀ (sgs : List (Int × GroupSpec)) (l : List (PyKey × PyVal)) (m : Frag),
       2 * sizeOf l ≤ N →
       (∀ kv ∈ l, dget m kv.1 = some kv.2) →
       (∀ kv ∈ l, valWF sep sgs kv.1 kv.2) →
       pyEqSub (parsedEntryList sgs l) m = true) ∧
    (∀ (sgs : List (Int × GroupSpec)) (skey : List (Int × Int)) (m : Frag),
       2 * sizeOf m + 1 ≤ N →
       (∃ (g : GroupSpec) (f : Int), g.subgroups = sgs ∧ g.skey = skey ∧
         wfMemberB sep g f m = true) →
       pyEqFrag (parsedMember sgs skey m) m = true) ∧
    (∀ (sgs : List (Int × GroupSpec)) (skey : List (Int × Int)) (ms : List Frag),
       2 * sizeOf ms + 2 ≤ N →
       (∃ (g : GroupSpec) (f : Int), g.subgroups = sgs ∧ g.skey = skey ∧
         wfMemberList sep g f ms = true) →
       pyEqMembers (parsedMemberList sgs skey ms) ms = true) := by
  intro N
  induction N using Nat.strong_induction_on with
  | _ N ih =>
      refine ⟨?_, ?_, ?_, ?_⟩
      · -- values
        intro sgs k v hN hwf
        cases v with
        | vStr s =>
            rw [parsedVal_scalar, pyEqVal]
            simp
        | vInt i => exact hwf.elim
        | vGrp nt ft ms =>
            obtain ⟨g2, hlk, hms⟩ := hwf
            rw [parsedVal_group _ _ _ _ _ _ hlk, pyEqVal]
            rcases hms with hnil | hgv
            · subst hnil
              rw [parsedMemberList_nil, pyEqMembers]
            · have hf : ∃ (g : GroupSpec) (f : Int), g.subgroups = g2.subgroups ∧
                  g.skey = g2.skey ∧ wfMemberList sep g f ms = true := by
                cases ms with
                | nil => rw [wfGroupVal.eq_def] at hgv; simp at hgv
                | cons m0 ms' =>
                    rw [wfGroupVal] at hgv
                    cases hfk : memberFirstKey g2.skey m0 with
                    | none => rw [hfk] at hgv; simp at hgv
                    | some fk =>
                        cases fk with
                        | kraw s => rw [hfk] at hgv; simp at hgv
                        | knum f =>
                            rw [hfk] at hgv
                            exact ⟨g2, f, rfl, rfl, hgv⟩
              have hszms : 2 * sizeOf ms + 2 < N := by
                have hnt : 1 ≤ sizeOf nt := by cases nt <;> simp
                have hft : 1 ≤ sizeOf ft := by cases ft <;> simp
                have : sizeOf ms + 3 ≤ sizeOf (PyVal.vGrp nt ft ms) := by
                  simp
                  omega
                omega
              exact (ih _ hszms).2.2.2 g2.subgroups g2.skey ms (le_refl _) hf
      · -- entry lists against the source dict
        intro sgs l m hN hget hwf
        cases l with
        | nil =>
            rw [show parsedEntryList sgs [] = [] from by rw [parsedEntryList]]
            rw [pyEqSub]
        | cons e r =>
            obtain ⟨k, v⟩ := e
            rw [parsedEntryList_cons, pyEqSub]
            rw [hget (k, v) (by simp)]
            show (pyEqVal (parsedVal sgs k v) v && pyEqSub (parsedEntryList sgs r) m) =
              true
            simp only [Bool.and_eq_true]
            constructor
            · have hszv : 2 * sizeOf v < N := by
                have : sizeOf v + 2 ≤ sizeOf ((k, v) :: r) := by simp <;> omega
                omega
              exact (ih _ hszv).1 sgs k v (le_refl _) (hwf (k, v) (by simp))
            · have hszr : 2 * sizeOf r < N := by
                have : sizeOf r < sizeOf ((k, v) :: r) := by simp <;> omega
                omega
              exact (ih _ hszr).2.1 sgs r m (le_refl _)
                (fun kv hkv => hget kv (by simp [hkv]))
                (fun kv hkv => hwf kv (by simp [hkv]))
      · -- one member
        intro sgs skey m hN hex
        obtain ⟨g, f, hsub, hskey, hm⟩ := hex
        obtain ⟨v0, tail, hsf, hcontf, htail, hnd⟩ := wfMemberB_shape sep g f m hm
        subst hsub
        subst hskey
        rw [parsedMember_eq _ _ _ _ hsf]
        have hndm : (m.map Prod.fst).Nodup := by
          have h2 : nodupKeysB m = true := hnd
          rw [nodupKeysB] at h2
          exact of_decide_eq_true h2
        have hperm := sortFrag_perm _ _ _ hsf
        rw [pyEqFrag]
        simp only [Bool.and_eq_true]
        constructor
        · rw [parsedEntryList_length]
          rw [hperm.length_eq]
          simp
        · have hsz : sizeOf ((PyKey.knum f, PyVal.vStr v0) :: tail) = sizeOf m :=
            sortFrag_sizeOf _ _ _ hsf
          have hlt : 2 * sizeOf ((PyKey.knum f, PyVal.vStr v0) :: tail) < N := by
            omega
          refine (ih _ hlt).2.1 g.subgroups _ m (le_refl _) ?_ ?_
          · intro kv hkv
            obtain ⟨k2, v2⟩ := kv
            exact dget_of_mem_nodup m k2 v2 hndm (hperm.mem_iff.mp hkv)
          · intro kv hkv
            rcases List.mem_cons.mp hkv with he | ht
            · subst he; exact trivial
            · exact wfEntryList_valWF sep g f tail htail kv ht
      · -- member lists
        intro sgs skey ms hN hex
        obtain ⟨g, f, hsub, hskey, hms⟩ := hex
        subst hsub
        subst hskey
        cases ms with
        | nil =>
            rw [parsedMemberList_nil, pyEqMembers]
        | cons m0 ms' =>
            rw [wfMemberList] at hms
            simp only [Bool.and_eq_true] at hms
            rw [parsedMemberList_cons, pyEqMembers]
            simp only [Bool.and_eq_true]
            constructor
            · have hlt : 2 * sizeOf m0 + 1 < N := by
                have : sizeOf m0 < sizeOf (m0 :: ms') := by simp <;> omega
                omega
              exact (ih _ hlt).2.2.1 g.subgroups g.skey m0 (le_refl _)
                ⟨g, f, rfl, rfl, hms.1⟩
            · have hlt : 2 * sizeOf ms' + 2 < N := by
                have : sizeOf ms' < sizeOf (m0 :: ms') := by simp <;> omega
                omega
              exact (ih _ hlt).2.2.2 g.subgroups g.skey ms' (le_refl _)
                ⟨g, f, rfl, rfl, hms.2⟩

/-- C1 (amended): with a fixed spec resolving the message's type, the
serialise/parse round trip reproduces the fragment up to Python `==` -
including the structure and contents of nested repeating groups - for
every well-formed message: distinct nonnegative integer tags,
separator-free scalar string values, scalar values only on non-group
tags, nonempty well-formed groups on group tags whose sorted members
start with a common marker member tag and whose nested groups are
nonempty, followed (in sort order) by entries their subgroups cannot
capture; the serialised token stream must stay at least four pairs long
and re-resolve the same message type through the first-four-token scan.
Value equality on every tag in particular gives value equality on every
tag except 9 and 10. -/
theorem C1_amended_roundtrip (sp : FixSpecModel) (mt : MsgTypeSpec) (msg : Frag)
    (mv : Bytes) (out : List (PyKey × PyVal)) (delim sep : Nat)
    (hd : isAlnumB delim = false) (hs : isAlnumB sep = false)
    (hdw : isWordByte delim = false) (hds : delim ≠ sep)
    (h35 : dget msg (.knum 35) = some (.vStr mv))
    (hmt : mtLookup sp.msgTypes mv = some mt)
    (hout : sort_values mt.groups mt.skey msg = .ok out)
    (hlen4 : 4 ≤ out.length)
    (hfind : findMsgType sp (out.map rawOf) = some mt)
    (hwf : WFParse sep mt msg = true) :
    ∃ wire msg2, serialise ⟨some sp, false⟩ msg sep delim = .ok wire ∧
      parse ⟨some sp, false⟩ wire delim sep = .ok msg2 ∧
      pyEqFrag msg2 msg = true := by
  rw [WFParse] at hwf
  simp only [Bool.and_eq_true] at hwf
  obtain ⟨hndB, hwf2⟩ := hwf
  cases hsf : sortFrag (getSortingKeyE mt.skey) msg with
  | error e =>
      rw [hsf] at hwf2
      replace hwf2 : false = true := hwf2
      cases hwf2
  | ok se =>
      rw [hsf] at hwf2
      replace hwf2 : wfTopEntryList sep mt se = true := hwf2
      have hclean : cleanEntryList sep mt.groups se = true := wfTop_clean sep mt se hwf2
      have hexp : expandSorted mt.groups se = .ok out := by
        rw [sort_values, hsf] at hout
        exact hout
      obtain ⟨hmap, houtc⟩ := (tokens_link_aux sep (2 * sizeOf se)).2.1 mt.groups se
        (le_refl _) hclean out hexp
      have hunmap : unmap ⟨some sp, false⟩ msg = .ok out := by
        rw [unmap]
        simp only []
        rw [h35]
        simp only []
        rw [hmt]
        exact hout
      have hser : serialise ⟨some sp, false⟩ msg sep delim =
          .ok (wireOf delim sep (out.map rawOf)) := by
        rw [serialise, hunmap]
        exact serialisePairs_clean delim sep out houtc
      have hndm : (msg.map Prod.fst).Nodup := by
        rw [nodupKeysB] at hndB
        exact of_decide_eq_true hndB
      have hndse : (se.map Prod.fst).Nodup := sortFrag_keys_nodup _ _ _ hsf hndm
      refine ⟨wireOf delim sep (out.map rawOf), parsedEntryList mt.groups se, hser,
        ?_, ?_⟩
      · have hfa : findall delim sep (wireOf delim sep (out.map rawOf)) =
            out.map rawOf :=
          findall_wireOf delim sep hdw hds hs hd (out.map rawOf)
            (rawOf_props sep hs out houtc)
        simp only [parse, hd, hs]
        simp only [Bool.or_self]
        rw [if_neg (by simp)]
        rw [hfa]
        rw [if_neg (by rw [List.length_map]; omega)]
        rw [hfind]
        simp only []
        rw [raw_int_or_str sep out houtc, hmap]
        rw [parseTop sep se mt [] hwf2]
        rw [insertParsedEntries_eq mt.groups se [] hndse (by intro k2 hk2; simp)]
        simp
      · have hperm := sortFrag_perm _ _ _ hsf
        rw [pyEqFrag]
        simp only [Bool.and_eq_true]
        refine ⟨?_, ?_⟩
        · rw [parsedEntryList_length, hperm.length_eq]
          simp
        · refine (parsed_pyEq sep (2 * sizeOf se)).2.1 mt.groups se msg (le_refl _)
            ?_ (wfTop_valWF sep mt se hwf2)
          intro kv hkv
          obtain ⟨k2, v2⟩ := kv
          exact dget_of_mem_nodup msg k2 v2 hndm (hperm.mem_iff.mp hkv)


/-- Evaluation rules: each reduces one step of a recursive checker or
expander from already-evaluated parts, by rewriting with the equation
lemmas only. -/
theorem sortValues_eval (groups : List (Int × GroupSpec)) (skey : List (Int × Int))
    (msg : Frag) (se out : List (PyKey × PyVal))
    (hsf : sortFrag (getSortingKeyE skey) msg = .ok se)
    (hexp : expandSorted groups se = .ok out) :
    sort_values groups skey msg = .ok out := by
  rw [sort_values]
  split
  next sorted heq =>
    rw [heq] at hsf
    injection hsf with h2
    subst h2
    exact hexp
  next e heq =>
    rw [heq] at hsf
    cases hsf

theorem expandSorted_eval_nil (groups : List (Int × GroupSpec)) :
    expandSorted groups [] = .ok [] := by
  rw [expandSorted]

theorem expandSorted_eval_scalar (groups : List (Int × GroupSpec)) (k : PyKey) (s : Bytes)
    (rest restE : List (PyKey × PyVal)) (h : expandSorted groups rest = .ok restE) :
    expandSorted groups ((k, PyVal.vStr s) :: rest) = .ok ((k, PyVal.vStr s) :: restE) := by
  rw [expandSorted, h]

theorem expandSorted_eval_group (groups : List (Int × GroupSpec)) (k : PyKey)
    (nt ft : Option PyKey) (ms : List Frag) (g2 : GroupSpec)
    (rest restE mem : List (PyKey × PyVal))
    (hlk : lookupGroup groups k = some g2)
    (hm : expandMembers g2 ms = .ok mem)
    (hr : expandSorted groups rest = .ok restE) :
    expandSorted groups ((k, PyVal.vGrp nt ft ms) :: rest) =
      .ok ((k, PyVal.vInt ms.length) :: (mem ++ restE)) := by
  simp only [expandSorted, hlk, hm, hr]

theorem expandMembers_eval_nil (g : GroupSpec) : expandMembers g [] = .ok [] := by
  rw [expandMembers]

theorem expandMembers_eval_cons (g : GroupSpec) (m : Frag) (ms : List Frag)
    (mE msE : List (PyKey × PyVal))
    (h1 : sort_values g.subgroups g.skey m = .ok mE)
    (h2 : expandMembers g ms = .ok msE) :
    expandMembers g (m :: ms) = .ok (mE ++ msE) := by
  rw [expandMembers, h1, h2]

theorem WFParse_eval (sep : Nat) (mt : MsgTypeSpec) (msg : Frag)
    (se : List (PyKey × PyVal))
    (hnd : nodupKeysB msg = true)
    (hsf : sortFrag (getSortingKeyE mt.skey) msg = .ok se)
    (htop : wfTopEntryList sep mt se = true) :
    WFParse sep mt msg = true := by
  rw [WFParse, hsf]
  show (nodupKeysB msg && wfTopEntryList sep mt se) = true
  rw [hnd, htop]
  rfl

theorem wfTop_eval_nil (sep : Nat) (mt : MsgTypeSpec) :
    wfTopEntryList sep mt [] = true := by
  rw [wfTopEntryList]

theorem wfTop_eval_scalar (sep : Nat) (mt : MsgTypeSpec) (n : Int) (s : Bytes)
    (rest : List (PyKey × PyVal))
    (hn : 0 ≤ n)
    (hnone : lookupGroup mt.groups (.knum n) = none)
    (hsep : s.all (fun b => decide (b ≠ sep)) = true)
    (hrest : wfTopEntryList sep mt rest = true) :
    wfTopEntryList sep mt ((.knum n, .vStr s) :: rest) = true := by
  rw [wfTopEntryList, hnone, hsep, hrest]
  simp [hn]

theorem wfTop_eval_group_last (sep : Nat) (mt : MsgTypeSpec) (n : Int)
    (nt ft : Option PyKey) (m0 : Frag) (ms2 : List Frag) (g2 : GroupSpec)
    (hn : 0 ≤ n)
    (hlk : lookupGroup mt.groups (.knum n) = some g2)
    (hgv : wfGroupVal sep g2 (m0 :: ms2) = true) :
    wfTopEntryList sep mt [(.knum n, .vGrp nt ft (m0 :: ms2))] = true := by
  rw [wfTopEntryList, hlk]
  simp [hn, hgv, wfTop_eval_nil]

theorem wfGroupVal_eval (sep : Nat) (g : GroupSpec) (f : Int) (m0 : Frag)
    (ms2 : List Frag)
    (hm1 : memberFirstKey g.skey m0 = some (PyKey.knum f))
    (hml : wfMemberList sep g f (m0 :: ms2) = true) :
    wfGroupVal sep g (m0 :: ms2) = true := by
  rw [wfGroupVal, hm1]
  exact hml

theorem wfMemberList_eval_nil (sep : Nat) (g : GroupSpec) (f : Int) :
    wfMemberList sep g f [] = true := by
  rw [wfMemberList]

theorem wfMemberList_eval_cons (sep : Nat) (g : GroupSpec) (f : Int) (m : Frag)
    (ms : List Frag)
    (hm : wfMemberB sep g f m = true)
    (hms : wfMemberList sep g f ms = true) :
    wfMemberList sep g f (m :: ms) = true := by
  rw [wfMemberList, hm, hms]
  rfl

theorem wfMemberB_eval (sep : Nat) (g : GroupSpec) (f : Int) (m : Frag)
    (se : List (PyKey × PyVal))
    (hnd : nodupKeysB m = true)
    (hsf : sortFrag (getSortingKeyE g.skey) m = .ok se)
    (hsm : wfSortedMember sep g f se = true) :
    wfMemberB sep g f m = true := by
  rw [wfMemberB, hnd]
  simp only [Bool.true_and]
  split
  next se2 heq =>
    rw [heq] at hsf
    injection hsf with h2
    subst h2
    exact hsm
  next e heq =>
    rw [heq] at hsf
    cases hsf

theorem wfSortedMember_eval (sep : Nat) (g : GroupSpec) (f : Int) (v0 : Bytes)
    (tail : List (PyKey × PyVal))
    (h0 : 0 ≤ f)
    (hcont : g.tagList.contains f = true)
    (hsep : v0.all (fun b => decide (b ≠ sep)) = true)
    (htail : wfEntryList sep g f tail = true) :
    wfSortedMember sep g f ((PyKey.knum f, PyVal.vStr v0) :: tail) = true := by
  rw [wfSortedMember, hcont, hsep, htail]
  simp [h0]

theorem wfEntryList_eval_nil (sep : Nat) (g : GroupSpec) (f : Int) :
    wfEntryList sep g f [] = true := by
  rw [wfEntryList]

theorem wfEntryList_eval_scalar (sep : Nat) (g : GroupSpec) (f n : Int) (s : Bytes)
    (rest : List (PyKey × PyVal))
    (hn : 0 ≤ n) (hnf : n ≠ f)
    (hcont : g.tagList.contains n = true)
    (hsep : s.all (fun b => decide (b ≠ sep)) = true)
    (hrest : wfEntryList sep g f rest = true) :
    wfEntryList sep g f ((.knum n, .vStr s) :: rest) = true := by
  rw [wfEntryList, hcont, hsep, hrest]
  simp [hn, hnf]

/-- C1 counterexample: the fragment {35: "D"} under a spec that knows
message type "D" serialises successfully to b"35=D\x01", but re-parsing
that wire with the same codec raises IndexError - the first-four-token
scan of `Codec.parse` indexes past the single tokenised pair - so the
round trip does not return a fragment at all, refuting the unconditional
claim. -/
theorem C1_counterexample_short_roundtrip :
    serialise ⟨some ⟨[([68], (⟨[], [(35, 0)]⟩ : MsgTypeSpec))]⟩, false⟩
        [(PyKey.knum 35, PyVal.vStr [68])] 1 61 = .ok [51, 53, 61, 68, 1] ∧
    parse ⟨some ⟨[([68], (⟨[], [(35, 0)]⟩ : MsgTypeSpec))]⟩, false⟩
        [51, 53, 61, 68, 1] 61 1 = .error .indexError := by
  constructor
  · simp [serialise, unmap, sort_values, sortFrag, decorate, getSortingKeyE,
      skLookup, sortLE, insertLE, expandSorted, serialisePairs, serialiseTagBytes,
      serialiseValBytes, mtLookup, dget, encInt, encNat, Nat.toDigits,
      Nat.toDigitsCore, Nat.digitChar]
  · simp [parse, findall, matchAt, findValue, wordThenSep, wordThenSepGo,
      List.takeWhile, List.drop, isAlnumB, isWordByte]

/-- Witness for C1 (amended) at a concrete spec and message with one
repeating group of two members: serialise succeeds, parse succeeds, and
the reparsed fragment is Python-`==` to the original. -/
theorem C1_amended_witness :
    ∃ wire msg2,
      serialise ⟨some ⟨[([68],
          (⟨[(268, GroupSpec.mk 268 [279, 269] [] [(279, 100), (269, 101)])],
            [(35, 0), (8, 1), (9, 2), (268, 50)]⟩ : MsgTypeSpec))]⟩, false⟩
        [(PyKey.knum 35, PyVal.vStr [68]), (PyKey.knum 8, PyVal.vStr [70]),
         (PyKey.knum 9, PyVal.vStr [51]),
         (PyKey.knum 268, PyVal.vGrp none none
           [[(PyKey.knum 279, PyVal.vStr [65]), (PyKey.knum 269, PyVal.vStr [66])],
            [(PyKey.knum 279, PyVal.vStr [67])]])] 1 61 = .ok wire ∧
      parse ⟨some ⟨[([68],
          (⟨[(268, GroupSpec.mk 268 [279, 269] [] [(279, 100), (269, 101)])],
            [(35, 0), (8, 1), (9, 2), (268, 50)]⟩ : MsgTypeSpec))]⟩, false⟩
        wire 61 1 = .ok msg2 ∧
      pyEqFrag msg2
        [(PyKey.knum 35, PyVal.vStr [68]), (PyKey.knum 8, PyVal.vStr [70]),
         (PyKey.knum 9, PyVal.vStr [51]),
         (PyKey.knum 268, PyVal.vGrp none none
           [[(PyKey.knum 279, PyVal.vStr [65]), (PyKey.knum 269, PyVal.vStr [66])],
            [(PyKey.knum 279, PyVal.vStr [67])]])] = true := by
  apply C1_amended_roundtrip
    ⟨[([68],
      (⟨[(268, GroupSpec.mk 268 [279, 269] [] [(279, 100), (269, 101)])],
        [(35, 0), (8, 1), (9, 2), (268, 50)]⟩ : MsgTypeSpec))]⟩
    (⟨[(268, GroupSpec.mk 268 [279, 269] [] [(279, 100), (269, 101)])],
      [(35, 0), (8, 1), (9, 2), (268, 50)]⟩ : MsgTypeSpec)
    [(PyKey.knum 35, PyVal.vStr [68]), (PyKey.knum 8, PyVal.vStr [70]),
     (PyKey.knum 9, PyVal.vStr [51]),
     (PyKey.knum 268, PyVal.vGrp none none
       [[(PyKey.knum 279, PyVal.vStr [65]), (PyKey.knum 269, PyVal.vStr [66])],
        [(PyKey.knum 279, PyVal.vStr [67])]])] [68]
    [(PyKey.knum 35, PyVal.vStr [68]), (PyKey.knum 8, PyVal.vStr [70]),
     (PyKey.knum 9, PyVal.vStr [51]), (PyKey.knum 268, PyVal.vInt 2),
     (PyKey.knum 279, PyVal.vStr [65]), (PyKey.knum 269, PyVal.vStr [66]),
     (PyKey.knum 279, PyVal.vStr [67])] 61 1
    (by decide) (by decide) (by decide) (by decide) rfl rfl
    (by

      have hm1 : sort_values ([] : List (Int × GroupSpec)) [(279, 100), (269, 101)]
          [(PyKey.knum 279, PyVal.vStr [65]), (PyKey.knum 269, PyVal.vStr [66])] =
          .ok [(PyKey.knum 279, PyVal.vStr [65]), (PyKey.knum 269, PyVal.vStr [66])] := by
        refine sortValues_eval _ _ _
          [(PyKey.knum 279, PyVal.vStr [65]), (PyKey.knum 269, PyVal.vStr [66])] _ rfl ?_
        exact expandSorted_eval_scalar _ _ _ _ _
          (expandSorted_eval_scalar _ _ _ _ _ (expandSorted_eval_nil _))
      have hm2 : sort_values ([] : List (Int × GroupSpec)) [(279, 100), (269, 101)]
          [(PyKey.knum 279, PyVal.vStr [67])] =
          .ok [(PyKey.knum 279, PyVal.vStr [67])] := by
        refine sortValues_eval _ _ _ [(PyKey.knum 279, PyVal.vStr [67])] _ rfl ?_
        exact expandSorted_eval_scalar _ _ _ _ _ (expandSorted_eval_nil _)
      have hmem : expandMembers (GroupSpec.mk 268 [279, 269] [] [(279, 100), (269, 101)])
          [[(PyKey.knum 279, PyVal.vStr [65]), (PyKey.knum 269, PyVal.vStr [66])],
           [(PyKey.knum 279, PyVal.vStr [67])]] =
          .ok [(PyKey.knum 279, PyVal.vStr [65]), (PyKey.knum 269, PyVal.vStr [66]),
               (PyKey.knum 279, PyVal.vStr [67])] := by
        refine expandMembers_eval_cons _ _ _
          [(PyKey.knum 279, PyVal.vStr [65]), (PyKey.knum 269, PyVal.vStr [66])]
          [(PyKey.knum 279, PyVal.vStr [67])] hm1 ?_
        have h2 := expandMembers_eval_cons
          (GroupSpec.mk 268 [279, 269] [] [(279, 100), (269, 101)])
          [(PyKey.knum 279, PyVal.vStr [67])] []
          [(PyKey.knum 279, PyVal.vStr [67])] [] hm2 (expandMembers_eval_nil _)
        exact h2
      refine sortValues_eval _ _ _
        [(PyKey.knum 35, PyVal.vStr [68]), (PyKey.knum 8, PyVal.vStr [70]),
         (PyKey.knum 9, PyVal.vStr [51]),
         (PyKey.knum 268, PyVal.vGrp none none
           [[(PyKey.knum 279, PyVal.vStr [65]), (PyKey.knum 269, PyVal.vStr [66])],
            [(PyKey.knum 279, PyVal.vStr [67])]])] _ rfl ?_
      refine expandSorted_eval_scalar _ _ _ _ _ ?_
      refine expandSorted_eval_scalar _ _ _ _ _ ?_
      refine expandSorted_eval_scalar _ _ _ _ _ ?_
      exact expandSorted_eval_group
        [(268, GroupSpec.mk 268 [279, 269] [] [(279, 100), (269, 101)])]
        (PyKey.knum 268) none none
        [[(PyKey.knum 279, PyVal.vStr [65]), (PyKey.knum 269, PyVal.vStr [66])],
         [(PyKey.knum 279, PyVal.vStr [67])]]
        (GroupSpec.mk 268 [279, 269] [] [(279, 100), (269, 101)])
        [] []
        [(PyKey.knum 279, PyVal.vStr [65]), (PyKey.knum 269, PyVal.vStr [66]),
         (PyKey.knum 279, PyVal.vStr [67])]
        rfl hmem (expandSorted_eval_nil _))
    (by decide) rfl
    (by

      have hg2 : wfGroupVal 1 (GroupSpec.mk 268 [279, 269] [] [(279, 100), (269, 101)])
          [[(PyKey.knum 279, PyVal.vStr [65]), (PyKey.knum 269, PyVal.vStr [66])],
           [(PyKey.knum 279, PyVal.vStr [67])]] = true := by
        refine wfGroupVal_eval _ _ 279 _ _ rfl ?_
        refine wfMemberList_eval_cons _ _ _ _ _ ?_ ?_
        · refine wfMemberB_eval _ _ _ _
            [(PyKey.knum 279, PyVal.vStr [65]), (PyKey.knum 269, PyVal.vStr [66])]
            rfl rfl ?_
          refine wfSortedMember_eval _ _ _ _ _ (by decide) rfl rfl ?_
          exact wfEntryList_eval_scalar _ _ _ _ _ _ (by decide) (by decide) rfl rfl
            (wfEntryList_eval_nil _ _ _)
        · refine wfMemberList_eval_cons _ _ _ _ _ ?_ (wfMemberList_eval_nil _ _ _)
          refine wfMemberB_eval _ _ _ _ [(PyKey.knum 279, PyVal.vStr [67])] rfl rfl ?_
          exact wfSortedMember_eval _ _ _ _ _ (by decide) rfl rfl (wfEntryList_eval_nil _ _ _)
      refine WFParse_eval _ _ _
        [(PyKey.knum 35, PyVal.vStr [68]), (PyKey.knum 8, PyVal.vStr [70]),
         (PyKey.knum 9, PyVal.vStr [51]),
         (PyKey.knum 268, PyVal.vGrp none none
           [[(PyKey.knum 279, PyVal.vStr [65]), (PyKey.knum 269, PyVal.vStr [66])],
            [(PyKey.knum 279, PyVal.vStr [67])]])] rfl rfl ?_
      refine wfTop_eval_scalar _ _ _ _ _ (by decide) rfl rfl ?_
      refine wfTop_eval_scalar _ _ _ _ _ (by decide) rfl rfl ?_
      refine wfTop_eval_scalar _ _ _ _ _ (by decide) rfl rfl ?_
      exact wfTop_eval_group_last _ _ _ _ _ _ _ _ (by decide) rfl hg2)

end Pyfixmsg
